import Mathlib

/-!
# ChaosCore `chaos::str::UTF8String`: a shallow embedding

The embedding follows `src/cxx/chaoscore/base/str/UTF8String.cpp`.

* A `char` buffer is a `List Nat` (one entry per byte); a `const char*` argument is the
  list of bytes readable from the pointer on.  Pointer arithmetic `&m_data[k]` is
  `m_data.drop k`.
* `std::size_t` values are `Nat`; the places where the source relies on, or is exposed
  to, wrap-around (`start + end` in `substring`, the loop bound of `find_first`, the
  decrement `--i` in `find_last`, the allocation size in `repeat`) reduce modulo
  `SIZE_MOD = 2 ^ 64` explicitly.
* A function that can throw returns `Except ex.Error _`.  Loops whose trip count is not
  fixed by a counter carry a fuel argument, supplied by the caller of the loop; running
  out of fuel is the distinguished outcome `ex.Error.Diverged`, so a statement
  `f x = .ok y` says that the source returns `y` without throwing.
-/

namespace chaos

/-- The number of values of `std::size_t` (64-bit build). -/
def SIZE_MOD : Nat := 2 ^ 64

namespace ex

/-- The exception classes of `BaseExceptions.hpp` that `UTF8String` throws, and the
model-only outcome `Diverged` (a loop of the embedding ran out of fuel). -/
inductive Error
  | ValueError
  | IndexOutOfBoundsError
  | ConversionDataError
  | Diverged
  deriving DecidableEq, Repr

end ex

deriving instance DecidableEq for Except

namespace str

open ex

/-- The largest size of an array object (`PTRDIFF_MAX` on a 64-bit build): `new char[ n ]`
does not return a buffer for a larger `n`. -/
def PTRDIFF_MAX : Nat := 2 ^ 63 - 1

/-- Modelled from the spec: `chaos::str::npos` is declared in `UTF8String.hpp`, which is
not part of the sources at hand; the spec calls it the reserved "not found" sentinel,
and `find_last` reaches it by decrementing a `std::size_t` below zero, so it is the
largest `std::size_t`. -/
def npos : Nat := SIZE_MOD - 1

/-- The three data members of `UTF8String`. -/
structure UTF8String where
  m_data : List Nat
  m_data_length : Nat
  m_length : Nat
  deriving DecidableEq, Repr

/-- The call `memcpy( dst + off, src, n )` on a buffer `dst`: bytes `off .. off + n - 1` of `dst`
are replaced by the first `n` bytes of `src`. -/
def memcpy (dst : List Nat) (off : Nat) (src : List Nat) (n : Nat) : List Nat :=
  dst.take off ++ src.take n ++ dst.drop (off + n)

/-- The expression `new char[ n ]`: a fresh buffer of `n` bytes (contents zeroed in the model; every
caller overwrites all of it). -/
def new_char (n : Nat) : List Nat := List.replicate n 0

/-- The call `strlen( data )`: the number of bytes before the first zero byte. -/
def strlen (data : List Nat) : Nat := (data.takeWhile (fun b => b != 0)).length

/-- The test `strcmp( a, b ) == 0`: the bytes before the first zero byte agree. -/
def strcmp_eq (a b : List Nat) : Bool :=
  a.takeWhile (fun c => c != 0) == b.takeWhile (fun c => c != 0)

namespace UTF8String

/-- The method `UTF8String::check_symbol_index`. -/
def check_symbol_index (s : UTF8String) (index : Nat) : Except Error Unit :=
  if index ≥ s.m_length then .error .IndexOutOfBoundsError else .ok ()

/-- The method `UTF8String::check_byte_index`. -/
def check_byte_index (s : UTF8String) (index : Nat) : Except Error Unit :=
  if index ≥ s.m_data_length then .error .IndexOutOfBoundsError else .ok ()

/-- The branch cascade of `UTF8String::get_byte_width` on the byte read. -/
def width_of_byte (b : Nat) : Nat :=
  if b &&& 0x80 = 0 then 1
  else if b &&& 0xE0 = 0xC0 then 2
  else if b &&& 0xF0 = 0xE0 then 3
  else 4

/-- The method `UTF8String::get_byte_width`. -/
def get_byte_width (s : UTF8String) (byte_index : Nat) : Except Error Nat := do
  s.check_byte_index byte_index
  pure (width_of_byte (s.m_data.getD byte_index 0))

/-- The symbol-counting loop that ends `assign_internal`:
`for ( i = 0; i < m_data_length - 1; ) { ++m_length; i += get_byte_width( i ); }`. -/
def count_loop (s : UTF8String) : Nat → Nat → Nat → Except Error Nat
  | 0, _, _ => .error .Diverged
  | fuel + 1, i, m_length =>
    if i < s.m_data_length - 1 then do
      let w ← s.get_byte_width i
      count_loop s fuel (i + w) (m_length + 1)
    else .ok m_length

/-- The method `UTF8String::assign_internal( data, existing_length )`; the receiver's previous
buffer is deleted first and nothing of it is read, so the new state is a function of
the arguments alone. -/
def assign_internal (data : List Nat) (existing_length : Nat) :
    Except Error UTF8String :=
  let is_null_terminated : Bool :=
    if existing_length = npos then true
    else if existing_length > 0 ∧ data.getD (existing_length - 1) 0 = 0 then true
    else false
  let existing_length : Nat :=
    if existing_length = npos then strlen data + 1 else existing_length
  let m_data_length : Nat :=
    if is_null_terminated then existing_length else existing_length + 1
  let m_data := memcpy (new_char m_data_length) 0 data existing_length
  let m_data := if is_null_terminated then m_data else m_data.set (m_data_length - 1) 0
  do
    let m_length ← count_loop ⟨m_data, m_data_length, 0⟩ (m_data_length + 1) 0 0
    pure ⟨m_data, m_data_length, m_length⟩

/-- The constructor `UTF8String::UTF8String()`: `assign_internal( "", 0 )`. -/
def new : Except Error UTF8String := assign_internal [0] 0

/-- Modelled from the spec: the default value of the `existing_length` parameter of
`assign_internal` is declared in `UTF8String.hpp`, which is not part of the sources at
hand; the spec has a missing length mean the "unknown" sentinel, for which the input is
scanned for its terminator. -/
def default_existing_length : Nat := npos

/-- The constructor `UTF8String::UTF8String( const char* data )`, also `assign( data )`: the call
`assign_internal( data )`, the length left to its default. -/
def of_cstr (data : List Nat) : Except Error UTF8String :=
  assign_internal data default_existing_length

/-- The constructor `UTF8String::UTF8String( const char* data, std::size_t length )`, also
`assign( data, length )`. -/
def of_data (data : List Nat) (length : Nat) : Except Error UTF8String :=
  assign_internal data length

/-- The constructor `UTF8String::UTF8String( const UTF8String& other )`, and `assign( other )`, and
`operator=`. -/
def assign (other : UTF8String) : Except Error UTF8String :=
  assign_internal other.m_data other.m_data_length

/-- The method `UTF8String::get_length`. -/
def get_length (s : UTF8String) : Nat := s.m_length

/-- The method `UTF8String::is_empty`. -/
def is_empty (s : UTF8String) : Bool := s.m_data_length ≤ 1

/-- The operator `UTF8String::operator==`. -/
def eq (s other : UTF8String) : Bool := strcmp_eq s.m_data other.m_data

/-- The operator `UTF8String::operator!=`. -/
def ne (s other : UTF8String) : Bool := !(s.eq other)

/-- The method `UTF8String::concatenate`; the sum of the two buffer sizes is taken without
reduction, as two live buffers never total `SIZE_MOD` bytes. -/
def concatenate (s other : UTF8String) : Except Error UTF8String :=
  let new_length := (s.m_data_length - 1) + other.m_data_length
  let new_data := new_char new_length
  let new_data := memcpy new_data 0 s.m_data (s.m_data_length - 1)
  let new_data := memcpy new_data (s.m_data_length - 1) other.m_data other.m_data_length
  assign_internal new_data new_length

/-- The copy loop of `UTF8String::repeat`,
`for ( i = 0; i < count; ++i ) memcpy( new_data + ( c_length * i ), m_data, m_data_length - 1 )`;
the first argument is the number of iterations left, `count - i`. -/
def repeat_loop (s : UTF8String) (c_length : Nat) : Nat → Nat → List Nat → List Nat
  | 0, _, new_data => new_data
  | n + 1, i, new_data =>
    repeat_loop s c_length n (i + 1)
      (memcpy new_data (c_length * i) s.m_data (s.m_data_length - 1))

/-- The method `UTF8String::repeat( count )`. -/
def «repeat» (s : UTF8String) (count : Nat) : Except Error UTF8String :=
  let c_length := s.m_data_length - 1
  let new_length := (c_length * count + 1) % SIZE_MOD
  let new_data := new_char new_length
  let new_data := repeat_loop s c_length count 0 new_data
  let new_data := new_data.set (new_length - 1) 0
  assign_internal new_data new_length

/-- The loop of `UTF8String::get_byte_index_for_symbol_index`. -/
def byte_index_loop (s : UTF8String) (symbol_index : Nat) :
    Nat → Nat → Nat → Except Error Nat
  | 0, _, _ => .error .Diverged
  | fuel + 1, i, current_index =>
    if i < s.m_data_length - 1 then
      if current_index = symbol_index then .ok i
      else do
        let w ← s.get_byte_width i
        byte_index_loop s symbol_index fuel (i + w) (current_index + 1)
    else .ok npos

/-- The method `UTF8String::get_byte_index_for_symbol_index`. -/
def get_byte_index_for_symbol_index (s : UTF8String) (symbol_index : Nat) :
    Except Error Nat := do
  s.check_symbol_index symbol_index
  byte_index_loop s symbol_index (s.m_data_length + 1) 0 0

/-- The method `UTF8String::get_symbol`.  The constructor is given the address of the
leading byte and the width that byte declares.  When the run is complete the
`byte_width` bytes read are stored bytes of `s`; when the terminator cuts the run short
the source reads past the end of its buffer, which has no defined result, and the list
here simply ends: that a symbol is returned is therefore stated only where its run is
complete (`Aligned`). -/
def get_symbol (s : UTF8String) (index : Nat) : Except Error UTF8String := do
  s.check_symbol_index index
  let byte_index ← s.get_byte_index_for_symbol_index index
  let byte_width ← s.get_byte_width byte_index
  of_data (s.m_data.drop byte_index) byte_width

/-- The loop of `UTF8String::substring`,
`for ( i = start; i < bound; ++i ) { result += get_symbol( i ); }`;
the first argument is the number of iterations left, `bound - i`. -/
def substring_loop (s : UTF8String) :
    Nat → Nat → UTF8String → Except Error UTF8String
  | 0, _, result => .ok result
  | n + 1, i, result => do
    let sym ← s.get_symbol i
    let result ← result.concatenate sym
    substring_loop s n (i + 1) result

/-- The method `UTF8String::substring( start, end )`; `start + end` is a `std::size_t` sum. -/
def substring (s : UTF8String) (start end_ : Nat) : Except Error UTF8String :=
  if start = s.get_length then new
  else do
    s.check_symbol_index start
    let result ← new
    let bound := min s.get_length ((start + end_) % SIZE_MOD)
    substring_loop s (bound - start) start result

/-- Modelled from the spec: `chaos::data::bytes_to_uint32` is declared in
`ByteOperations.hpp`, which is not part of the sources at hand; it packs the `width`
bytes at the pointer into a 32-bit value with the first byte in the least-significant
position (`get_code_point` takes the bits of the leading byte from the low eight bits
of the value and those of the following bytes from the next positions). -/
def bytes_to_uint32 (data : List Nat) (width : Nat) : Nat :=
  ((data.take width).foldr (fun b acc => b % 256 + 256 * acc) 0) % 2 ^ 32

/-- The method `UTF8String::get_symbol_value`.  As in `get_symbol`, the `byte_width`
bytes read are stored bytes of `s` when the run is complete; on a run cut short by the
terminator the source reads past the end of its buffer, and no result is defined. -/
def get_symbol_value (s : UTF8String) (index : Nat) : Except Error Nat := do
  s.check_symbol_index index
  let byte_index ← s.get_byte_index_for_symbol_index index
  let byte_width ← s.get_byte_width byte_index
  pure (bytes_to_uint32 (s.m_data.drop byte_index) byte_width)

/-- The loop of `UTF8String::starts_with`; the first argument is the number of
iterations left, `substring.m_length - i`. -/
def starts_with_loop (s substring : UTF8String) : Nat → Nat → Except Error Bool
  | 0, _ => .ok true
  | n + 1, i => do
    let a ← substring.get_symbol i
    let b ← s.get_symbol i
    if a.ne b then .ok false else starts_with_loop s substring n (i + 1)

/-- The method `UTF8String::starts_with`. -/
def starts_with (s substring : UTF8String) : Except Error Bool :=
  if substring.m_length > s.m_length then .ok false
  else starts_with_loop s substring substring.m_length 0

/-- The inner loop of `UTF8String::find_first` at position `i`: the final value of
`match`; the first argument is the number of iterations left, `substring.m_length - j`. -/
def find_first_match (s substring : UTF8String) (i : Nat) : Nat → Nat → Except Error Bool
  | 0, _ => .ok true
  | n + 1, j => do
    let a ← substring.get_symbol_value j
    let b ← s.get_symbol_value (i + j)
    if a ≠ b then .ok false else find_first_match s substring i n (j + 1)

/-- The outer loop of `UTF8String::find_first`; the first argument is the number of
iterations left, `bound - i`. -/
def find_first_loop (s substring : UTF8String) : Nat → Nat → Except Error Nat
  | 0, _ => .ok npos
  | n + 1, i => do
    let matched ← find_first_match s substring i substring.m_length 0
    if matched then .ok i else find_first_loop s substring n (i + 1)

/-- The method `UTF8String::find_first`; the loop bound `m_length - ( substring.m_length - 1 )`
is `std::size_t` arithmetic. -/
def find_first (s substring : UTF8String) : Except Error Nat :=
  if substring.m_length > s.m_length then .ok npos
  else
    let bound :=
      (s.m_length + SIZE_MOD - (substring.m_length + SIZE_MOD - 1) % SIZE_MOD) % SIZE_MOD
    find_first_loop s substring bound 0

/-- The loop of `UTF8String::split`; the state is `( i, element, elements )`.
`element = ""` converts the literal and assigns it; `push_back` stores `element` as it
is at that moment. -/
def split_loop (s delimiter : UTF8String) :
    Nat → Nat → UTF8String → List UTF8String → Except Error (List UTF8String)
  | 0, _, _, _ => .error .Diverged
  | fuel + 1, i, element, elements =>
    if i < s.m_length then do
      let window ← s.substring i delimiter.get_length
      if window.eq delimiter then do
        let cleared ← of_cstr [0]
        let element_new ← assign cleared
        split_loop s delimiter fuel (i + delimiter.get_length) element_new
          (elements ++ [element])
      else do
        let sym ← s.get_symbol i
        let element ← element.concatenate sym
        split_loop s delimiter fuel (i + 1) element elements
    else .ok (elements ++ [element])

/-- The method `UTF8String::split`. -/
def split (s delimiter : UTF8String) : Except Error (List UTF8String) :=
  if delimiter.is_empty then .error .ValueError
  else do
    let element ← new
    split_loop s delimiter (s.m_length + 1) 0 element []

/-- The inner loop of `UTF8String::remove_duplicates`:
`while ( input.starts_with( substring ) ) input = input.substring( ... )`. -/
def strip_loop (substring : UTF8String) : Nat → UTF8String → Except Error UTF8String
  | 0, _ => .error .Diverged
  | fuel + 1, input => do
    let b ← input.starts_with substring
    if b then do
      let rest ← input.substring substring.get_length input.get_length
      let input ← assign rest
      strip_loop substring fuel input
    else .ok input

/-- The outer loop of `UTF8String::remove_duplicates`; the state is
`( i, input, output )`. -/
def remove_duplicates_loop (substring : UTF8String) :
    Nat → Nat → UTF8String → UTF8String → Except Error UTF8String
  | 0, _, _, _ => .error .Diverged
  | fuel + 1, i, input, output =>
    if i ≠ npos then do
      let head ← input.substring 0 (i + substring.get_length)
      let output ← output.concatenate head
      let rest ← input.substring (i + substring.get_length) input.get_length
      let input ← assign rest
      let input ← strip_loop substring (input.m_length + 1) input
      let i ← input.find_first substring
      remove_duplicates_loop substring fuel i input output
    else do
      let output ← output.concatenate input
      assign output

/-- The method `UTF8String::remove_duplicates`: the state of the receiver afterwards (`input` is
copy-constructed from the receiver, `output` default-constructed). -/
def remove_duplicates (s substring : UTF8String) : Except Error UTF8String :=
  if substring.is_empty then .ok s
  else do
    let input ← assign s
    let output ← new
    let i ← input.find_first substring
    remove_duplicates_loop substring (s.m_length + 1) i input output

/-! ## Symbols, the class invariant and well-formedness -/

/-- The symbol runs of a byte sequence under the byte-width walk: each run starts at a
byte `b` and takes `width_of_byte b` bytes (fewer if the sequence ends first). -/
def symbols_aux : Nat → List Nat → List (List Nat)
  | 0, _ => []
  | _ + 1, [] => []
  | fuel + 1, b :: rest =>
    (b :: rest.take (width_of_byte b - 1)) ::
      symbols_aux fuel (rest.drop (width_of_byte b - 1))

/-- The symbol runs of a byte sequence. -/
def symbols (bytes : List Nat) : List (List Nat) := symbols_aux bytes.length bytes

/-- The stored bytes before the terminator. -/
def content (s : UTF8String) : List Nat := s.m_data.take (s.m_data_length - 1)

/-- The symbol runs of a string. -/
def syms (s : UTF8String) : List (List Nat) := symbols (content s)

/-- A run is complete when it has as many bytes as its leading byte declares. -/
def Complete (c : List Nat) : Prop := c.length = width_of_byte (c.headD 0)

instance (c : List Nat) : Decidable (Complete c) := by unfold Complete; infer_instance

/-- The class invariant that `assign_internal` establishes, hence the state of every
`UTF8String` object: the buffer is an allocated array of `m_data_length` bytes, it ends
with a zero byte, and `m_length` is the result of the symbol-counting walk. -/
def Inv (s : UTF8String) : Prop :=
  s.m_data.length = s.m_data_length ∧ s.m_data_length ≤ PTRDIFF_MAX ∧
  s.m_data.getLast? = some 0 ∧
  count_loop s (s.m_data_length + 1) 0 0 = .ok s.m_length

instance (s : UTF8String) : Decidable (Inv s) := by unfold Inv; infer_instance

/-- The byte-width walk of `s` ends exactly on the terminator: no symbol run is cut
short by the end of the string. -/
def Aligned (s : UTF8String) : Prop := ∀ c ∈ syms s, Complete c

instance (s : UTF8String) : Decidable (Aligned s) := by unfold Aligned; infer_instance

/-- A well-formed string: the class invariant holds, every stored value is a byte, no
zero byte precedes the terminator, and every symbol run is complete. -/
def WellFormed (s : UTF8String) : Prop :=
  Inv s ∧ (∀ b ∈ content s, 0 < b ∧ b < 256) ∧ Aligned s

instance (s : UTF8String) : Decidable (WellFormed s) := by unfold WellFormed; infer_instance

/-- The string whose symbol runs are `xs`. -/
def of_symbols (xs : List (List Nat)) : UTF8String :=
  ⟨xs.flatten ++ [0], xs.flatten.length + 1, xs.length⟩

/-- A complete symbol run of non-zero bytes. -/
def ValidSymbol (c : List Nat) : Prop := Complete c ∧ ∀ b ∈ c, 0 < b ∧ b < 256

/-- Symbol runs that make up a well-formed string. -/
def Valid (xs : List (List Nat)) : Prop :=
  (∀ c ∈ xs, ValidSymbol c) ∧ xs.flatten.length < PTRDIFF_MAX

/-- A valid ASCII string: the class invariant holds and every byte before the terminator
is an ASCII character other than NUL. -/
def ValidAscii (s : UTF8String) : Prop := Inv s ∧ ∀ b ∈ content s, 0 < b ∧ b < 128

instance (s : UTF8String) : Decidable (ValidAscii s) := by unfold ValidAscii; infer_instance

/-- Joining with `concatenate`: every piece of the list, preceded by the delimiter `d`,
is appended to `acc`. -/
def rejoin (d : UTF8String) : UTF8String → List UTF8String → Except Error UTF8String
  | acc, [] => .ok acc
  | acc, e :: rest => do
    let acc ← acc.concatenate d
    let acc ← acc.concatenate e
    rejoin d acc rest

/-- Joining the pieces of a list in order with `concatenate`, the delimiter `d` between
each two consecutive pieces. -/
def join (d : UTF8String) : List UTF8String → Except Error UTF8String
  | [] => new
  | e :: rest => rejoin d e rest

/-- The loop of `split` on lists of symbols (`xs` the string, `ds` the delimiter). -/
def split_symbols {α : Type} [DecidableEq α] (xs ds : List α) :
    Nat → Nat → List α → List (List α) → List (List α)
  | 0, _, element, elements => elements ++ [element]
  | fuel + 1, i, element, elements =>
    if i < xs.length then
      if (xs.drop i).take ds.length = ds then
        split_symbols xs ds fuel (i + ds.length) [] (elements ++ [element])
      else split_symbols xs ds fuel (i + 1) (element ++ (xs.drop i).take 1) elements
    else elements ++ [element]

/-- Joining lists of symbols with the delimiter `ds` between consecutive pieces. -/
def join_symbols {α : Type} (ds : List α) : List (List α) → List α
  | [] => []
  | p :: ps => p ++ (ps.map (fun e => ds ++ e)).flatten

/-- The value `get_symbol_value` computes for a symbol run `c`. -/
def symbol_value (c : List Nat) : Nat := bytes_to_uint32 c c.length

/-- The outer loop of `find_first` on lists of symbols. -/
def first_match {α : Type} [DecidableEq α] (xs ds : List α) : Nat → Nat → Nat
  | 0, _ => npos
  | n + 1, i => if (xs.drop i).take ds.length = ds then i else first_match xs ds n (i + 1)

/-- The method `find_first` on lists of symbols (`xs` the string, `ds` the needle). -/
def find_first_symbols {α : Type} [DecidableEq α] (xs ds : List α) : Nat :=
  if ds.length > xs.length then npos else first_match xs ds (xs.length + 1 - ds.length) 0

/-- The inner loop of `remove_duplicates` on lists of symbols. -/
def strip_symbols {α : Type} [DecidableEq α] (ds : List α) : Nat → List α → List α
  | 0, input => input
  | fuel + 1, input =>
    if input.take ds.length = ds then strip_symbols ds fuel (input.drop ds.length) else input

/-- The outer loop of `remove_duplicates` on lists of symbols. -/
def remove_duplicates_symbols {α : Type} [DecidableEq α] (ds : List α) :
    Nat → Nat → List α → List α → List α
  | 0, _, input, output => output ++ input
  | fuel + 1, i, input, output =>
    if i ≠ npos then
      let rest := input.drop (i + ds.length)
      let stripped := strip_symbols ds (rest.length + 1) rest
      remove_duplicates_symbols ds fuel (find_first_symbols stripped ds) stripped
        (output ++ input.take (i + ds.length))
    else output ++ input

/-- The list `xs` with every maximal run of consecutive occurrences of `c` collapsed to
one `c`: an element is dropped exactly when it is `c` and the next element is `c` too. -/
def collapse_runs {α : Type} [DecidableEq α] (c : α) : List α → List α
  | [] => []
  | x :: rest =>
    if x = c ∧ rest.head? = some c then collapse_runs c rest
    else x :: collapse_runs c rest

/-! ## Searching from the end, suffixes and the numeric predicates -/

/-- The inner loop of `UTF8String::find_last` at position `i`: the final value of
`match`; the first argument is the number of iterations left, `substring.m_length - j`. -/
def find_last_match (s substring : UTF8String) (i : Nat) : Nat → Nat → Except Error Bool
  | 0, _ => .ok true
  | n + 1, j => do
    let a ← substring.get_symbol j
    let b ← s.get_symbol (i + j)
    if a.ne b then .ok false else find_last_match s substring i n (j + 1)

/-- The outer loop of `UTF8String::find_last`,
`for ( i = ...; i != npos; --i )`; `--i` is a `std::size_t` decrement, so it takes 0
to `npos`. -/
def find_last_loop (s substring : UTF8String) : Nat → Nat → Except Error Nat
  | 0, _ => .error .Diverged
  | fuel + 1, i =>
    if i ≠ npos then do
      let matched ← find_last_match s substring i substring.m_length 0
      if matched then .ok i
      else find_last_loop s substring fuel ((i + SIZE_MOD - 1) % SIZE_MOD)
    else .ok npos

/-- The method `UTF8String::find_last`. -/
def find_last (s substring : UTF8String) : Except Error Nat :=
  if substring.m_length > s.m_length then .ok npos
  else find_last_loop s substring (s.m_length + 2) (s.m_length - substring.m_length)

/-- The loop of `UTF8String::ends_with`,
`for ( i = substring.m_length; i > 0; --i )`; the last argument is `i - 1`. -/
def ends_with_loop (s substring : UTF8String) (diff : Nat) : Nat → Except Error Bool
  | 0 => .ok true
  | i + 1 => do
    let a ← substring.get_symbol i
    let b ← s.get_symbol (diff + i)
    if a.ne b then .ok false else ends_with_loop s substring diff i

/-- The method `UTF8String::ends_with`. -/
def ends_with (s substring : UTF8String) : Except Error Bool :=
  if substring.m_length > s.m_length then .ok false
  else ends_with_loop s substring (s.m_length - substring.m_length) substring.m_length

/-- The needle `sub` matches `s` at symbol index `i`: it fits, and symbol `i + j` of `s`
is symbol `j` of `sub` for every `j`. -/
def MatchesAt (s sub : UTF8String) (i : Nat) : Prop :=
  i + sub.m_length ≤ s.m_length ∧
    ∀ j, j < sub.m_length → s.get_symbol (i + j) = sub.get_symbol j

instance (s sub : UTF8String) (i : Nat) : Decidable (MatchesAt s sub i) := by
  unfold MatchesAt; infer_instance

/-- The outer loop of `find_last` on lists of symbols. -/
def last_match {α : Type} [DecidableEq α] (xs ds : List α) : Nat → Nat → Nat
  | 0, _ => npos
  | fuel + 1, i =>
    if i ≠ npos then
      if (xs.drop i).take ds.length = ds then i
      else last_match xs ds fuel ((i + SIZE_MOD - 1) % SIZE_MOD)
    else npos

/-- The method `UTF8String::get_symbol_width`. -/
def get_symbol_width (s : UTF8String) (index : Nat) : Except Error Nat := do
  s.check_symbol_index index
  let byte_index ← s.get_byte_index_for_symbol_index index
  s.get_byte_width byte_index

/-- The method `UTF8String::get_code_point`; `value` is a `chaos::uint32`, so a left
shift drops the bits above the 32nd. -/
def get_code_point (s : UTF8String) (index : Nat) : Except Error Nat := do
  s.check_symbol_index index
  let width ← s.get_symbol_width index
  let value ← s.get_symbol_value index
  if width = 1 then pure value
  else if width = 2 then
    pure ((((value <<< 6) % 2 ^ 32) &&& 0x000007C0) ||| ((value >>> 8) &&& 0x0000003F))
  else if width = 3 then
    pure ((((value <<< 12) % 2 ^ 32) &&& 0x0000F000) ||| ((value >>> 2) &&& 0x00000FC0) |||
      ((value >>> 16) &&& 0x0000003F))
  else
    pure ((((value <<< 18) % 2 ^ 32) &&& 0x001C0000) |||
      (((value <<< 4) % 2 ^ 32) &&& 0x0003F000) ||| ((value >>> 10) &&& 0x00000FC0) |||
      ((value >>> 24) &&& 0x0000003F))

/-- Modelled from the spec: `chaos::str::is_digit` is declared in
`UnicodeOperations.hpp`, which is not part of the sources at hand; a decimal digit is a
code point from `'0'` to `'9'`. -/
def is_digit (code_point : Nat) : Bool := 48 ≤ code_point && code_point ≤ 57

/-- The loop of `UTF8String::is_int`: false when an iteration returns false, true when
the loop runs to its end; the first argument is the number of iterations left.  The
literal `"-"` is converted to a `UTF8String` for the comparison, and `get_symbol` is
called only when `i == 0`, as `&&` evaluates. -/
def is_int_loop (s : UTF8String) : Nat → Nat → Except Error Bool
  | 0, _ => .ok true
  | n + 1, i => do
    let code_point ← s.get_code_point i
    if i = 0 then do
      let symbol ← s.get_symbol i
      let minus ← of_cstr [45, 0]
      if symbol.ne minus && !is_digit code_point then .ok false
      else is_int_loop s n (i + 1)
    else if !is_digit code_point then .ok false
    else is_int_loop s n (i + 1)

/-- The method `UTF8String::is_int`. -/
def is_int (s : UTF8String) : Except Error Bool := do
  let completed ← is_int_loop s s.m_length 0
  if completed then pure (!s.is_empty) else pure false

/-- The loop of `UTF8String::is_uint`: false when an iteration returns false, true when
the loop runs to its end; the first argument is the number of iterations left. -/
def is_uint_loop (s : UTF8String) : Nat → Nat → Except Error Bool
  | 0, _ => .ok true
  | n + 1, i => do
    let value ← s.get_symbol_value i
    if !is_digit value then .ok false
    else is_uint_loop s n (i + 1)

/-- The method `UTF8String::is_uint`. -/
def is_uint (s : UTF8String) : Except Error Bool := do
  let completed ← is_uint_loop s s.m_length 0
  if completed then pure (!s.is_empty) else pure false

/-- The loop of `UTF8String::is_float`, with the state `point_found`: false when an
iteration returns false, true when the loop runs to its end; the first argument is the
number of iterations left. -/
def is_float_loop (s : UTF8String) : Nat → Nat → Bool → Except Error Bool
  | 0, _, _ => .ok true
  | n + 1, i, point_found => do
    let code_point ← s.get_symbol_value i
    if !is_digit code_point then do
      let leading_minus ←
        if i = 0 then do
          let symbol ← s.get_symbol i
          let minus ← of_cstr [45, 0]
          pure (symbol.eq minus)
        else pure false
      if leading_minus then is_float_loop s n (i + 1) point_found
      else do
        let symbol ← s.get_symbol i
        let point ← of_cstr [46, 0]
        if symbol.eq point && !point_found then is_float_loop s n (i + 1) true
        else .ok false
    else is_float_loop s n (i + 1) point_found

/-- The method `UTF8String::is_float`. -/
def is_float (s : UTF8String) : Except Error Bool := do
  let completed ← is_float_loop s s.m_length 0 false
  if completed then pure (!s.is_empty) else pure false

/-- The C library predicate `isspace` in the "C" locale. -/
def isspace (c : Nat) : Bool := c = 32 || (9 ≤ c && c ≤ 13)

/-- The value of a character as a digit for `strtol`: 0 to 9 for `'0'` to `'9'`, 10 to 35
for the letters in either case, and 36 (a digit in no base) for any other character. -/
def digit_value (c : Nat) : Nat :=
  if 48 ≤ c ∧ c ≤ 57 then c - 48
  else if 97 ≤ c ∧ c ≤ 122 then c - 87
  else if 65 ≤ c ∧ c ≤ 90 then c - 55
  else 36

/-- The digits that `strtol` consumes in the given base, accumulated from `acc`. -/
def strto_digits (base : Nat) : List Nat → Nat → Nat
  | [], acc => acc
  | c :: rest, acc =>
    if digit_value c < base then strto_digits base rest (acc * base + digit_value c)
    else acc

/-- The subject sequence that the C library functions `strtol` and `strtoul` read
(C11 7.22.1.4): white space is skipped, then an optional sign, then, for base 0, the
prefix decides the base (`0x` or `0X` before a hexadecimal digit: 16; a leading `0`: 8;
otherwise 10), then the digits of that base.  The result is the sign (true for `-`) and
the magnitude; no digits give magnitude 0. -/
def strto_parse (nptr : List Nat) (base : Nat) : Bool × Nat :=
  let nptr := nptr.dropWhile isspace
  let negative := nptr.head? = some 45
  let nptr := if nptr.head? = some 45 ∨ nptr.head? = some 43 then nptr.tail else nptr
  let hex_prefix : Bool :=
    (base = 0 ∨ base = 16) ∧ nptr.head? = some 48 ∧
      (nptr.tail.head? = some 120 ∨ nptr.tail.head? = some 88) ∧
      digit_value (nptr.tail.tail.headD 0) < 16
  if hex_prefix then (negative, strto_digits 16 nptr.tail.tail 0)
  else if base = 0 then
    if nptr.head? = some 48 then (negative, strto_digits 8 nptr 0)
    else (negative, strto_digits 10 nptr 0)
  else (negative, strto_digits base nptr 0)

/-- The C library function `strtol( nptr, NULL, base )` for a 64-bit `long`: the value
read, or `LONG_MAX` or `LONG_MIN` when it is out of range. -/
def strtol (nptr : List Nat) (base : Nat) : Int :=
  let p := strto_parse nptr base
  if p.1 then max (-(p.2 : Int)) (-(2 ^ 63 : Int)) else min (p.2 : Int) (2 ^ 63 - 1 : Int)

/-- The C library function `strtoul( nptr, NULL, base )` for a 64-bit `unsigned long`:
the value read, negated in the unsigned type after a `-`, or `ULONG_MAX` when it is out
of range. -/
def strtoul (nptr : List Nat) (base : Nat) : Nat :=
  let p := strto_parse nptr base
  if p.2 ≥ SIZE_MOD then SIZE_MOD - 1
  else if p.1 then (SIZE_MOD - p.2) % SIZE_MOD else p.2

/-- The conversion of an integer to a signed integer type of `bits` bits. -/
def to_signed (bits : Nat) (x : Int) : Int :=
  (x + 2 ^ (bits - 1)) % 2 ^ bits - 2 ^ (bits - 1)

/-- The loop of `UTF8String::to_bool`; the first argument is the number of iterations
left.  The literal `"0"` is converted to a `UTF8String` for the comparison. -/
def to_bool_loop (s : UTF8String) : Nat → Nat → Except Error Bool
  | 0, _ => .ok false
  | n + 1, i => do
    let symbol ← s.get_symbol i
    let zero ← of_cstr [48, 0]
    if symbol.ne zero then .ok true else to_bool_loop s n (i + 1)

/-- The method `UTF8String::to_bool`; the message of the exception is built with `<<`
and plays no part in what is thrown. -/
def to_bool (s : UTF8String) : Except Error Bool := do
  let valid ← s.is_int
  if !valid then .error .ConversionDataError
  else to_bool_loop s s.get_length 0

/-- The method `UTF8String::to_int32`: `static_cast< chaos::int32 >( std::strtol(
get_raw(), NULL, 0 ) )`. -/
def to_int32 (s : UTF8String) : Except Error Int := do
  let valid ← s.is_int
  if !valid then .error .ConversionDataError
  else pure (to_signed 32 (strtol s.m_data 0))

/-- The method `UTF8String::to_uint32`: `static_cast< chaos::uint32 >( strtoul(
get_raw(), NULL, 0 ) )`. -/
def to_uint32 (s : UTF8String) : Except Error Nat := do
  let valid ← s.is_uint
  if !valid then .error .ConversionDataError
  else pure (strtoul s.m_data 0 % 2 ^ 32)

/-- The method `UTF8String::to_int64`: `static_cast< chaos::int64 >( std::strtol(
get_raw(), NULL, 0 ) )`. -/
def to_int64 (s : UTF8String) : Except Error Int := do
  let valid ← s.is_int
  if !valid then .error .ConversionDataError
  else pure (to_signed 64 (strtol s.m_data 0))

/-- The method `UTF8String::to_uint64`, whose return type is `chaos::int64`: the
`chaos::uint64` that `std::strtoul( get_raw(), NULL, 0 )` gives, converted to that
type. -/
def to_uint64 (s : UTF8String) : Except Error Int := do
  let valid ← s.is_uint
  if !valid then .error .ConversionDataError
  else pure (to_signed 64 (strtoul s.m_data 0 % 2 ^ 64 : Nat))


/-- The base-10 integer that the specification reads from the bytes of a string before
its terminator: an optional leading `-`, then decimal digits, leading zeros permitted.
This follows the wording of the specification, for comparison with `to_int32`. -/
def spec_decimal_value (bytes : List Nat) : Int :=
  match bytes with
  | 45 :: digits => -((digits.foldl (fun acc b => acc * 10 + (b - 48)) 0 : Nat) : Int)
  | digits => ((digits.foldl (fun acc b => acc * 10 + (b - 48)) 0 : Nat) : Int)

/-! ## Properties of the stored state -/

/-- The buffer of `s` holds `m_data_length` bytes, at least one, and the last of them,
at index `m_data_length - 1`, is zero. -/
def Terminated (s : UTF8String) : Prop :=
  1 ≤ s.m_data_length ∧ s.m_data.length = s.m_data_length ∧
  s.m_data[s.m_data_length - 1]? = some 0

instance (s : UTF8String) : Decidable (Terminated s) := by unfold Terminated; infer_instance

/-- The symbol length of `s` is the number of steps of the byte-width walk over its
buffer: the walk of `assign_internal`, run on `s`, ends with `m_length`, and `m_length` is
the number of symbol runs that the walk cuts the bytes before the terminator into. -/
def Counted (s : UTF8String) : Prop :=
  count_loop s (s.m_data_length + 1) 0 0 = .ok s.m_length ∧ s.m_length = (syms s).length

instance (s : UTF8String) : Decidable (Counted s) := by unfold Counted; infer_instance

/-- The offset that the byte-width walk over the buffer of `s` reaches after `k` steps:
the sum of the byte widths read at the first `k` offsets of the walk. -/
def walk (s : UTF8String) : Nat → Nat
  | 0 => 0
  | k + 1 => walk s k + width_of_byte (s.m_data.getD (walk s k) 0)

/-- The loop of `UTF8String::operator<`; the first argument is the number of iterations
left, and the value returned after the loop is `get_length() < other.get_length()`. -/
def lt_loop (s other : UTF8String) : Nat → Nat → Except Error Bool
  | 0, _ => pure (decide (s.get_length < other.get_length))
  | n + 1, i => do
    let a ← s.get_code_point i
    let b ← other.get_code_point i
    if a < b then pure true
    else if b < a then pure false
    else lt_loop s other n (i + 1)

/-- The operator `UTF8String::operator<`. -/
def lt (s other : UTF8String) : Except Error Bool :=
  lt_loop s other (min s.get_length other.get_length) 0

/-- The Unicode scalar value that a UTF-8 sequence of one to four bytes encodes
(RFC 3629, section 3): the payload bits `x` of `0xxxxxxx`, of `110xxxxx 10xxxxxx`, of
`1110xxxx 10xxxxxx 10xxxxxx` and of `11110xxx 10xxxxxx 10xxxxxx 10xxxxxx`, joined in
order.  This follows the wording of the specification, for comparison with
`get_code_point`. -/
def utf8_scalar_value (c : List Nat) : Nat :=
  match c with
  | [b0] => b0 % 128
  | [b0, b1] => b0 % 32 * 64 + b1 % 64
  | [b0, b1, b2] => b0 % 16 * 4096 + b1 % 64 * 64 + b2 % 64
  | [b0, b1, b2, b3] => b0 % 8 * 262144 + b1 % 64 * 4096 + b2 % 64 * 64 + b3 % 64
  | _ => 0

/-- The loop of `UTF8String::get_symbol_index_for_byte_index`. -/
def symbol_index_loop (s : UTF8String) (byte_index : Nat) :
    Nat → Nat → Nat → Except Error Nat
  | 0, _, _ => .error .Diverged
  | fuel + 1, i, current_index =>
    if i < s.m_data_length - 1 then do
      let w ← s.get_byte_width i
      let next := i + w
      if byte_index ≥ i ∧ byte_index < next then .ok current_index
      else symbol_index_loop s byte_index fuel next (current_index + 1)
    else .ok npos

/-- The method `UTF8String::get_symbol_index_for_byte_index`. -/
def get_symbol_index_for_byte_index (s : UTF8String) (byte_index : Nat) :
    Except Error Nat := do
  s.check_byte_index byte_index
  symbol_index_loop s byte_index (s.m_data_length + 1) 0 0

/-! ## Well-formed UTF-8 -/

/-- A well-formed UTF-8 byte sequence as the Unicode Standard lists them (Table 3-7,
"Well-Formed UTF-8 Byte Sequences"), the zero byte left out, as the class keeps it for
the terminator.  Overlong forms, surrogates and values above `10FFFF` are not in the
table. -/
def WellFormedSequence (c : List Nat) : Prop :=
  match c with
  | [b0] => 0x01 ≤ b0 ∧ b0 ≤ 0x7F
  | [b0, b1] => 0xC2 ≤ b0 ∧ b0 ≤ 0xDF ∧ 0x80 ≤ b1 ∧ b1 ≤ 0xBF
  | [b0, b1, b2] =>
    ((b0 = 0xE0 ∧ 0xA0 ≤ b1 ∧ b1 ≤ 0xBF) ∨ (0xE1 ≤ b0 ∧ b0 ≤ 0xEC ∧ 0x80 ≤ b1 ∧ b1 ≤ 0xBF) ∨
      (b0 = 0xED ∧ 0x80 ≤ b1 ∧ b1 ≤ 0x9F) ∨
      (0xEE ≤ b0 ∧ b0 ≤ 0xEF ∧ 0x80 ≤ b1 ∧ b1 ≤ 0xBF)) ∧
    0x80 ≤ b2 ∧ b2 ≤ 0xBF
  | [b0, b1, b2, b3] =>
    ((b0 = 0xF0 ∧ 0x90 ≤ b1 ∧ b1 ≤ 0xBF) ∨ (0xF1 ≤ b0 ∧ b0 ≤ 0xF3 ∧ 0x80 ≤ b1 ∧ b1 ≤ 0xBF) ∨
      (b0 = 0xF4 ∧ 0x80 ≤ b1 ∧ b1 ≤ 0x8F)) ∧
    0x80 ≤ b2 ∧ b2 ≤ 0xBF ∧ 0x80 ≤ b3 ∧ b3 ≤ 0xBF
  | _ => False

instance (c : List Nat) : Decidable (WellFormedSequence c) := by
  unfold WellFormedSequence
  split <;> infer_instance

/-- A string of well-formed UTF-8: the class invariant holds and every symbol run that the
byte-width walk cuts from the bytes before the terminator is a well-formed UTF-8 byte
sequence. -/
def WellFormedUTF8 (s : UTF8String) : Prop := Inv s ∧ ∀ c ∈ syms s, WellFormedSequence c

instance (s : UTF8String) : Decidable (WellFormedUTF8 s) := by
  unfold WellFormedUTF8; infer_instance

/-- The value of `operator<` on the lists of the code points of two strings. -/
def lex_lt : List Nat → List Nat → Bool
  | [], [] => false
  | [], _ :: _ => true
  | _ :: _, [] => false
  | x :: xs, y :: ys => if x < y then true else if y < x then false else lex_lt xs ys

/-- The method `remove_duplicates` on lists of symbols (`ds` the substring, `xs` the
string). -/
def remove_duplicates_list {α : Type} [DecidableEq α] (ds xs : List α) : List α :=
  remove_duplicates_symbols ds (xs.length + 1) (find_first_symbols xs ds) xs []

/-- The list left of `xs` after the match of `ds` at `p`, the copies of `ds` that follow
it stripped, as `remove_duplicates` continues with it. -/
def after_match {α : Type} [DecidableEq α] (ds xs : List α) (p : Nat) : List α :=
  strip_symbols ds ((xs.drop (p + ds.length)).length + 1) (xs.drop (p + ds.length))
/-! ## Basic facts -/

theorem width_of_byte_pos (b : Nat) : 1 ≤ width_of_byte b := by
  unfold width_of_byte; split_ifs <;> omega

theorem width_of_byte_le (b : Nat) : width_of_byte b ≤ 4 := by
  unfold width_of_byte; split_ifs <;> omega

theorem get_byte_width_ok (s : UTF8String) (i : Nat) (h : i < s.m_data_length) :
    s.get_byte_width i = .ok (width_of_byte (s.m_data.getD i 0)) := by
  simp [get_byte_width, check_byte_index, not_le.mpr h, bind, Except.bind, pure, Except.pure]

theorem symbols_aux_fuel : ∀ (fuel : Nat) (bs : List Nat), bs.length ≤ fuel →
    symbols_aux fuel bs = symbols bs := by
  have key : ∀ (f1 f2 : Nat) (bs : List Nat), bs.length ≤ f1 → bs.length ≤ f2 →
      symbols_aux f1 bs = symbols_aux f2 bs := by
    intro f1
    induction f1 with
    | zero =>
      intro f2 bs h1 _
      have : bs = [] := List.length_eq_zero.mp (Nat.le_zero.mp h1)
      subst this
      cases f2 <;> rfl
    | succ n ih =>
      intro f2 bs h1 h2
      cases bs with
      | nil => cases f2 <;> rfl
      | cons b rest =>
        cases f2 with
        | zero => simp at h2
        | succ m =>
          simp only [symbols_aux]
          congr 1
          apply ih
          · simp at h1 ⊢; omega
          · simp at h2 ⊢; omega
  intro fuel bs h
  exact key fuel bs.length bs h (le_refl _)

@[simp] theorem symbols_nil : symbols [] = [] := rfl

theorem symbols_cons (b : Nat) (rest : List Nat) :
    symbols (b :: rest) =
      (b :: rest.take (width_of_byte b - 1)) :: symbols (rest.drop (width_of_byte b - 1)) := by
  show symbols_aux (rest.length + 1) (b :: rest) = _
  simp only [symbols_aux]
  congr 1
  apply symbols_aux_fuel
  simp

theorem symbols_flatten (bs : List Nat) : (symbols bs).flatten = bs := by
  generalize h : bs.length = n
  induction n using Nat.strong_induction_on generalizing bs with
  | _ n ih =>
    cases bs with
    | nil => rfl
    | cons b rest =>
      rw [symbols_cons, List.flatten_cons, ih _ _ _ rfl]
      · simp
      · subst h; simp; omega

theorem symbols_append (A B : List Nat) (h : ∀ c ∈ symbols A, Complete c) :
    symbols (A ++ B) = symbols A ++ symbols B := by
  generalize hn : A.length = n
  induction n using Nat.strong_induction_on generalizing A with
  | _ n ih =>
    cases A with
    | nil => simp
    | cons b rest =>
      rw [symbols_cons] at h
      have hc := h _ (List.mem_cons_self _ _)
      have hw : width_of_byte b - 1 ≤ rest.length := by
        simp [Complete] at hc
        have := width_of_byte_pos b
        omega
      rw [List.cons_append, symbols_cons, symbols_cons, List.take_append_of_le_length hw,
        List.drop_append_of_le_length hw, List.cons_append]
      congr 1
      apply ih _ _ _ _ rfl
      · subst hn; simp; omega
      · intro c hcm
        exact h c (List.mem_cons_of_mem _ hcm)

theorem content_drop_cons (s : UTF8String) (i : Nat) (hi : i < s.m_data_length - 1)
    (hlen : s.m_data_length - 1 ≤ s.m_data.length) :
    (content s).drop i = s.m_data.getD i 0 :: (content s).drop (i + 1) := by
  have h1 : i < (content s).length := by simp [content]; omega
  rw [List.drop_eq_getElem_cons h1]
  congr 1
  simp only [content, List.getElem_take]
  rw [List.getD_eq_getElem]

theorem count_loop_eq (s : UTF8String) (hlen : s.m_data_length - 1 ≤ s.m_data.length) :
    ∀ (fuel i c : Nat), s.m_data_length - 1 - i < fuel →
      count_loop s fuel i c = .ok (c + (symbols ((content s).drop i)).length) := by
  intro fuel
  induction fuel with
  | zero => intro i c h; omega
  | succ n ih =>
    intro i c h
    unfold count_loop
    by_cases hi : i < s.m_data_length - 1
    · have hw := width_of_byte_pos (s.m_data.getD i 0)
      simp only [hi, if_true, get_byte_width_ok s i (by omega), bind, Except.bind]
      rw [ih _ _ (by omega), content_drop_cons s i hi hlen, symbols_cons]
      simp only [List.length_cons, List.drop_drop]
      have e : i + 1 + (width_of_byte (s.m_data.getD i 0) - 1) =
          i + width_of_byte (s.m_data.getD i 0) := by omega
      rw [e]
      congr 1
      omega
    · have : (content s).drop i = [] := by
        apply List.drop_eq_nil_of_le
        simp [content]; omega
      simp [hi, this]

/-! ## `assign_internal` and the class invariant -/

theorem npos_eq : npos = 2 ^ 64 - 1 := rfl

theorem PTRDIFF_MAX_eq : PTRDIFF_MAX = 2 ^ 63 - 1 := rfl

theorem SIZE_MOD_eq : SIZE_MOD = 2 ^ 64 := rfl

theorem memcpy_new_char (n k : Nat) (data : List Nat) :
    memcpy (new_char n) 0 data k = data.take k ++ List.replicate (n - k) 0 := by
  simp [memcpy, new_char]

/-- The explicit-length branch of `assign_internal` that finds a terminator in place. -/
theorem assign_internal_terminated (data : List Nat) (n : Nat) (hn : 0 < n) (hnp : n ≠ npos)
    (hlen : n ≤ data.length) (h0 : data.getD (n - 1) 0 = 0) :
    assign_internal data n =
      .ok ⟨data.take n, n, (symbols (data.take (n - 1))).length⟩ := by
  unfold assign_internal
  simp only [hnp, if_false, hn, h0, and_self, if_true, memcpy_new_char, Nat.sub_self,
    List.replicate_zero, List.append_nil]
  rw [count_loop_eq _ (by simp; omega) _ _ _ (by dsimp only; omega)]
  simp [bind, Except.bind, pure, Except.pure, content, List.take_take]

/-- The explicit-length branch of `assign_internal` that appends the terminator. -/
theorem assign_internal_unterminated (data : List Nat) (n : Nat) (hnp : n ≠ npos)
    (hlen : n ≤ data.length) (h0 : ¬ (0 < n ∧ data.getD (n - 1) 0 = 0)) :
    assign_internal data n =
      .ok ⟨data.take n ++ [0], n + 1, (symbols (data.take n)).length⟩ := by
  unfold assign_internal
  have hset : (data.take n ++ List.replicate (n + 1 - n) 0).set (n + 1 - 1) 0 =
      data.take n ++ [0] := by
    have e1 : n + 1 - n = 1 := by omega
    have e2 : n + 1 - 1 - (data.take n).length = 0 := by simp; omega
    rw [e1, List.set_append_right _ _ (by simp), e2]
    rfl
  simp only [hnp, if_false, h0, memcpy_new_char, Bool.false_eq_true, hset]
  rw [count_loop_eq _ (by simp; omega) _ _ _ (by dsimp only; omega)]
  simp [bind, Except.bind, pure, Except.pure, content, List.take_take,
    List.take_append_of_le_length, hlen]

theorem Inv.data_eq {s : UTF8String} (h : Inv s) : s.m_data = content s ++ [0] := by
  obtain ⟨h1, _, h3, _⟩ := h
  have := @List.dropLast_append_getLast? _ s.m_data 0 (by simp [h3])
  rw [List.dropLast_eq_take, h1] at this
  exact this.symm

theorem Inv.pos {s : UTF8String} (h : Inv s) : 1 ≤ s.m_data_length := by
  have h1 := h.1
  have h2 := h.data_eq
  rw [h2] at h1
  simp at h1
  omega

theorem Inv.content_length {s : UTF8String} (h : Inv s) :
    (content s).length = s.m_data_length - 1 := by
  have := h.1
  simp [content]; omega

theorem Inv.length_eq {s : UTF8String} (h : Inv s) : s.m_length = (syms s).length := by
  obtain ⟨h1, _, _, h4⟩ := h
  rw [count_loop_eq s (by omega) _ _ _ (by omega)] at h4
  simp at h4
  exact h4.symm

theorem concatenate_eq (a b : UTF8String) (ha : Inv a) (hb : Inv b) :
    a.concatenate b = .ok ⟨content a ++ b.m_data, a.m_data_length - 1 + b.m_data_length,
      (symbols (content a ++ content b)).length⟩ := by
  have hbl := hb.1
  have hbp := hb.pos
  have hal := ha.content_length
  have hdata : memcpy (memcpy (new_char (a.m_data_length - 1 + b.m_data_length)) 0 a.m_data
      (a.m_data_length - 1)) (a.m_data_length - 1) b.m_data b.m_data_length =
      content a ++ b.m_data := by
    rw [memcpy_new_char]
    have e : a.m_data_length - 1 + b.m_data_length - (a.m_data_length - 1) = b.m_data_length := by
      omega
    rw [e]
    show memcpy (content a ++ _) _ _ _ = _
    unfold memcpy
    rw [← hal, List.take_left, ← hbl, List.take_length, List.drop_append_eq_append_drop]
    simp
  unfold concatenate
  simp only [hdata]
  have hP := ha.2.1
  have hQ := hb.2.1
  rw [PTRDIFF_MAX_eq] at hP hQ
  have hlen : (content a ++ b.m_data).length = a.m_data_length - 1 + b.m_data_length := by
    simp [hal, hbl]
  rw [assign_internal_terminated _ _ (by omega) (by rw [npos_eq]; omega) (by omega)]
  · rw [← hlen, List.take_length]
    congr 3
    rw [hb.data_eq, ← List.append_assoc]
    have : (content a ++ content b ++ [0]).length - 1 = (content a ++ content b).length := by
      simp
    rw [this, List.take_left]
  · rw [List.getD_eq_getElem?_getD, ← hlen, ← List.getLast?_eq_getElem?]
    simp [hb.2.2.1]

theorem symbols_tile (A : List Nat) (h : ∀ c ∈ symbols A, Complete c) (n : Nat) :
    symbols (List.replicate n A).flatten = (List.replicate n (symbols A)).flatten := by
  induction n with
  | zero => rfl
  | succ k ih =>
    rw [List.replicate_succ, List.flatten_cons, symbols_append _ _ h, ih, List.replicate_succ,
      List.flatten_cons]

theorem length_tile {α : Type} (A : List α) (n : Nat) :
    (List.replicate n A).flatten.length = A.length * n := by
  induction n with
  | zero => rfl
  | succ k ih => rw [List.replicate_succ, List.flatten_cons, List.length_append, ih]; ring

theorem repeat_loop_eq (s : UTF8String) (hs : Inv s) :
    ∀ (n i : Nat) (P : List Nat), P.length = (s.m_data_length - 1) * i →
      repeat_loop s (s.m_data_length - 1) n i
          (P ++ List.replicate ((s.m_data_length - 1) * n + 1) 0) =
        P ++ (List.replicate n (content s)).flatten ++ [0] := by
  intro n
  induction n with
  | zero => intro i P _; simp [repeat_loop]
  | succ k ih =>
    intro i P hP
    have hc := hs.content_length
    have hstep : memcpy (P ++ List.replicate ((s.m_data_length - 1) * (k + 1) + 1) 0)
        ((s.m_data_length - 1) * i) s.m_data (s.m_data_length - 1) =
        (P ++ content s) ++ List.replicate ((s.m_data_length - 1) * k + 1) 0 := by
      unfold memcpy
      rw [← hP, List.take_left, List.drop_append_eq_append_drop]
      have e1 : P.length + (s.m_data_length - 1) - P.length = s.m_data_length - 1 := by omega
      have e2 : (s.m_data_length - 1) * (k + 1) + 1 - (s.m_data_length - 1) =
          (s.m_data_length - 1) * k + 1 := by
        rw [Nat.mul_succ]; omega
      rw [List.drop_of_length_le (by omega), e1, List.drop_replicate, e2]
      simp [content]
    unfold repeat_loop
    rw [hstep, ih (i + 1) (P ++ content s) (by simp [hP, hc]; ring)]
    simp [List.replicate_succ]

theorem repeat_eq (s : UTF8String) (count : Nat) (hs : Inv s)
    (hsize : (s.m_data_length - 1) * count + 1 < npos) :
    s.repeat count = .ok ⟨(List.replicate count (content s)).flatten ++ [0],
      (s.m_data_length - 1) * count + 1,
      (symbols (List.replicate count (content s)).flatten).length⟩ := by
  have hmod : ((s.m_data_length - 1) * count + 1) % SIZE_MOD =
      (s.m_data_length - 1) * count + 1 := by
    apply Nat.mod_eq_of_lt
    rw [npos_eq] at hsize; rw [SIZE_MOD_eq]; omega
  have hloop := repeat_loop_eq s hs count 0 [] (by simp)
  simp only [List.nil_append] at hloop
  have hlen : ((List.replicate count (content s)).flatten ++ [0]).length =
      (s.m_data_length - 1) * count + 1 := by
    rw [List.length_append, length_tile, hs.content_length]; rfl
  have hlen2 : (List.replicate count (content s)).flatten.length =
      (s.m_data_length - 1) * count := by
    rw [length_tile, hs.content_length]
  unfold «repeat»
  simp only [hmod, new_char, hloop]
  have hset : ((List.replicate count (content s)).flatten ++ [0]).set
      ((s.m_data_length - 1) * count + 1 - 1) 0 =
      (List.replicate count (content s)).flatten ++ [0] := by
    rw [List.set_append_right _ _ (by rw [hlen2]; omega)]
    have : (s.m_data_length - 1) * count + 1 - 1 -
        (List.replicate count (content s)).flatten.length = 0 := by rw [hlen2]; omega
    rw [this]; rfl
  rw [hset, assign_internal_terminated _ _ (by omega) (by omega) (by omega)]
  · rw [← hlen, List.take_length]
    congr 3
    have : ((List.replicate count (content s)).flatten ++ [0]).length - 1 =
        (List.replicate count (content s)).flatten.length := by simp
    rw [this, List.take_left]
  · rw [List.getD_eq_getElem?_getD, ← hlen, ← List.getLast?_eq_getElem?]
    simp

/-! ## Totality: no exception on valid indices -/

theorem count_loop_total (s : UTF8String) :
    ∀ (fuel i c : Nat), s.m_data_length - 1 - i < fuel → ∃ m, count_loop s fuel i c = .ok m := by
  intro fuel
  induction fuel with
  | zero => intro i c h; omega
  | succ n ih =>
    intro i c h
    unfold count_loop
    by_cases hi : i < s.m_data_length - 1
    · have hw := width_of_byte_pos (s.m_data.getD i 0)
      simp only [hi, if_true, get_byte_width_ok s i (by omega), bind, Except.bind]
      exact ih _ _ (by omega)
    · exact ⟨c, by simp [hi]⟩

theorem assign_internal_total (data : List Nat) (n : Nat) :
    ∃ r, assign_internal data n = .ok r := by
  unfold assign_internal
  simp only [bind, Except.bind, pure, Except.pure]
  split
  · rename_i e he
    obtain ⟨m, hm⟩ := count_loop_total _ _ 0 0 (by dsimp only; omega) |>.imp fun _ h => he ▸ h
    cases hm
  · exact ⟨_, rfl⟩

theorem concatenate_total (a b : UTF8String) : ∃ r, a.concatenate b = .ok r :=
  assign_internal_total _ _

theorem byte_index_loop_of_count (s : UTF8String) (k : Nat) :
    ∀ (fuel i c m : Nat), count_loop s fuel i c = .ok m → c ≤ k → k < m →
      ∃ bi, byte_index_loop s k fuel i c = .ok bi ∧ bi < s.m_data_length - 1 := by
  intro fuel
  induction fuel with
  | zero => intro i c m h; simp [count_loop] at h
  | succ n ih =>
    intro i c m h hck hkm
    unfold count_loop at h
    unfold byte_index_loop
    by_cases hi : i < s.m_data_length - 1
    · by_cases hc : c = k
      · exact ⟨i, by simp [hi, hc], hi⟩
      · simp only [hi, if_true, get_byte_width_ok s i (by omega), bind, Except.bind] at h
        simp only [hi, if_true, hc, if_false, get_byte_width_ok s i (by omega), bind,
          Except.bind]
        exact ih _ _ _ h (by omega) hkm
    · simp [hi] at h
      omega

theorem get_symbol_total (s : UTF8String)
    (h : count_loop s (s.m_data_length + 1) 0 0 = .ok s.m_length) (i : Nat)
    (hi : i < s.m_length) : ∃ r, s.get_symbol i = .ok r := by
  obtain ⟨bi, hbi, hlt⟩ := byte_index_loop_of_count s i _ 0 0 _ h (Nat.zero_le _) hi
  unfold get_symbol get_byte_index_for_symbol_index
  simp only [check_symbol_index, not_le.mpr hi, ge_iff_le, if_false, bind, Except.bind, hbi,
    get_byte_width_ok s bi (by omega)]
  exact assign_internal_total _ _

theorem substring_loop_total (s : UTF8String)
    (h : count_loop s (s.m_data_length + 1) 0 0 = .ok s.m_length) :
    ∀ (n i : Nat) (result : UTF8String), i + n ≤ s.m_length →
      ∃ r, substring_loop s n i result = .ok r := by
  intro n
  induction n with
  | zero => intro i result _; exact ⟨result, rfl⟩
  | succ k ih =>
    intro i result hle
    obtain ⟨sym, hsym⟩ := get_symbol_total s h i (by omega)
    obtain ⟨r1, hr1⟩ := concatenate_total result sym
    unfold substring_loop
    simp only [hsym, hr1, bind, Except.bind]
    exact ih _ _ (by omega)

theorem new_eq : new = .ok ⟨[0], 1, 0⟩ := by decide

theorem substring_total (s : UTF8String)
    (h : count_loop s (s.m_data_length + 1) 0 0 = .ok s.m_length) (start end_ : Nat)
    (hs : start ≤ s.m_length) : ∃ r, s.substring start end_ = .ok r := by
  unfold substring
  by_cases he : start = s.get_length
  · simp [he, new_eq]
  · have hlt : start < s.m_length := by
      simp only [get_length] at he
      omega
    simp only [he, if_false, check_symbol_index, not_le.mpr hlt, ge_iff_le, new_eq, bind,
      Except.bind]
    apply substring_loop_total s h
    simp only [get_length]
    omega

theorem count_loop_mono (s : UTF8String) :
    ∀ (fuel i c m : Nat), count_loop s fuel i c = .ok m → c ≤ m := by
  intro fuel
  induction fuel with
  | zero => intro i c m h; simp [count_loop] at h
  | succ n ih =>
    intro i c m h
    unfold count_loop at h
    by_cases hi : i < s.m_data_length - 1
    · simp only [hi, if_true, get_byte_width_ok s i (by omega), bind, Except.bind] at h
      have := ih _ _ _ h
      omega
    · simp [hi] at h
      omega

theorem Inv.length_pos {d : UTF8String} (hd : Inv d) (hne : d.is_empty = false) :
    1 ≤ d.m_length := by
  have h := hd.2.2.2
  have h2 : 1 < d.m_data_length := by simpa [is_empty] using hne
  unfold count_loop at h
  simp only [show 0 < d.m_data_length - 1 by omega, if_true,
    get_byte_width_ok d 0 (by omega), bind, Except.bind] at h
  have := count_loop_mono _ _ _ _ _ h
  omega

theorem split_loop_total (s d : UTF8String) (hs : Inv s) (hd : 1 ≤ d.m_length) :
    ∀ (fuel i : Nat) (element : UTF8String) (elements : List UTF8String),
      s.m_length - i < fuel →
      ∃ r, split_loop s d fuel i element elements = .ok r ∧ r ≠ [] := by
  intro fuel
  induction fuel with
  | zero => intro i _ _ h; omega
  | succ n ih =>
    intro i element elements hf
    unfold split_loop
    by_cases hi : i < s.m_length
    · obtain ⟨w, hw⟩ := substring_total s hs.2.2.2 i d.get_length (by omega)
      simp only [hi, if_true, hw, bind, Except.bind]
      by_cases he : w.eq d = true
      · obtain ⟨c, hc⟩ := assign_internal_total [0] npos
        obtain ⟨c2, hc2⟩ := assign_internal_total c.m_data c.m_data_length
        simp only [he, if_true, of_cstr, assign, hc, hc2]
        exact ih _ _ _ (by simp only [get_length]; omega)
      · obtain ⟨sym, hsym⟩ := get_symbol_total s hs.2.2.2 i hi
        obtain ⟨e2, he2⟩ := concatenate_total element sym
        simp only [he, if_false, hsym, he2]
        exact ih _ _ _ (by omega)
    · exact ⟨elements ++ [element], by simp [hi], by simp⟩

/-! ## Well-formed strings as lists of symbol runs -/

theorem Complete.ne_nil {c : List Nat} (h : Complete c) : c ≠ [] := by
  intro hc
  subst hc
  have := width_of_byte_pos 0
  simp [Complete] at h
  omega

theorem Complete.length_le {c : List Nat} (h : Complete c) : c.length ≤ 4 := by
  unfold Complete at h
  rw [h]
  exact width_of_byte_le _

theorem symbols_complete (c : List Nat) (h : Complete c) : symbols c = [c] := by
  cases c with
  | nil => exact absurd rfl h.ne_nil
  | cons b t =>
    have hw : t.length = width_of_byte b - 1 := by
      simp [Complete] at h
      omega
    rw [symbols_cons, ← hw]
    simp

theorem symbols_of_complete (xs : List (List Nat)) (h : ∀ c ∈ xs, Complete c) :
    symbols xs.flatten = xs := by
  induction xs with
  | nil => rfl
  | cons c rest ih =>
    have hc := h c (List.mem_cons_self _ _)
    rw [List.flatten_cons, symbols_append, symbols_complete c hc,
      ih (fun d hd => h d (List.mem_cons_of_mem _ hd))]
    · rfl
    · rw [symbols_complete c hc]
      intro d hd
      rw [List.mem_singleton] at hd
      exact hd ▸ hc

theorem Valid.complete {xs : List (List Nat)} (h : Valid xs) : ∀ c ∈ xs, Complete c :=
  fun c hc => (h.1 c hc).1

theorem Valid.nil : Valid [] := ⟨by simp, by decide⟩

theorem Valid.append_left {xs ys : List (List Nat)} (h : Valid (xs ++ ys)) : Valid xs :=
  ⟨fun c hc => h.1 c (List.mem_append_left _ hc), by
    have := h.2
    rw [List.flatten_append, List.length_append] at this
    omega⟩

theorem Valid.append_right {xs ys : List (List Nat)} (h : Valid (xs ++ ys)) : Valid ys :=
  ⟨fun c hc => h.1 c (List.mem_append_right _ hc), by
    have := h.2
    rw [List.flatten_append, List.length_append] at this
    omega⟩

theorem Valid.take {xs : List (List Nat)} (h : Valid xs) (n : Nat) : Valid (xs.take n) := by
  rw [← List.take_append_drop n xs] at h
  exact h.append_left

theorem Valid.drop {xs : List (List Nat)} (h : Valid xs) (n : Nat) : Valid (xs.drop n) := by
  rw [← List.take_append_drop n xs] at h
  exact h.append_right

theorem Valid.singleton {xs : List (List Nat)} (h : Valid xs) (i : Nat) (hi : i < xs.length) :
    Valid [xs[i]] := by
  have := (h.drop i).take 1
  rwa [List.drop_eq_getElem_cons hi, List.take_succ_cons, List.take_zero] at this

theorem syms_of_symbols (xs : List (List Nat)) (h : ∀ c ∈ xs, Complete c) :
    syms (of_symbols xs) = xs := by
  simp [syms, content, of_symbols, symbols_of_complete xs h]

theorem Valid.inv {xs : List (List Nat)} (h : Valid xs) : Inv (of_symbols xs) := by
  have hP := h.2
  rw [PTRDIFF_MAX_eq] at hP
  refine ⟨by simp [of_symbols], by simp only [of_symbols]; rw [PTRDIFF_MAX_eq]; omega,
    by simp [of_symbols], ?_⟩
  rw [count_loop_eq _ (by simp [of_symbols]) _ _ _ (by omega)]
  have := syms_of_symbols xs h.complete
  simp only [syms] at this
  simp [this]
  rfl

theorem Valid.wellFormed {xs : List (List Nat)} (h : Valid xs) : WellFormed (of_symbols xs) := by
  refine ⟨h.inv, ?_, ?_⟩
  · intro b hb
    simp [content, of_symbols] at hb
    obtain ⟨c, hc, hbc⟩ := hb
    exact (h.1 c hc).2 b hbc
  · unfold Aligned
    rw [syms_of_symbols xs h.complete]
    exact h.complete

theorem WellFormed.rep_eq {s : UTF8String} (h : WellFormed s) :
    s = of_symbols (syms s) := by
  obtain ⟨hi, _, _⟩ := h
  have h1 := hi.data_eq
  have h2 := hi.length_eq
  have h3 := hi.content_length
  have h4 := hi.pos
  cases s with
  | mk d l m =>
    simp only [of_symbols, syms, symbols_flatten] at *
    simp only [mk.injEq]
    exact ⟨h1, by omega, h2⟩

theorem WellFormed.valid {s : UTF8String} (h : WellFormed s) : Valid (syms s) := by
  obtain ⟨hi, hb, ha⟩ := h
  refine ⟨fun c hc => ⟨ha c hc, fun b hbc => hb b ?_⟩, ?_⟩
  · have : b ∈ (syms s).flatten := List.mem_flatten.mpr ⟨c, hc, hbc⟩
    simpa [syms, symbols_flatten] using this
  · have h3 := hi.content_length
    have h4 := hi.pos
    have h5 := hi.2.1
    simp only [syms, symbols_flatten]
    omega

theorem content_of_symbols (xs : List (List Nat)) : content (of_symbols xs) = xs.flatten := by
  simp [content, of_symbols]

theorem concatenate_of_symbols (xs ys : List (List Nat)) (hx : Valid xs) (hy : Valid ys) :
    (of_symbols xs).concatenate (of_symbols ys) = .ok (of_symbols (xs ++ ys)) := by
  rw [concatenate_eq _ _ hx.inv hy.inv, content_of_symbols, content_of_symbols,
    ← List.flatten_append, symbols_of_complete]
  · simp only [of_symbols, List.flatten_append, List.length_append, List.append_assoc]
    rw [show xs.flatten.length + 1 - 1 + (ys.flatten.length + 1) =
      xs.flatten.length + ys.flatten.length + 1 by omega]
  · intro c hc
    rcases List.mem_append.mp hc with h | h
    · exact hx.complete c h
    · exact hy.complete c h

theorem getD_data_of_symbols (pre post : List (List Nat)) (p : List Nat) (hp : p ≠ []) :
    (of_symbols (pre ++ p :: post)).m_data.getD pre.flatten.length 0 = p.headD 0 := by
  cases p with
  | nil => exact absurd rfl hp
  | cons b t =>
    simp only [of_symbols, List.flatten_append, List.flatten_cons, List.append_assoc,
      List.cons_append, List.headD_cons]
    rw [List.getD_eq_getElem?_getD, List.getElem?_append_right (le_refl _)]
    simp

theorem byte_index_loop_of_symbols (xs : List (List Nat)) (k : Nat)
    (h : ∀ c ∈ xs, Complete c) (hk : k < xs.length) :
    ∀ (fuel : Nat) (pre post : List (List Nat)), pre ++ post = xs → pre.length ≤ k →
      post.flatten.length < fuel →
      byte_index_loop (of_symbols xs) k fuel pre.flatten.length pre.length =
        .ok (xs.take k).flatten.length := by
  intro fuel
  induction fuel with
  | zero => intro pre post _ _ hf; omega
  | succ n ih =>
    intro pre post hxs hpk hf
    cases post with
    | nil =>
      rw [List.append_nil] at hxs
      subst hxs
      omega
    | cons p post =>
      have hpc : Complete p := h p (by rw [← hxs]; simp)
      have hpl : 1 ≤ p.length := by
        have := List.length_pos.mpr hpc.ne_nil
        omega
      have hi : pre.flatten.length < (of_symbols xs).m_data_length - 1 := by
        subst hxs
        simp only [of_symbols, List.flatten_append, List.flatten_cons, List.length_append]
        omega
      unfold byte_index_loop
      by_cases hc : pre.length = k
      · subst hxs
        simp only [hi, if_true, hc]
        rw [← hc, List.take_left]
      · have hgw := get_byte_width_ok (of_symbols xs) pre.flatten.length (by omega)
        simp only [hi, if_true, hc, if_false, hgw, bind, Except.bind]
        have hd : (of_symbols xs).m_data.getD pre.flatten.length 0 = p.headD 0 := by
          subst hxs
          exact getD_data_of_symbols pre post p hpc.ne_nil
        rw [hd, ← hpc]
        have := ih (pre ++ [p]) post (by rw [← hxs]; simp) (by simp; omega)
          (by rw [List.flatten_cons, List.length_append] at hf; omega)
        simpa using this

theorem get_byte_index_of_symbols (xs : List (List Nat)) (k : Nat)
    (h : ∀ c ∈ xs, Complete c) (hk : k < xs.length) :
    (of_symbols xs).get_byte_index_for_symbol_index k = .ok (xs.take k).flatten.length := by
  unfold get_byte_index_for_symbol_index
  have hc : (of_symbols xs).check_symbol_index k = .ok () := by
    simp [check_symbol_index, of_symbols, hk]
  simp only [hc, bind, Except.bind]
  exact byte_index_loop_of_symbols xs k h hk _ [] xs rfl (Nat.zero_le _)
    (by simp only [of_symbols]; omega)

theorem of_symbols_split_at (xs : List (List Nat)) (k : Nat) (hk : k < xs.length) :
    xs = xs.take k ++ xs[k] :: xs.drop (k + 1) := by
  rw [← List.drop_eq_getElem_cons hk, List.take_append_drop]

theorem assign_internal_symbol (c rest : List Nat) (hc : ValidSymbol c) :
    assign_internal (c ++ rest) c.length = .ok (of_symbols [c]) := by
  have hl := hc.1.length_le
  have hne := hc.1.ne_nil
  have hpos : 0 < c.length := List.length_pos.mpr hne
  rw [assign_internal_unterminated _ _ (by rw [npos_eq]; omega) (by simp)]
  · simp [of_symbols, symbols_complete c hc.1]
  · intro hcon
    have h2 := hcon.2
    rw [List.getD_eq_getElem?_getD, List.getElem?_append_left (by omega),
      List.getElem?_eq_getElem (by omega)] at h2
    simp at h2
    have := (hc.2 _ (List.getElem_mem (by omega : c.length - 1 < c.length))).1
    omega

theorem flatten_split_at (xs : List (List Nat)) (k : Nat) (hk : k < xs.length) :
    xs.flatten = (xs.take k).flatten ++ (xs[k] ++ (xs.drop (k + 1)).flatten) := by
  calc xs.flatten = (xs.take k ++ xs.drop k).flatten := by rw [List.take_append_drop]
    _ = _ := by rw [List.drop_eq_getElem_cons hk, List.flatten_append, List.flatten_cons]

theorem get_symbol_of_symbols (xs : List (List Nat)) (k : Nat) (h : Valid xs)
    (hk : k < xs.length) :
    (of_symbols xs).get_symbol k = .ok (of_symbols [xs[k]]) := by
  have hv : ValidSymbol xs[k] := h.1 _ (List.getElem_mem hk)
  have hc : (of_symbols xs).check_symbol_index k = .ok () := by
    simp [check_symbol_index, of_symbols, hk]
  have hflat := flatten_split_at xs k hk
  have hpos : 0 < xs[k].length := List.length_pos.mpr hv.1.ne_nil
  have hlt : (xs.take k).flatten.length < (of_symbols xs).m_data_length := by
    simp only [of_symbols, hflat, List.length_append]
    omega
  have hdrop : (of_symbols xs).m_data.drop (xs.take k).flatten.length =
      xs[k] ++ ((xs.drop (k + 1)).flatten ++ [0]) := by
    simp only [of_symbols, hflat, List.append_assoc]
    rw [List.drop_left]
  have hd : (of_symbols xs).m_data.getD (xs.take k).flatten.length 0 = xs[k].headD 0 := by
    have h0 : (of_symbols xs).m_data.getD (xs.take k).flatten.length 0 =
        ((of_symbols xs).m_data.drop (xs.take k).flatten.length).headD 0 := by
      rw [List.getD_eq_getElem?_getD, List.headD_eq_head?_getD, List.head?_drop]
    rw [h0, hdrop]
    cases hx : xs[k] with
    | nil => rw [hx] at hpos; simp at hpos
    | cons b t => rfl
  unfold get_symbol
  simp only [hc, get_byte_index_of_symbols xs k h.complete hk, get_byte_width_ok _ _ hlt,
    bind, Except.bind, hd, of_data, hdrop]
  rw [← hv.1]
  exact assign_internal_symbol _ _ hv

theorem substring_loop_of_symbols (xs : List (List Nat)) (h : Valid xs) :
    ∀ (n i : Nat) (acc : List (List Nat)), i + n ≤ xs.length →
      Valid (acc ++ (xs.drop i).take n) →
      substring_loop (of_symbols xs) n i (of_symbols acc) =
        .ok (of_symbols (acc ++ (xs.drop i).take n)) := by
  intro n
  induction n with
  | zero => intro i acc _ _; simp [substring_loop]
  | succ m ih =>
    intro i acc hle hv
    have hi : i < xs.length := by omega
    have hstep : (xs.drop i).take (m + 1) = xs[i] :: (xs.drop (i + 1)).take m := by
      rw [List.drop_eq_getElem_cons hi, List.take_succ_cons]
    rw [hstep] at hv ⊢
    have hv2 : Valid ((acc ++ [xs[i]]) ++ (xs.drop (i + 1)).take m) := by
      simpa using hv
    unfold substring_loop
    simp only [get_symbol_of_symbols xs i h hi, bind, Except.bind,
      concatenate_of_symbols acc [xs[i]] hv2.append_left.append_left (h.singleton i hi)]
    rw [ih (i + 1) (acc ++ [xs[i]]) (by omega) hv2]
    simp

theorem of_symbols_nil : of_symbols [] = ⟨[0], 1, 0⟩ := rfl

theorem substring_of_symbols (xs : List (List Nat)) (h : Valid xs) (start end_ : Nat)
    (hs : start ≤ xs.length) :
    (of_symbols xs).substring start end_ =
      .ok (of_symbols ((xs.drop start).take
        (min xs.length ((start + end_) % SIZE_MOD) - start))) := by
  unfold substring
  by_cases he : start = (of_symbols xs).get_length
  · have : start = xs.length := he
    simp only [he, if_true, new_eq]
    rw [show (of_symbols xs).get_length = xs.length from rfl, List.drop_length,
      List.take_nil]
    rfl
  · have hlt : start < xs.length := by
      have : ¬ start = xs.length := he
      omega
    have hc : (of_symbols xs).check_symbol_index start = .ok () := by
      simp [check_symbol_index, of_symbols, hlt]
    simp only [he, if_false, hc, new_eq, bind, Except.bind]
    rw [← of_symbols_nil, show (of_symbols xs).get_length = xs.length from rfl,
      substring_loop_of_symbols xs h _ _ [] (by omega) (by simpa using (h.drop _).take _)]
    simp

theorem takeWhile_content (bs : List Nat) (h : ∀ b ∈ bs, 0 < b) :
    (bs ++ [0]).takeWhile (fun c => c != 0) = bs := by
  rw [List.takeWhile_append_of_pos]
  · simp
  · intro a ha
    have := h a ha
    simp
    omega

theorem Valid.flatten_pos {xs : List (List Nat)} (h : Valid xs) : ∀ b ∈ xs.flatten, 0 < b := by
  intro b hb
  obtain ⟨c, hc, hbc⟩ := List.mem_flatten.mp hb
  exact ((h.1 c hc).2 b hbc).1

theorem eq_of_symbols (xs ys : List (List Nat)) (hx : Valid xs) (hy : Valid ys) :
    (of_symbols xs).eq (of_symbols ys) = decide (xs = ys) := by
  unfold eq strcmp_eq
  simp only [of_symbols, takeWhile_content _ hx.flatten_pos, takeWhile_content _ hy.flatten_pos]
  by_cases hxy : xs = ys
  · simp [hxy]
  · have : xs.flatten ≠ ys.flatten := by
      intro hf
      apply hxy
      rw [← symbols_of_complete xs hx.complete, ← symbols_of_complete ys hy.complete, hf]
    simp [hxy, this]

theorem width_of_byte_ascii (b : Nat) (h : b < 128) : width_of_byte b = 1 := by
  have key : ∀ b, b < 128 → b &&& 0x80 = 0 := by decide
  simp [width_of_byte, key b h]

theorem symbols_ascii (bs : List Nat) (h : ∀ b ∈ bs, b < 128) :
    symbols bs = bs.map (fun b => [b]) := by
  induction bs with
  | nil => rfl
  | cons b rest ih =>
    rw [symbols_cons, width_of_byte_ascii b (h b (List.mem_cons_self _ _))]
    simp [ih (fun c hc => h c (List.mem_cons_of_mem _ hc))]

theorem ValidAscii.wf_of_ascii {s : UTF8String} (h : ValidAscii s) : WellFormed s := by
  refine ⟨h.1, fun b hb => ⟨(h.2 b hb).1, by have := (h.2 b hb).2; omega⟩, ?_⟩
  unfold Aligned syms
  rw [symbols_ascii _ (fun b hb => (h.2 b hb).2)]
  intro c hc
  obtain ⟨b, hb, rfl⟩ := List.mem_map.mp hc
  simp [Complete, width_of_byte_ascii b (h.2 b hb).2]

theorem WellFormed.length_lt {s : UTF8String} (h : WellFormed s) :
    (syms s).length < PTRDIFF_MAX := by
  have hv := h.valid
  have h1 : (syms s).length ≤ (syms s).flatten.length := by
    have hc := hv.complete
    generalize syms s = xs at hc
    induction xs with
    | nil => simp
    | cons c rest ih =>
      have := List.length_pos.mpr (hc c (List.mem_cons_self _ _)).ne_nil
      have := ih (fun d hd => hc d (List.mem_cons_of_mem _ hd))
      simp only [List.length_cons, List.flatten_cons, List.length_append]
      omega
  have := hv.2
  omega

/-! ## `split` and joining on lists of symbols -/

theorem rejoin_of_symbols (ds : List (List Nat)) :
    ∀ (ps : List (List (List Nat))) (acc : List (List Nat)),
      Valid (acc ++ (ps.map (fun e => ds ++ e)).flatten) →
      rejoin (of_symbols ds) (of_symbols acc) (ps.map of_symbols) =
        .ok (of_symbols (acc ++ (ps.map (fun e => ds ++ e)).flatten)) := by
  intro ps
  induction ps with
  | nil => intro acc _; simp [rejoin]
  | cons e rest ih =>
    intro acc hv
    have hv2 : Valid (((acc ++ ds) ++ e) ++ (rest.map (fun e => ds ++ e)).flatten) := by
      simpa using hv
    have hade := hv2.append_left
    have had := hade.append_left
    simp only [List.map_cons, rejoin, bind, Except.bind,
      concatenate_of_symbols acc ds had.append_left had.append_right,
      concatenate_of_symbols (acc ++ ds) e had hade.append_right]
    rw [ih _ hv2]
    simp

theorem join_of_symbols (ds : List (List Nat)) (ps : List (List (List Nat)))
    (hv : Valid (join_symbols ds ps)) :
    join (of_symbols ds) (ps.map of_symbols) = .ok (of_symbols (join_symbols ds ps)) := by
  cases ps with
  | nil => exact new_eq
  | cons p rest => exact rejoin_of_symbols ds rest p hv

theorem length_flatten_drop (xs : List (List Nat)) (i : Nat) (hi : i < xs.length) :
    (xs.drop i).flatten.length = xs[i].length + (xs.drop (i + 1)).flatten.length := by
  rw [List.drop_eq_getElem_cons hi, List.flatten_cons, List.length_append]

theorem length_flatten_drop_le (xs : List (List Nat)) (i : Nat) :
    (xs.drop i).flatten.length ≤ xs.flatten.length := by
  conv_rhs => rw [← List.take_append_drop i xs]
  rw [List.flatten_append, List.length_append]
  omega

theorem take_window {α : Type} (xs : List α) (i n : Nat) :
    (xs.drop i).take (min xs.length (i + n) - i) = (xs.drop i).take n := by
  rw [List.take_eq_take, List.length_drop]
  omega

theorem assign_of_symbols (xs : List (List Nat)) (h : Valid xs) :
    assign (of_symbols xs) = .ok (of_symbols xs) := by
  have hP := h.2
  rw [PTRDIFF_MAX_eq] at hP
  unfold assign
  rw [assign_internal_terminated _ _ (by simp [of_symbols])
    (by simp only [of_symbols]; rw [npos_eq]; omega) (by simp [of_symbols])]
  · simp [of_symbols, symbols_of_complete xs h.complete]
  · simp [of_symbols]

theorem Valid.lt_size {xs : List (List Nat)} (h : Valid xs) : xs.length < 2 ^ 63 := by
  have := (h.wellFormed).length_lt
  rw [syms_of_symbols xs h.complete, PTRDIFF_MAX_eq] at this
  omega

theorem split_loop_of_symbols (xs ds : List (List Nat)) (hx : Valid xs) (hd : Valid ds)
    (hne : ds ≠ []) :
    ∀ (fuel i : Nat) (el : List (List Nat)) (els : List (List (List Nat))),
      xs.length - i < fuel → (∀ c ∈ el, ValidSymbol c) →
      el.flatten.length + (xs.drop i).flatten.length ≤ xs.flatten.length →
      split_loop (of_symbols xs) (of_symbols ds) fuel i (of_symbols el)
          (els.map of_symbols) =
        .ok ((split_symbols xs ds fuel i el els).map of_symbols) := by
  intro fuel
  induction fuel with
  | zero => intro i _ _ h; omega
  | succ n ih =>
    intro i el els hf hel hsz
    have hdl : 1 ≤ ds.length := by
      have := List.length_pos.mpr hne
      omega
    unfold split_loop split_symbols
    by_cases hi : i < xs.length
    · have hxl := hx.lt_size
      have hdl2 := hd.lt_size
      have hmod : (i + ds.length) % SIZE_MOD = i + ds.length :=
        Nat.mod_eq_of_lt (by rw [SIZE_MOD_eq]; omega)
      have hi2 : i < (of_symbols xs).m_length := hi
      simp only [hi, hi2, if_true, show (of_symbols ds).get_length = ds.length from rfl,
        substring_of_symbols xs hx i ds.length (le_of_lt hi), hmod, take_window, bind,
        Except.bind, eq_of_symbols _ _ ((hx.drop i).take ds.length) hd]
      by_cases hm : (xs.drop i).take ds.length = ds
      · have h1 : of_cstr [0] = .ok (of_symbols []) := by decide
        simp only [hm, decide_True, if_true, h1, assign_of_symbols [] Valid.nil]
        have := ih (i + ds.length) [] (els ++ [el]) (by omega) (by simp)
          (by simpa using length_flatten_drop_le xs (i + ds.length))
        simpa using this
      · have hvel : Valid el := ⟨hel, by have := hx.2; omega⟩
        simp only [hm, decide_False, Bool.false_eq_true, if_false,
          get_symbol_of_symbols xs i hx hi,
          concatenate_of_symbols el [xs[i]] hvel (hx.singleton i hi)]
        have hstep : (xs.drop i).take 1 = [xs[i]] := by
          rw [List.drop_eq_getElem_cons hi]; rfl
        rw [hstep]
        apply ih (i + 1) (el ++ [xs[i]]) els (by omega)
        · intro c hc
          rcases List.mem_append.mp hc with h | h
          · exact hel c h
          · rw [List.mem_singleton] at h
            exact h ▸ hx.1 _ (List.getElem_mem hi)
        · rw [length_flatten_drop xs i hi] at hsz
          simp only [List.flatten_append, List.length_append, List.flatten_cons,
            List.flatten_nil, List.append_nil]
          omega
    · have hi2 : ¬ i < (of_symbols xs).m_length := hi
      simp [hi, hi2]

theorem join_symbols_snoc_append {α : Type} (ds : List α) (els : List (List α))
    (el t : List α) :
    join_symbols ds (els ++ [el ++ t]) = join_symbols ds (els ++ [el]) ++ t := by
  cases els with
  | nil => simp [join_symbols]
  | cons p ps => simp [join_symbols]

theorem join_symbols_snoc_nil {α : Type} (ds : List α) (els : List (List α)) (el : List α) :
    join_symbols ds ((els ++ [el]) ++ [[]]) = join_symbols ds (els ++ [el]) ++ ds := by
  cases els with
  | nil => simp [join_symbols]
  | cons p ps => simp [join_symbols]

theorem join_split_symbols {α : Type} [DecidableEq α] (xs ds : List α) (hne : ds ≠ []) :
    ∀ (fuel i : Nat) (el : List α) (els : List (List α)), xs.length - i < fuel →
      join_symbols ds (split_symbols xs ds fuel i el els) =
        join_symbols ds (els ++ [el]) ++ xs.drop i := by
  intro fuel
  induction fuel with
  | zero => intro i _ _ h; omega
  | succ n ih =>
    intro i el els hf
    have hdl : 1 ≤ ds.length := by
      have := List.length_pos.mpr hne
      omega
    unfold split_symbols
    by_cases hi : i < xs.length
    · by_cases hm : (xs.drop i).take ds.length = ds
      · simp only [hi, hm, if_true]
        rw [ih _ _ _ (by omega), join_symbols_snoc_nil, List.append_assoc]
        congr 1
        conv_rhs => rw [← List.take_append_drop ds.length (xs.drop i), hm]
        rw [List.drop_drop]
      · simp only [hi, hm, if_true, if_false]
        rw [ih _ _ _ (by omega), join_symbols_snoc_append, List.append_assoc]
        congr 1
        rw [List.drop_eq_getElem_cons hi]
        rfl
    · simp only [hi, if_false]
      rw [List.drop_eq_nil_of_le (by omega), List.append_nil]

theorem is_empty_of_symbols (ds : List (List Nat)) (h : ∀ c ∈ ds, Complete c) :
    (of_symbols ds).is_empty = decide (ds = []) := by
  cases ds with
  | nil => rfl
  | cons c rest =>
    have := List.length_pos.mpr (h c (List.mem_cons_self _ _)).ne_nil
    simp only [is_empty, of_symbols, List.flatten_cons, List.length_append]
    have hf : ¬ (c.length + rest.flatten.length + 1 ≤ 1) := by omega
    rw [decide_eq_false hf]
    simp

theorem split_of_symbols (xs ds : List (List Nat)) (hx : Valid xs) (hd : Valid ds)
    (hne : ds ≠ []) :
    (of_symbols xs).split (of_symbols ds) =
      .ok ((split_symbols xs ds (xs.length + 1) 0 [] []).map of_symbols) := by
  unfold split
  simp only [is_empty_of_symbols ds hd.complete, hne, decide_False, Bool.false_eq_true,
    if_false, new_eq, bind, Except.bind]
  exact split_loop_of_symbols xs ds hx hd hne _ 0 [] []
    (by show xs.length - 0 < xs.length + 1; omega) (by simp) (by simp)

/-! ## Symbol values and `find_first`, `starts_with` on lists of symbols -/

theorem le_value_inj : ∀ (a b : List Nat), (∀ x ∈ a, 0 < x ∧ x < 256) →
    (∀ x ∈ b, 0 < x ∧ x < 256) →
    a.foldr (fun x acc => x % 256 + 256 * acc) 0 =
      b.foldr (fun x acc => x % 256 + 256 * acc) 0 → a = b := by
  intro a
  induction a with
  | nil =>
    intro b _ hb h
    cases b with
    | nil => rfl
    | cons y t =>
      have := hb y (List.mem_cons_self _ _)
      simp only [List.foldr_nil, List.foldr_cons] at h
      have h2 : y % 256 = y := Nat.mod_eq_of_lt this.2
      omega
  | cons x s ih =>
    intro b ha hb h
    have hx := ha x (List.mem_cons_self _ _)
    have hx2 : x % 256 = x := Nat.mod_eq_of_lt hx.2
    cases b with
    | nil =>
      simp only [List.foldr_nil, List.foldr_cons] at h
      omega
    | cons y t =>
      have hy := hb y (List.mem_cons_self _ _)
      have hy2 : y % 256 = y := Nat.mod_eq_of_lt hy.2
      simp only [List.foldr_cons] at h
      have hxy : x = y := by omega
      have ht : s.foldr (fun x acc => x % 256 + 256 * acc) 0 =
          t.foldr (fun x acc => x % 256 + 256 * acc) 0 := by omega
      rw [hxy, ih t (fun z hz => ha z (List.mem_cons_of_mem _ hz))
        (fun z hz => hb z (List.mem_cons_of_mem _ hz)) ht]

theorem le_value_lt : ∀ (a : List Nat),
    a.foldr (fun x acc => x % 256 + 256 * acc) 0 < 256 ^ a.length := by
  intro a
  induction a with
  | nil => simp
  | cons x s ih =>
    simp only [List.foldr_cons, List.length_cons, pow_succ]
    have := Nat.mod_lt x (by decide : 256 > 0)
    omega

theorem symbol_value_inj (a b : List Nat) (ha : ValidSymbol a) (hb : ValidSymbol b)
    (h : symbol_value a = symbol_value b) : a = b := by
  have key : ∀ c : List Nat, ValidSymbol c →
      symbol_value c = c.foldr (fun x acc => x % 256 + 256 * acc) 0 := by
    intro c hc
    unfold symbol_value bytes_to_uint32
    rw [List.take_length]
    apply Nat.mod_eq_of_lt
    have h1 := le_value_lt c
    have h2 := hc.1.length_le
    have h3 : 256 ^ c.length ≤ 256 ^ 4 := Nat.pow_le_pow_right (by decide) h2
    have h4 : (256 : Nat) ^ 4 = 2 ^ 32 := by norm_num
    omega
  rw [key a ha, key b hb] at h
  exact le_value_inj a b ha.2 hb.2 h

theorem get_symbol_value_of_symbols (xs : List (List Nat)) (k : Nat) (h : Valid xs)
    (hk : k < xs.length) :
    (of_symbols xs).get_symbol_value k = .ok (symbol_value xs[k]) := by
  have hv : ValidSymbol xs[k] := h.1 _ (List.getElem_mem hk)
  have hc : (of_symbols xs).check_symbol_index k = .ok () := by
    simp [check_symbol_index, of_symbols, hk]
  have hflat := flatten_split_at xs k hk
  have hpos : 0 < xs[k].length := List.length_pos.mpr hv.1.ne_nil
  have hlt : (xs.take k).flatten.length < (of_symbols xs).m_data_length := by
    simp only [of_symbols, hflat, List.length_append]
    omega
  have hdrop : (of_symbols xs).m_data.drop (xs.take k).flatten.length =
      xs[k] ++ ((xs.drop (k + 1)).flatten ++ [0]) := by
    simp only [of_symbols, hflat, List.append_assoc]
    rw [List.drop_left]
  have hd : (of_symbols xs).m_data.getD (xs.take k).flatten.length 0 = xs[k].headD 0 := by
    have h0 : (of_symbols xs).m_data.getD (xs.take k).flatten.length 0 =
        ((of_symbols xs).m_data.drop (xs.take k).flatten.length).headD 0 := by
      rw [List.getD_eq_getElem?_getD, List.headD_eq_head?_getD, List.head?_drop]
    rw [h0, hdrop]
    cases hx : xs[k] with
    | nil => rw [hx] at hpos; simp at hpos
    | cons b t => rfl
  unfold get_symbol_value
  simp only [hc, get_byte_index_of_symbols xs k h.complete hk, get_byte_width_ok _ _ hlt,
    bind, Except.bind, hd, hdrop, pure, Except.pure]
  rw [← hv.1]
  simp [symbol_value, bytes_to_uint32]

theorem take_succ_drop {α : Type} (l : List α) (j n : Nat) (hj : j < l.length) :
    (l.drop j).take (n + 1) = l[j] :: (l.drop (j + 1)).take n := by
  rw [List.drop_eq_getElem_cons hj, List.take_succ_cons]

theorem find_first_match_of_symbols (xs ds : List (List Nat)) (hx : Valid xs) (hd : Valid ds)
    (i : Nat) :
    ∀ (n j : Nat), j + n ≤ ds.length → i + j + n ≤ xs.length →
      find_first_match (of_symbols xs) (of_symbols ds) i n j =
        .ok (decide ((xs.drop (i + j)).take n = (ds.drop j).take n)) := by
  intro n
  induction n with
  | zero => intro j _ _; simp [find_first_match]
  | succ m ih =>
    intro j hj hij
    have h1 : j < ds.length := by omega
    have h2 : i + j < xs.length := by omega
    unfold find_first_match
    simp only [get_symbol_value_of_symbols ds j hd h1,
      get_symbol_value_of_symbols xs (i + j) hx h2, bind, Except.bind]
    rw [take_succ_drop xs (i + j) m h2, take_succ_drop ds j m h1]
    by_cases hv : symbol_value ds[j] = symbol_value xs[i + j]
    · have he := symbol_value_inj _ _ (hd.1 _ (List.getElem_mem h1))
        (hx.1 _ (List.getElem_mem h2)) hv
      simp only [hv, ne_eq, not_true_eq_false, if_false]
      rw [ih (j + 1) (by omega) (by omega), he]
      simp [Nat.add_assoc]
    · have hne : ¬ xs[i + j] = ds[j] := fun hh => hv (by rw [hh])
      simp [hv, hne]

theorem find_first_loop_of_symbols (xs ds : List (List Nat)) (hx : Valid xs) (hd : Valid ds) :
    ∀ (n i : Nat), i + n + ds.length ≤ xs.length + 1 →
      find_first_loop (of_symbols xs) (of_symbols ds) n i = .ok (first_match xs ds n i) := by
  intro n
  induction n with
  | zero => intro i _; rfl
  | succ m ih =>
    intro i hle
    unfold find_first_loop first_match
    have := find_first_match_of_symbols xs ds hx hd i ds.length 0 (by omega) (by omega)
    simp only [show (of_symbols ds).m_length = ds.length from rfl, this, bind, Except.bind,
      Nat.add_zero, List.drop_zero, List.take_length]
    by_cases hm : (xs.drop i).take ds.length = ds
    · simp [hm]
    · simp only [hm, decide_False, Bool.false_eq_true, if_false]
      exact ih (i + 1) (by omega)

theorem find_first_of_symbols (xs ds : List (List Nat)) (hx : Valid xs) (hd : Valid ds) :
    (of_symbols xs).find_first (of_symbols ds) = .ok (find_first_symbols xs ds) := by
  unfold find_first find_first_symbols
  simp only [show (of_symbols ds).m_length = ds.length from rfl,
    show (of_symbols xs).m_length = xs.length from rfl]
  by_cases hg : ds.length > xs.length
  · simp [hg]
  · have h1 := hx.lt_size
    have hb : (xs.length + SIZE_MOD - (ds.length + SIZE_MOD - 1) % SIZE_MOD) % SIZE_MOD =
        xs.length + 1 - ds.length := by
      rw [SIZE_MOD_eq]
      omega
    simp only [hg, if_false, hb]
    exact find_first_loop_of_symbols xs ds hx hd _ 0 (by omega)

theorem ne_of_symbols (xs ys : List (List Nat)) (hx : Valid xs) (hy : Valid ys) :
    (of_symbols xs).ne (of_symbols ys) = !decide (xs = ys) := by
  unfold ne
  rw [eq_of_symbols xs ys hx hy]

theorem starts_with_loop_of_symbols (xs ds : List (List Nat)) (hx : Valid xs) (hd : Valid ds) :
    ∀ (n i : Nat), i + n ≤ ds.length → i + n ≤ xs.length →
      starts_with_loop (of_symbols xs) (of_symbols ds) n i =
        .ok (decide ((xs.drop i).take n = (ds.drop i).take n)) := by
  intro n
  induction n with
  | zero => intro i _ _; simp [starts_with_loop]
  | succ m ih =>
    intro i h1 h2
    have hi1 : i < ds.length := by omega
    have hi2 : i < xs.length := by omega
    unfold starts_with_loop
    simp only [get_symbol_of_symbols ds i hd hi1, get_symbol_of_symbols xs i hx hi2, bind,
      Except.bind, ne_of_symbols _ _ (hd.singleton i hi1) (hx.singleton i hi2)]
    rw [take_succ_drop xs i m hi2, take_succ_drop ds i m hi1]
    by_cases he : ds[i] = xs[i]
    · simp only [he, decide_True, Bool.not_true, Bool.false_eq_true, if_false]
      rw [ih (i + 1) (by omega) (by omega)]
      simp
    · have hne : ¬ xs[i] = ds[i] := fun hh => he hh.symm
      simp [he, hne]

theorem starts_with_of_symbols (xs ds : List (List Nat)) (hx : Valid xs) (hd : Valid ds) :
    (of_symbols xs).starts_with (of_symbols ds) = .ok (decide (xs.take ds.length = ds)) := by
  unfold starts_with
  simp only [show (of_symbols ds).m_length = ds.length from rfl,
    show (of_symbols xs).m_length = xs.length from rfl]
  by_cases hg : ds.length > xs.length
  · have : ¬ xs.take ds.length = ds := by
      intro h
      have := congrArg List.length h
      rw [List.length_take] at this
      omega
    simp [hg, this]
  · simp only [hg, if_false]
    rw [starts_with_loop_of_symbols xs ds hx hd _ 0 (by omega) (by omega)]
    simp

theorem substring_head_of_symbols (xs : List (List Nat)) (h : Valid xs) (n : Nat)
    (hn : n ≤ xs.length) :
    (of_symbols xs).substring 0 n = .ok (of_symbols (xs.take n)) := by
  have h1 := h.lt_size
  rw [substring_of_symbols xs h 0 n (Nat.zero_le _), Nat.zero_add,
    Nat.mod_eq_of_lt (by rw [SIZE_MOD_eq]; omega)]
  simp [Nat.min_eq_right hn]

theorem substring_tail_of_symbols (xs : List (List Nat)) (h : Valid xs) (n : Nat)
    (hn : n ≤ xs.length) :
    (of_symbols xs).substring n (of_symbols xs).get_length = .ok (of_symbols (xs.drop n)) := by
  have h1 := h.lt_size
  rw [show (of_symbols xs).get_length = xs.length from rfl,
    substring_of_symbols xs h n _ hn, Nat.mod_eq_of_lt (by rw [SIZE_MOD_eq]; omega)]
  congr 2
  apply List.take_of_length_le
  rw [List.length_drop]
  omega

theorem strip_symbols_suffix {α : Type} [DecidableEq α] (ds : List α) :
    ∀ (fuel : Nat) (input : List α), ∃ k, strip_symbols ds fuel input = input.drop k := by
  intro fuel
  induction fuel with
  | zero => intro input; exact ⟨0, rfl⟩
  | succ n ih =>
    intro input
    unfold strip_symbols
    by_cases hm : input.take ds.length = ds
    · obtain ⟨k, hk⟩ := ih (input.drop ds.length)
      exact ⟨ds.length + k, by simp [hm, hk]⟩
    · exact ⟨0, by simp [hm]⟩

theorem strip_loop_of_symbols (ds : List (List Nat)) (hd : Valid ds) (hne : ds ≠ []) :
    ∀ (fuel : Nat) (input : List (List Nat)), Valid input → input.length < fuel →
      strip_loop (of_symbols ds) fuel (of_symbols input) =
        .ok (of_symbols (strip_symbols ds fuel input)) := by
  intro fuel
  induction fuel with
  | zero => intro input _ h; omega
  | succ n ih =>
    intro input hv hf
    have hdl : 1 ≤ ds.length := by
      have := List.length_pos.mpr hne
      omega
    unfold strip_loop strip_symbols
    simp only [starts_with_of_symbols input ds hv hd, bind, Except.bind]
    by_cases hm : input.take ds.length = ds
    · have hle : ds.length ≤ input.length := by
        have := congrArg List.length hm
        rw [List.length_take] at this
        omega
      simp only [hm, decide_True, if_true,
        show (of_symbols ds).get_length = ds.length from rfl,
        substring_tail_of_symbols input hv ds.length hle,
        assign_of_symbols _ (hv.drop ds.length)]
      exact ih _ (hv.drop _) (by rw [List.length_drop]; omega)
    · simp [hm]

/-! ## `remove_duplicates` on lists of symbols -/

theorem length_flatten_sublist {α : Type} {l₁ l₂ : List (List α)} (h : List.Sublist l₁ l₂) :
    l₁.flatten.length ≤ l₂.flatten.length := by
  induction h with
  | slnil => simp
  | cons a _ ih =>
    rw [List.flatten_cons, List.length_append]
    omega
  | cons₂ a _ ih =>
    rw [List.flatten_cons, List.flatten_cons, List.length_append, List.length_append]
    omega

theorem Valid.sublist {l₁ l₂ : List (List Nat)} (h : Valid l₂) (hs : List.Sublist l₁ l₂) : Valid l₁ :=
  ⟨fun c hc => h.1 c (hs.subset hc), by
    have := length_flatten_sublist hs
    have := h.2
    omega⟩

theorem first_match_spec {α : Type} [DecidableEq α] (xs ds : List α) :
    ∀ (n i : Nat), i + n ≤ npos →
      (first_match xs ds n i = npos ∧
        ∀ j, i ≤ j → j < i + n → (xs.drop j).take ds.length ≠ ds) ∨
      (i ≤ first_match xs ds n i ∧ first_match xs ds n i < i + n ∧
        (xs.drop (first_match xs ds n i)).take ds.length = ds ∧
        ∀ j, i ≤ j → j < first_match xs ds n i → (xs.drop j).take ds.length ≠ ds) := by
  intro n
  induction n with
  | zero =>
    intro i _
    left
    exact ⟨rfl, fun j h1 h2 => by omega⟩
  | succ m ih =>
    intro i hle
    unfold first_match
    by_cases hm : (xs.drop i).take ds.length = ds
    · right
      rw [if_pos hm]
      exact ⟨le_refl _, by omega, hm, fun j h1 h2 => by omega⟩
    · rw [if_neg hm]
      rcases ih (i + 1) (by omega) with ⟨h1, h2⟩ | ⟨h1, h2, h3, h4⟩
      · left
        refine ⟨h1, fun j hj1 hj2 => ?_⟩
        by_cases hji : j = i
        · rw [hji]; exact hm
        · exact h2 j (by omega) (by omega)
      · right
        refine ⟨by omega, by omega, h3, fun j hj1 hj2 => ?_⟩
        by_cases hji : j = i
        · rw [hji]; exact hm
        · exact h4 j (by omega) hj2

theorem no_match_of_short {α : Type} (xs ds : List α) (j : Nat)
    (h : xs.length < j + ds.length) (hne : ds ≠ []) : (xs.drop j).take ds.length ≠ ds := by
  intro hm
  have := congrArg List.length hm
  have hp := List.length_pos.mpr hne
  rw [List.length_take, List.length_drop] at this
  omega

/-- What `find_first` returns on lists of symbols, for a non-empty needle: `npos` when
the needle matches nowhere, else the least index at which it matches. -/
theorem find_first_symbols_spec {α : Type} [DecidableEq α] (xs ds : List α) (hne : ds ≠ [])
    (hlen : xs.length < npos) :
    (find_first_symbols xs ds = npos ∧ ∀ j, (xs.drop j).take ds.length ≠ ds) ∨
    (find_first_symbols xs ds + ds.length ≤ xs.length ∧
      (xs.drop (find_first_symbols xs ds)).take ds.length = ds ∧
      ∀ j, j < find_first_symbols xs ds → (xs.drop j).take ds.length ≠ ds) := by
  have hp := List.length_pos.mpr hne
  unfold find_first_symbols
  by_cases hg : ds.length > xs.length
  · left
    rw [if_pos hg]
    exact ⟨rfl, fun j => no_match_of_short xs ds j (by omega) hne⟩
  · rw [if_neg hg]
    rcases first_match_spec xs ds (xs.length + 1 - ds.length) 0 (by omega) with
      ⟨h1, h2⟩ | ⟨_, h2, h3, h4⟩
    · left
      refine ⟨h1, fun j => ?_⟩
      by_cases hj : j + ds.length ≤ xs.length
      · exact h2 j (Nat.zero_le _) (by omega)
      · exact no_match_of_short xs ds j (by omega) hne
    · right
      exact ⟨by omega, h3, fun j hj => h4 j (Nat.zero_le _) hj⟩

theorem remove_duplicates_loop_of_symbols (ds : List (List Nat)) (hd : Valid ds)
    (hne : ds ≠ []) :
    ∀ (fuel : Nat) (input output : List (List Nat)), input.length < fuel →
      Valid (output ++ input) →
      remove_duplicates_loop (of_symbols ds) fuel (find_first_symbols input ds)
          (of_symbols input) (of_symbols output) =
        .ok (of_symbols
          (remove_duplicates_symbols ds fuel (find_first_symbols input ds) input output)) := by
  intro fuel
  induction fuel with
  | zero => intro input _ h; omega
  | succ n ih =>
    intro input output hf hv
    have hvi := hv.append_right
    have hvo := hv.append_left
    have hp := List.length_pos.mpr hne
    have hil : input.length < npos := by
      have := hvi.lt_size
      rw [npos_eq]
      omega
    unfold remove_duplicates_loop remove_duplicates_symbols
    rcases find_first_symbols_spec input ds hne hil with ⟨h1, _⟩ | ⟨h1, _, _⟩
    · simp only [h1, ne_eq, not_true_eq_false, if_false, bind, Except.bind,
        concatenate_of_symbols output input hvo hvi, assign_of_symbols _ hv]
    · have hni : find_first_symbols input ds ≠ npos := by
        intro hh
        rw [hh] at h1
        omega
      have hsub : List.Sublist
          ((output ++ input.take (find_first_symbols input ds + ds.length)) ++
            strip_symbols ds
              ((input.drop (find_first_symbols input ds + ds.length)).length + 1)
              (input.drop (find_first_symbols input ds + ds.length)))
          (output ++ input) := by
        obtain ⟨k, hk⟩ := strip_symbols_suffix ds
          ((input.drop (find_first_symbols input ds + ds.length)).length + 1)
          (input.drop (find_first_symbols input ds + ds.length))
        rw [hk, List.append_assoc]
        apply List.Sublist.append (List.Sublist.refl _)
        conv_rhs => rw [← List.take_append_drop (find_first_symbols input ds + ds.length) input]
        exact List.Sublist.append (List.Sublist.refl _) (List.drop_sublist _ _)
      have hv2 := hv.sublist hsub
      have hlen : (strip_symbols ds
          ((input.drop (find_first_symbols input ds + ds.length)).length + 1)
          (input.drop (find_first_symbols input ds + ds.length))).length < n := by
        obtain ⟨k, hk⟩ := strip_symbols_suffix ds
          ((input.drop (find_first_symbols input ds + ds.length)).length + 1)
          (input.drop (find_first_symbols input ds + ds.length))
        rw [hk, List.length_drop, List.length_drop]
        omega
      simp only [hni, ne_eq, not_false_eq_true, if_true, bind, Except.bind,
        show (of_symbols ds).get_length = ds.length from rfl,
        substring_head_of_symbols input hvi _ h1,
        concatenate_of_symbols output _ hvo (hvi.take _),
        substring_tail_of_symbols input hvi _ h1,
        assign_of_symbols _ (hvi.drop _),
        show ∀ l : List (List Nat), (of_symbols l).m_length = l.length from fun _ => rfl,
        strip_loop_of_symbols ds hd hne _ _ (hvi.drop _) (Nat.lt_succ_self _),
        find_first_of_symbols _ ds hv2.append_right hd]
      exact ih _ _ hlen hv2

theorem remove_duplicates_of_symbols (xs ds : List (List Nat)) (hx : Valid xs) (hd : Valid ds)
    (hne : ds ≠ []) :
    (of_symbols xs).remove_duplicates (of_symbols ds) =
      .ok (of_symbols
        (remove_duplicates_symbols ds (xs.length + 1) (find_first_symbols xs ds) xs [])) := by
  unfold remove_duplicates
  simp only [is_empty_of_symbols ds hd.complete, hne, decide_False, Bool.false_eq_true,
    if_false, assign_of_symbols xs hx, new_eq, bind, Except.bind,
    find_first_of_symbols xs ds hx hd,
    show (of_symbols xs).m_length = xs.length from rfl]
  rw [← of_symbols_nil]
  exact remove_duplicates_loop_of_symbols ds hd hne _ xs [] (Nat.lt_succ_self _)
    (by simpa using hx)

/-! ## Removing duplicates of a single symbol -/

theorem collapse_runs_of_not_mem {α : Type} [DecidableEq α] (c : α) :
    ∀ (A L : List α), c ∉ A → collapse_runs c (A ++ L) = A ++ collapse_runs c L := by
  intro A
  induction A with
  | nil => intro L _; rfl
  | cons x t ih =>
    intro L hc
    have hx : ¬ x = c := fun h => hc (by rw [h]; exact List.mem_cons_self _ _)
    have ht : c ∉ t := fun h => hc (List.mem_cons_of_mem _ h)
    rw [List.cons_append]
    conv_lhs => unfold collapse_runs
    rw [if_neg (fun h => hx h.1), ih L ht]
    rfl

theorem collapse_runs_cons_self {α : Type} [DecidableEq α] (c : α) :
    ∀ (B : List α),
      collapse_runs c (c :: B) = c :: collapse_runs c (B.dropWhile (fun x => x == c)) := by
  intro B
  induction B with
  | nil => simp [collapse_runs]
  | cons y t ih =>
    by_cases hy : y = c
    · subst hy
      rw [List.dropWhile_cons_of_pos (by simp), ← ih]
      conv_lhs => unfold collapse_runs
      simp
    · rw [List.dropWhile_cons_of_neg (by simpa using hy)]
      conv_lhs => unfold collapse_runs
      have : ¬ some y = some c := fun h => hy (Option.some.inj h)
      simp [this]

theorem strip_single {α : Type} [DecidableEq α] (c : α) :
    ∀ (fuel : Nat) (B : List α), B.length < fuel →
      strip_symbols [c] fuel B = B.dropWhile (fun x => x == c) := by
  intro fuel
  induction fuel with
  | zero => intro B h; omega
  | succ n ih =>
    intro B hf
    unfold strip_symbols
    cases B with
    | nil => simp
    | cons y t =>
      by_cases hy : y = c
      · subst hy
        have : (y :: t).take [y].length = [y] := by simp
        rw [if_pos this, List.dropWhile_cons_of_pos (by simp)]
        exact ih t (by simpa using hf)
      · have : ¬ (y :: t).take [c].length = [c] := by simpa using hy
        rw [if_neg this, List.dropWhile_cons_of_neg (by simpa using hy)]

theorem match_single {α : Type} (xs : List α) (c : α) (j : Nat) :
    (xs.drop j).take [c].length = [c] ↔ xs[j]? = some c := by
  by_cases hj : j < xs.length
  · rw [List.drop_eq_getElem_cons hj, List.getElem?_eq_getElem hj]
    show List.take 1 (xs[j] :: _) = [c] ↔ _
    rw [List.take_succ_cons, List.take_zero]
    simp only [List.cons.injEq, and_true, Option.some.injEq]
  · rw [List.drop_eq_nil_of_le (by omega), List.getElem?_eq_none (by omega)]
    simp

theorem remove_duplicates_single {α : Type} [DecidableEq α] (c : α) :
    ∀ (fuel : Nat) (input output : List α), input.length < fuel → input.length < npos →
      remove_duplicates_symbols [c] fuel (find_first_symbols input [c]) input output =
        output ++ collapse_runs c input := by
  intro fuel
  induction fuel with
  | zero => intro input _ h; omega
  | succ n ih =>
    intro input output hf hnp
    unfold remove_duplicates_symbols
    rcases find_first_symbols_spec input [c] (by simp) hnp with ⟨h1, h2⟩ | ⟨h1, h2, h3⟩
    · have hc : c ∉ input := by
        intro hmem
        obtain ⟨j, hj, hjc⟩ := List.getElem_of_mem hmem
        exact h2 j ((match_single input c j).mpr (by rw [List.getElem?_eq_getElem hj, hjc]))
      have := collapse_runs_of_not_mem c input [] hc
      rw [List.append_nil] at this
      simp only [h1, ne_eq, not_true_eq_false, if_false]
      rw [this]
      simp [collapse_runs]
    · generalize find_first_symbols input [c] = k at h1 h2 h3
      have hk : k < input.length := by
        simp at h1
        omega
      have hni : k ≠ npos := by omega
      have hck : input[k] = c := by
        have := (match_single input c k).mp h2
        rw [List.getElem?_eq_getElem hk] at this
        exact Option.some.inj this
      have hA : c ∉ input.take k := by
        intro hmem
        obtain ⟨j, hj, hjc⟩ := List.getElem_of_mem hmem
        rw [List.length_take] at hj
        rw [List.getElem_take] at hjc
        exact h3 j (by omega)
          ((match_single input c j).mpr (by rw [List.getElem?_eq_getElem (by omega), hjc]))
      have hsplit : input = input.take k ++ c :: input.drop (k + 1) := by
        rw [← hck, ← List.drop_eq_getElem_cons hk, List.take_append_drop]
      have htake : input.take (k + 1) = input.take k ++ [c] := by
        rw [List.take_succ, List.getElem?_eq_getElem hk, hck]
        rfl
      simp only [hni, ne_eq, not_false_eq_true, if_true, List.length_singleton]
      rw [strip_single c _ _ (Nat.lt_succ_self _), ih _ _ _ _, htake]
      · conv_rhs => rw [hsplit, collapse_runs_of_not_mem c _ _ hA, collapse_runs_cons_self]
        simp
      · have := List.Sublist.length_le
          (@List.dropWhile_sublist _ (input.drop (k + 1)) (fun x => x == c))
        rw [List.length_drop] at this
        omega
      · have := List.Sublist.length_le
          (@List.dropWhile_sublist _ (input.drop (k + 1)) (fun x => x == c))
        rw [List.length_drop] at this
        omega

theorem collapse_runs_sublist {α : Type} [DecidableEq α] (c : α) :
    ∀ (l : List α), List.Sublist (collapse_runs c l) l := by
  intro l
  induction l with
  | nil => exact List.Sublist.refl _
  | cons x t ih =>
    unfold collapse_runs
    split_ifs
    · exact List.Sublist.cons _ ih
    · exact List.Sublist.cons₂ _ ih

/-- The runs `syms s` of a well-formed string are its symbols as `get_symbol` returns
them. -/
theorem get_symbol_syms (s : UTF8String) (hs : WellFormed s) (i : Nat) (hi : i < s.m_length) :
    s.get_symbol i = .ok (of_symbols [(syms s).getD i []]) := by
  have hv := hs.valid
  have hrep := hs.rep_eq
  generalize syms s = xs at hv hrep
  subst hrep
  have hi2 : i < xs.length := hi
  rw [get_symbol_of_symbols xs i hv hi2, List.getD_eq_getElem _ _ hi2]

/-! ## The constructors establish the class invariant -/

/-- With an explicit length, `assign_internal` returns a string that satisfies the
class invariant (the `existing_length` bytes are readable and the new buffer can be
allocated). -/
theorem assign_internal_inv (data : List Nat) (n : Nat) (hlen : n ≤ data.length)
    (hsize : n + 1 ≤ PTRDIFF_MAX) : ∃ r, assign_internal data n = .ok r ∧ Inv r := by
  have hP := hsize
  rw [PTRDIFF_MAX_eq] at hP
  have hnp : n ≠ npos := by rw [npos_eq]; omega
  by_cases h0 : 0 < n ∧ data.getD (n - 1) 0 = 0
  · refine ⟨_, assign_internal_terminated data n h0.1 hnp hlen h0.2, ?_, ?_, ?_, ?_⟩
    · simp [hlen]
    · show n ≤ PTRDIFF_MAX
      omega
    · have h2 := h0.2
      rw [List.getD_eq_getElem?_getD] at h2
      rw [List.getLast?_eq_getElem?, List.length_take, Nat.min_eq_left hlen,
        List.getElem?_take_of_lt (by omega), List.getElem?_eq_getElem (by omega)]
      rw [List.getElem?_eq_getElem (by omega)] at h2
      simpa using h2
    · rw [count_loop_eq _ (by simp; omega) _ _ _ (by dsimp only; omega)]
      simp [content, List.take_take]
  · refine ⟨_, assign_internal_unterminated data n hnp hlen h0, ?_, ?_, ?_, ?_⟩
    · simp [hlen]
    · exact hsize
    · simp
    · rw [count_loop_eq _ (by simp; omega) _ _ _ (by dsimp only; omega)]
      simp [content, List.take_append_of_le_length, hlen]

/-! ## Matching a needle at an index -/

theorem of_symbols_singleton_inj (a b : List Nat)
    (h : (Except.ok (of_symbols [a]) : Except Error UTF8String) = .ok (of_symbols [b])) :
    a = b := by
  have h1 : of_symbols [a] = of_symbols [b] := Except.ok.inj h
  have h2 := congrArg UTF8String.m_data h1
  simp only [of_symbols, List.flatten_cons, List.flatten_nil, List.append_nil] at h2
  exact List.append_cancel_right h2

theorem matchesAt_of_symbols (xs ds : List (List Nat)) (hx : Valid xs) (hd : Valid ds)
    (i : Nat) :
    MatchesAt (of_symbols xs) (of_symbols ds) i ↔
      i + ds.length ≤ xs.length ∧ (xs.drop i).take ds.length = ds := by
  unfold MatchesAt
  simp only [show (of_symbols ds).m_length = ds.length from rfl,
    show (of_symbols xs).m_length = xs.length from rfl]
  constructor
  · rintro ⟨hle, hall⟩
    refine ⟨hle, ?_⟩
    apply List.ext_getElem
    · rw [List.length_take, List.length_drop]; omega
    · intro j h1 h2
      have hj := hall j h2
      rw [get_symbol_of_symbols xs (i + j) hx (by omega),
        get_symbol_of_symbols ds j hd h2] at hj
      rw [List.getElem_take, List.getElem_drop]
      exact of_symbols_singleton_inj _ _ hj
  · rintro ⟨hle, hm⟩
    refine ⟨hle, fun j hj => ?_⟩
    rw [get_symbol_of_symbols xs (i + j) hx (by omega), get_symbol_of_symbols ds j hd hj]
    congr 3
    have hlen : j < ((xs.drop i).take ds.length).length := by
      rw [List.length_take, List.length_drop]; omega
    have : ((xs.drop i).take ds.length)[j] = ds[j] := by
      simp only [hm]
    rw [← this, List.getElem_take, List.getElem_drop]

theorem WellFormed.length_lt_npos {s : UTF8String} (h : WellFormed s) :
    (syms s).length < npos := by
  have := h.length_lt
  rw [PTRDIFF_MAX_eq] at this
  rw [npos_eq]
  omega

theorem valid_append_of_inv (xs ys : List (List Nat)) (hx : Valid xs) (hy : Valid ys)
    (hr : Inv (of_symbols (xs ++ ys))) : Valid (xs ++ ys) := by
  refine ⟨fun c hc => ?_, ?_⟩
  · rcases List.mem_append.mp hc with h | h
    · exact hx.1 c h
    · exact hy.1 c h
  · have := hr.2.1
    simp only [of_symbols] at this
    omega

/-! ## `find_last` and `ends_with` on lists of symbols -/

theorem find_last_match_of_symbols (xs ds : List (List Nat)) (hx : Valid xs) (hd : Valid ds)
    (i : Nat) :
    ∀ (n j : Nat), j + n ≤ ds.length → i + j + n ≤ xs.length →
      find_last_match (of_symbols xs) (of_symbols ds) i n j =
        .ok (decide ((xs.drop (i + j)).take n = (ds.drop j).take n)) := by
  intro n
  induction n with
  | zero => intro j _ _; simp [find_last_match]
  | succ m ih =>
    intro j hj hij
    have h1 : j < ds.length := by omega
    have h2 : i + j < xs.length := by omega
    unfold find_last_match
    simp only [get_symbol_of_symbols ds j hd h1, get_symbol_of_symbols xs (i + j) hx h2, bind,
      Except.bind, ne_of_symbols _ _ (hd.singleton j h1) (hx.singleton (i + j) h2)]
    rw [take_succ_drop xs (i + j) m h2, take_succ_drop ds j m h1]
    by_cases he : ds[j] = xs[i + j]
    · simp only [he, decide_True, Bool.not_true, Bool.false_eq_true, if_false]
      rw [ih (j + 1) (by omega) (by omega)]
      simp [Nat.add_assoc]
    · have hne : ¬ xs[i + j] = ds[j] := fun hh => he hh.symm
      simp [he, hne]

theorem find_last_loop_of_symbols (xs ds : List (List Nat)) (hx : Valid xs) (hd : Valid ds) :
    ∀ (fuel i : Nat),
      (i = npos ∧ 1 ≤ fuel) ∨ (i + ds.length ≤ xs.length ∧ i + 2 ≤ fuel) →
      find_last_loop (of_symbols xs) (of_symbols ds) fuel i = .ok (last_match xs ds fuel i) := by
  intro fuel
  induction fuel with
  | zero => intro i h; omega
  | succ n ih =>
    intro i h
    have hxl := hx.lt_size
    unfold find_last_loop last_match
    by_cases hi : i = npos
    · simp [hi]
    · have h2 : i + ds.length ≤ xs.length ∧ i + 2 ≤ n + 1 := by
        rcases h with h | h
        · exact absurd h.1 hi
        · exact h
      have := find_last_match_of_symbols xs ds hx hd i ds.length 0 (by omega) (by omega)
      simp only [hi, ne_eq, not_false_eq_true, if_true,
        show (of_symbols ds).m_length = ds.length from rfl, this, bind, Except.bind,
        Nat.add_zero, List.drop_zero, List.take_length]
      by_cases hm : (xs.drop i).take ds.length = ds
      · simp [hm]
      · simp only [hm, decide_False, Bool.false_eq_true, if_false]
        apply ih
        by_cases h0 : i = 0
        · left
          subst h0
          exact ⟨by rw [SIZE_MOD_eq, npos_eq]; norm_num, by omega⟩
        · right
          have : (i + SIZE_MOD - 1) % SIZE_MOD = i - 1 := by
            rw [SIZE_MOD_eq]
            omega
          rw [this]
          omega

theorem find_last_of_symbols (xs ds : List (List Nat)) (hx : Valid xs) (hd : Valid ds) :
    (of_symbols xs).find_last (of_symbols ds) =
      .ok (if ds.length > xs.length then npos
        else last_match xs ds (xs.length + 2) (xs.length - ds.length)) := by
  unfold find_last
  simp only [show (of_symbols ds).m_length = ds.length from rfl,
    show (of_symbols xs).m_length = xs.length from rfl]
  by_cases hg : ds.length > xs.length
  · simp [hg]
  · simp only [hg, if_false]
    exact find_last_loop_of_symbols xs ds hx hd _ _ (Or.inr ⟨by omega, by omega⟩)

/-- What the downward scan of `find_last` returns on lists of symbols: `npos` when the
needle matches at no index up to the start `i`, else the greatest such index. -/
theorem last_match_spec {α : Type} [DecidableEq α] (xs ds : List α) :
    ∀ (fuel i : Nat), i < npos → i + 2 ≤ fuel →
      (last_match xs ds fuel i = npos ∧
        ∀ j, j ≤ i → (xs.drop j).take ds.length ≠ ds) ∨
      (last_match xs ds fuel i ≤ i ∧
        (xs.drop (last_match xs ds fuel i)).take ds.length = ds ∧
        ∀ j, last_match xs ds fuel i < j → j ≤ i → (xs.drop j).take ds.length ≠ ds) := by
  intro fuel
  induction fuel with
  | zero => intro i _ h; omega
  | succ n ih =>
    intro i hi hf
    have hne : i ≠ npos := by omega
    unfold last_match
    rw [if_pos hne]
    by_cases hm : (xs.drop i).take ds.length = ds
    · right
      rw [if_pos hm]
      exact ⟨le_refl _, hm, fun j h1 h2 => by omega⟩
    · rw [if_neg hm]
      by_cases h0 : i = 0
      · left
        subst h0
        have hw : (0 + SIZE_MOD - 1) % SIZE_MOD = npos := by rw [SIZE_MOD_eq, npos_eq]; norm_num
        rw [hw]
        cases n with
        | zero => omega
        | succ k =>
          refine ⟨by simp [last_match], fun j hj => ?_⟩
          have : j = 0 := by omega
          rw [this]
          exact hm
      · have hw : (i + SIZE_MOD - 1) % SIZE_MOD = i - 1 := by
          rw [npos_eq] at hi
          rw [SIZE_MOD_eq]
          omega
        rw [hw]
        rcases ih (i - 1) (by omega) (by omega) with ⟨h1, h2⟩ | ⟨h1, h2, h3⟩
        · left
          refine ⟨h1, fun j hj => ?_⟩
          by_cases hji : j = i
          · rw [hji]; exact hm
          · exact h2 j (by omega)
        · right
          refine ⟨by omega, h2, fun j hj1 hj2 => ?_⟩
          by_cases hji : j = i
          · rw [hji]; exact hm
          · exact h3 j hj1 (by omega)

theorem take_succ_eq_iff {α : Type} (l₁ l₂ : List α) (k : Nat) (h1 : k < l₁.length)
    (h2 : k < l₂.length) :
    l₁.take (k + 1) = l₂.take (k + 1) ↔ l₁.take k = l₂.take k ∧ l₁[k] = l₂[k] := by
  rw [List.take_succ, List.take_succ, List.getElem?_eq_getElem h1, List.getElem?_eq_getElem h2]
  simp only [Option.toList_some]
  constructor
  · intro h
    have := List.append_inj h (by simp [List.length_take]; omega)
    exact ⟨this.1, by simpa using this.2⟩
  · rintro ⟨ha, hb⟩
    rw [ha, hb]

theorem ends_with_loop_of_symbols (xs ds : List (List Nat)) (hx : Valid xs) (hd : Valid ds)
    (diff : Nat) :
    ∀ (k : Nat), k ≤ ds.length → diff + k ≤ xs.length →
      ends_with_loop (of_symbols xs) (of_symbols ds) diff k =
        .ok (decide ((xs.drop diff).take k = ds.take k)) := by
  intro k
  induction k with
  | zero => intro _ _; simp [ends_with_loop]
  | succ m ih =>
    intro h1 h2
    have hi1 : m < ds.length := by omega
    have hi2 : diff + m < xs.length := by omega
    have hi3 : m < (xs.drop diff).length := by rw [List.length_drop]; omega
    unfold ends_with_loop
    simp only [get_symbol_of_symbols ds m hd hi1, get_symbol_of_symbols xs (diff + m) hx hi2,
      bind, Except.bind, ne_of_symbols _ _ (hd.singleton m hi1) (hx.singleton (diff + m) hi2)]
    have hiff := take_succ_eq_iff (xs.drop diff) ds m hi3 hi1
    rw [List.getElem_drop] at hiff
    by_cases he : ds[m] = xs[diff + m]
    · simp only [he, decide_True, Bool.not_true, Bool.false_eq_true, if_false]
      rw [ih (by omega) (by omega)]
      congr 1
      rw [decide_eq_decide, hiff]
      simp [he]
    · have hne : ¬ xs[diff + m] = ds[m] := fun hh => he hh.symm
      have : ¬ (xs.drop diff).take (m + 1) = ds.take (m + 1) := fun hh => hne (hiff.mp hh).2
      simp [he, this]

theorem ends_with_of_symbols (xs ds : List (List Nat)) (hx : Valid xs) (hd : Valid ds) :
    (of_symbols xs).ends_with (of_symbols ds) =
      .ok (decide (ds.length ≤ xs.length ∧ xs.drop (xs.length - ds.length) = ds)) := by
  unfold ends_with
  simp only [show (of_symbols ds).m_length = ds.length from rfl,
    show (of_symbols xs).m_length = xs.length from rfl]
  by_cases hg : ds.length > xs.length
  · have : ¬ ds.length ≤ xs.length := by omega
    simp [hg, this]
  · have hle : ds.length ≤ xs.length := by omega
    simp only [hg, if_false]
    rw [ends_with_loop_of_symbols xs ds hx hd _ _ (le_refl _) (by omega), List.take_length,
      List.take_of_length_le (by rw [List.length_drop]; omega)]
    simp [hle]

/-! ## The numeric predicates and conversions return -/

theorem get_symbol_value_total (s : UTF8String)
    (h : count_loop s (s.m_data_length + 1) 0 0 = .ok s.m_length) (i : Nat)
    (hi : i < s.m_length) : ∃ v, s.get_symbol_value i = .ok v := by
  obtain ⟨bi, hbi, hlt⟩ := byte_index_loop_of_count s i _ 0 0 _ h (Nat.zero_le _) hi
  unfold get_symbol_value get_byte_index_for_symbol_index
  simp only [check_symbol_index, not_le.mpr hi, ge_iff_le, if_false, bind, Except.bind, hbi,
    get_byte_width_ok s bi (by omega), pure, Except.pure]
  exact ⟨_, rfl⟩

theorem get_symbol_width_total (s : UTF8String)
    (h : count_loop s (s.m_data_length + 1) 0 0 = .ok s.m_length) (i : Nat)
    (hi : i < s.m_length) : ∃ w, s.get_symbol_width i = .ok w := by
  obtain ⟨bi, hbi, hlt⟩ := byte_index_loop_of_count s i _ 0 0 _ h (Nat.zero_le _) hi
  unfold get_symbol_width get_byte_index_for_symbol_index
  simp only [check_symbol_index, not_le.mpr hi, ge_iff_le, if_false, bind, Except.bind, hbi,
    get_byte_width_ok s bi (by omega)]
  exact ⟨_, rfl⟩

theorem get_code_point_total (s : UTF8String)
    (h : count_loop s (s.m_data_length + 1) 0 0 = .ok s.m_length) (i : Nat)
    (hi : i < s.m_length) : ∃ c, s.get_code_point i = .ok c := by
  obtain ⟨w, hw⟩ := get_symbol_width_total s h i hi
  obtain ⟨v, hv⟩ := get_symbol_value_total s h i hi
  unfold get_code_point
  simp only [check_symbol_index, not_le.mpr hi, ge_iff_le, if_false, bind, Except.bind, hw, hv,
    pure, Except.pure]
  split_ifs <;> exact ⟨_, rfl⟩

theorem of_cstr_char (d : Nat) (h0 : 0 < d) (h1 : d < 128) :
    of_cstr [d, 0] = .ok ⟨[d, 0], 2, 1⟩ := by
  have hd : d ≠ 0 := by omega
  have hs : strlen [d, 0] = 1 := by
    have hb : (d != 0) = true := by simpa using hd
    simp [strlen, List.takeWhile, hb]
  unfold of_cstr assign_internal
  simp only [default_existing_length, if_true, hs, memcpy_new_char]
  rw [count_loop_eq _ (by simp) _ _ _ (by dsimp only; omega)]
  simp [bind, Except.bind, pure, Except.pure, content, symbols_cons, width_of_byte_ascii d h1]

theorem is_int_loop_total (s : UTF8String)
    (h : count_loop s (s.m_data_length + 1) 0 0 = .ok s.m_length) :
    ∀ (n i : Nat), i + n ≤ s.m_length → ∃ b, is_int_loop s n i = .ok b := by
  intro n
  induction n with
  | zero => intro i _; exact ⟨true, rfl⟩
  | succ k ih =>
    intro i hle
    obtain ⟨c, hc⟩ := get_code_point_total s h i (by omega)
    obtain ⟨sym, hsym⟩ := get_symbol_total s h i (by omega)
    obtain ⟨b, hb⟩ := ih (i + 1) (by omega)
    unfold is_int_loop
    simp only [hc, hsym, of_cstr_char 45 (by decide) (by decide), hb, bind, Except.bind]
    split_ifs <;> exact ⟨_, rfl⟩

theorem is_int_total (s : UTF8String)
    (h : count_loop s (s.m_data_length + 1) 0 0 = .ok s.m_length) :
    ∃ b, s.is_int = .ok b := by
  obtain ⟨b, hb⟩ := is_int_loop_total s h s.m_length 0 (by omega)
  unfold is_int
  simp only [hb, bind, Except.bind, pure, Except.pure]
  split_ifs <;> exact ⟨_, rfl⟩

theorem is_uint_loop_total (s : UTF8String)
    (h : count_loop s (s.m_data_length + 1) 0 0 = .ok s.m_length) :
    ∀ (n i : Nat), i + n ≤ s.m_length → ∃ b, is_uint_loop s n i = .ok b := by
  intro n
  induction n with
  | zero => intro i _; exact ⟨true, rfl⟩
  | succ k ih =>
    intro i hle
    obtain ⟨v, hv⟩ := get_symbol_value_total s h i (by omega)
    obtain ⟨b, hb⟩ := ih (i + 1) (by omega)
    unfold is_uint_loop
    simp only [hv, hb, bind, Except.bind]
    split_ifs <;> exact ⟨_, rfl⟩

theorem is_uint_total (s : UTF8String)
    (h : count_loop s (s.m_data_length + 1) 0 0 = .ok s.m_length) :
    ∃ b, s.is_uint = .ok b := by
  obtain ⟨b, hb⟩ := is_uint_loop_total s h s.m_length 0 (by omega)
  unfold is_uint
  simp only [hb, bind, Except.bind, pure, Except.pure]
  split_ifs <;> exact ⟨_, rfl⟩

theorem to_bool_loop_total (s : UTF8String)
    (h : count_loop s (s.m_data_length + 1) 0 0 = .ok s.m_length) :
    ∀ (n i : Nat), i + n ≤ s.m_length → ∃ b, to_bool_loop s n i = .ok b := by
  intro n
  induction n with
  | zero => intro i _; exact ⟨false, rfl⟩
  | succ k ih =>
    intro i hle
    obtain ⟨sym, hsym⟩ := get_symbol_total s h i (by omega)
    obtain ⟨b, hb⟩ := ih (i + 1) (by omega)
    unfold to_bool_loop
    simp only [hsym, of_cstr_char 48 (by decide) (by decide), hb, bind, Except.bind]
    split_ifs <;> exact ⟨_, rfl⟩

/-! ## One-character symbols -/

theorem assign_internal_data (data : List Nat) (n : Nat) (hnp : n ≠ npos) (c : UTF8String)
    (h : assign_internal data n = .ok c) :
    c.m_data = if 0 < n ∧ data.getD (n - 1) 0 = 0 then data.take n
      else (data.take n ++ [0]).set n 0 := by
  by_cases h0 : 0 < n ∧ data.getD (n - 1) 0 = 0
  · rw [if_pos h0]
    unfold assign_internal at h
    simp only [hnp, if_false, h0.1, h0.2, and_self, if_true, memcpy_new_char, Nat.sub_self,
      List.replicate_zero, List.append_nil] at h
    obtain ⟨m, hm⟩ := count_loop_total ⟨data.take n, n, 0⟩ (n + 1) 0 0 (by dsimp only; omega)
    rw [hm] at h
    rw [← Except.ok.inj h]
  · rw [if_neg h0]
    unfold assign_internal at h
    have e1 : n + 1 - n = 1 := by omega
    simp only [hnp, if_false, h0, memcpy_new_char, Bool.false_eq_true, e1,
      Nat.add_sub_cancel] at h
    obtain ⟨m, hm⟩ := count_loop_total
      ⟨(data.take n ++ List.replicate 1 0).set n 0, n + 1, 0⟩ (n + 1 + 1) 0 0
      (by dsimp only; omega)
    rw [hm] at h
    rw [← Except.ok.inj h]
    rfl

theorem assign_internal_head (b0 : Nat) (rest : List Nat) (n : Nat) (hn : 1 ≤ n)
    (hnp : n ≠ npos) (c : UTF8String) (h : assign_internal (b0 :: rest) n = .ok c) :
    ∃ t, c.m_data = b0 :: t := by
  rw [assign_internal_data _ n hnp c h]
  obtain ⟨k, rfl⟩ : ∃ k, n = k + 1 := ⟨n - 1, by omega⟩
  split_ifs
  · exact ⟨_, List.take_succ_cons⟩
  · rw [List.take_succ_cons, List.cons_append, List.set_cons_succ]
    exact ⟨_, rfl⟩

theorem strcmp_eq_char (b0 : Nat) (t : List Nat) (d : Nat) (hd : 0 < d) (hne : b0 ≠ d) :
    strcmp_eq (b0 :: t) [d, 0] = false := by
  have hd0 : (d != 0) = true := by
    have : d ≠ 0 := by omega
    simpa using this
  unfold strcmp_eq
  by_cases hb : b0 = 0
  · subst hb
    simp [List.takeWhile, hd0]
  · have hb0 : (b0 != 0) = true := by simpa using hb
    simp [List.takeWhile, hd0, hb0, hne]

theorem assign_internal_char (b0 : Nat) (rest : List Nat) (c : UTF8String) (d : Nat)
    (hd : 0 < d) (hd2 : d < 128)
    (h : assign_internal (b0 :: rest) (width_of_byte b0) = .ok c) :
    c.eq ⟨[d, 0], 2, 1⟩ = true ↔ c = ⟨[d, 0], 2, 1⟩ := by
  by_cases hb : b0 = d
  · subst hb
    rw [width_of_byte_ascii b0 hd2,
      assign_internal_unterminated _ 1 (by rw [npos_eq]; omega) (by simp)
        (by simp; omega)] at h
    have hc := Except.ok.inj h
    simp only [List.take_succ_cons, List.take_zero, symbols_cons, width_of_byte_ascii b0 hd2,
      Nat.sub_self, List.drop_zero, symbols_nil, List.length_singleton, List.singleton_append,
      Nat.reduceAdd] at hc
    subst hc
    have hd0 : (b0 != 0) = true := by
      have : b0 ≠ 0 := by omega
      simpa using this
    simp [eq, strcmp_eq, List.takeWhile, hd0]
  · have hw := width_of_byte_pos b0
    have hw4 := width_of_byte_le b0
    obtain ⟨t, ht⟩ := assign_internal_head b0 rest _ hw (by rw [npos_eq]; omega) c h
    constructor
    · intro he
      unfold eq at he
      rw [ht] at he
      simp only [strcmp_eq_char b0 t d hd hb] at he
      cases he
    · intro hc
      rw [hc] at ht
      simp at ht
      exact absurd ht.1.symm hb

theorem get_symbol_char (s : UTF8String) (hs : Inv s) (i : Nat) (c : UTF8String) (d : Nat)
    (hd : 0 < d) (hd2 : d < 128) (h : s.get_symbol i = .ok c) :
    c.eq ⟨[d, 0], 2, 1⟩ = true ↔ c = ⟨[d, 0], 2, 1⟩ := by
  by_cases hi : i < s.m_length
  · obtain ⟨bi, hbi, hlt⟩ :=
      byte_index_loop_of_count s i _ 0 0 _ hs.2.2.2 (Nat.zero_le _) hi
    unfold get_symbol get_byte_index_for_symbol_index at h
    simp only [check_symbol_index, not_le.mpr hi, ge_iff_le, if_false, bind, Except.bind, hbi,
      get_byte_width_ok s bi (by omega), of_data] at h
    have hlen : bi < s.m_data.length := by
      have := hs.1
      omega
    rw [List.drop_eq_getElem_cons hlen, List.getD_eq_getElem _ _ hlen] at h
    exact assign_internal_char _ _ c d hd hd2 h
  · unfold get_symbol at h
    have hge : s.m_length ≤ i := by omega
    simp only [check_symbol_index, ge_iff_le, hge, if_true, bind, Except.bind] at h
    cases h

theorem to_bool_loop_spec (s : UTF8String) (hs : Inv s) :
    ∀ (n i : Nat), i + n ≤ s.m_length →
      ∃ b, to_bool_loop s n i = .ok b ∧
        (b = false ↔ ∀ j, i ≤ j → j < i + n → s.get_symbol j = .ok ⟨[48, 0], 2, 1⟩) := by
  intro n
  induction n with
  | zero => intro i _; exact ⟨false, rfl, by simp; intro j h1 h2; omega⟩
  | succ k ih =>
    intro i hle
    obtain ⟨sym, hsym⟩ := get_symbol_total s hs.2.2.2 i (by omega)
    obtain ⟨b, hb, hspec⟩ := ih (i + 1) (by omega)
    have hchar := get_symbol_char s hs i sym 48 (by decide) (by decide) hsym
    unfold to_bool_loop
    simp only [hsym, of_cstr_char 48 (by decide) (by decide), bind, Except.bind, ne]
    by_cases he : sym.eq ⟨[48, 0], 2, 1⟩ = true
    · have hsym2 : s.get_symbol i = .ok ⟨[48, 0], 2, 1⟩ := by rw [hsym, hchar.mp he]
      simp only [he, Bool.not_true, Bool.false_eq_true, if_false]
      refine ⟨b, hb, ?_⟩
      rw [hspec]
      constructor
      · intro hall j h1 h2
        by_cases hji : j = i
        · rw [hji]; exact hsym2
        · exact hall j (by omega) (by omega)
      · intro hall j h1 h2
        exact hall j (by omega) (by omega)
    · have he2 : sym.eq ⟨[48, 0], 2, 1⟩ = false := by simpa using he
      simp only [he2, Bool.not_false, if_true]
      refine ⟨true, rfl, ?_⟩
      constructor
      · intro hcon; cases hcon
      · intro hall
        have := hall i (le_refl _) (by omega)
        rw [hsym] at this
        have := hchar.mpr (Except.ok.inj this)
        exact absurd this he

/-! ## The loop of `is_int` -/

theorem is_int_loop_spec (s : UTF8String) (hs : Inv s) :
    ∀ (n i : Nat), i + n ≤ s.m_length →
      ∃ b, is_int_loop s n i = .ok b ∧
        (b = true ↔ ∀ j, i ≤ j → j < i + n →
          (j = 0 ∧ s.get_symbol j = .ok ⟨[45, 0], 2, 1⟩) ∨
            ∃ c, s.get_code_point j = .ok c ∧ is_digit c = true) := by
  intro n
  induction n with
  | zero => intro i _; exact ⟨true, rfl, by simp; intro j h1 h2; omega⟩
  | succ k ih =>
    intro i hle
    obtain ⟨c, hc⟩ := get_code_point_total s hs.2.2.2 i (by omega)
    obtain ⟨sym, hsym⟩ := get_symbol_total s hs.2.2.2 i (by omega)
    obtain ⟨b, hb, hspec⟩ := ih (i + 1) (by omega)
    have hchar := get_symbol_char s hs i sym 45 (by decide) (by decide) hsym
    have hstep : ∀ (P : Prop), P →
        ((∀ j, i ≤ j → j < i + (k + 1) →
          (j = 0 ∧ s.get_symbol j = .ok ⟨[45, 0], 2, 1⟩) ∨
            ∃ c, s.get_code_point j = .ok c ∧ is_digit c = true) ↔
        (∀ j, i + 1 ≤ j → j < i + 1 + k →
          (j = 0 ∧ s.get_symbol j = .ok ⟨[45, 0], 2, 1⟩) ∨
            ∃ c, s.get_code_point j = .ok c ∧ is_digit c = true)) →
        ∃ b', Except.ok b = (Except.ok b' : Except Error Bool) ∧
          (b' = true ↔ ∀ j, i ≤ j → j < i + (k + 1) →
            (j = 0 ∧ s.get_symbol j = .ok ⟨[45, 0], 2, 1⟩) ∨
              ∃ c, s.get_code_point j = .ok c ∧ is_digit c = true) :=
      fun _ _ hiff => ⟨b, rfl, by rw [hspec]; exact hiff.symm⟩
    have hcont : ((i = 0 ∧ s.get_symbol i = .ok ⟨[45, 0], 2, 1⟩) ∨
        ∃ c, s.get_code_point i = .ok c ∧ is_digit c = true) →
        ((∀ j, i ≤ j → j < i + (k + 1) →
          (j = 0 ∧ s.get_symbol j = .ok ⟨[45, 0], 2, 1⟩) ∨
            ∃ c, s.get_code_point j = .ok c ∧ is_digit c = true) ↔
        (∀ j, i + 1 ≤ j → j < i + 1 + k →
          (j = 0 ∧ s.get_symbol j = .ok ⟨[45, 0], 2, 1⟩) ∨
            ∃ c, s.get_code_point j = .ok c ∧ is_digit c = true)) := by
      intro hi0
      constructor
      · intro hall j h1 h2
        exact hall j (by omega) (by omega)
      · intro hall j h1 h2
        by_cases hji : j = i
        · rw [hji]; exact hi0
        · exact hall j (by omega) (by omega)
    have hstop : ¬ ((i = 0 ∧ s.get_symbol i = .ok ⟨[45, 0], 2, 1⟩) ∨
        ∃ c, s.get_code_point i = .ok c ∧ is_digit c = true) →
        ∃ b', Except.ok false = (Except.ok b' : Except Error Bool) ∧
          (b' = true ↔ ∀ j, i ≤ j → j < i + (k + 1) →
            (j = 0 ∧ s.get_symbol j = .ok ⟨[45, 0], 2, 1⟩) ∨
              ∃ c, s.get_code_point j = .ok c ∧ is_digit c = true) := by
      intro hno
      refine ⟨false, rfl, ?_⟩
      constructor
      · intro hcon; cases hcon
      · intro hall
        exact absurd (hall i (le_refl _) (by omega)) hno
    unfold is_int_loop
    simp only [hc, hsym, of_cstr_char 45 (by decide) (by decide), hb, bind, Except.bind, ne]
    by_cases hd : is_digit c = true
    · have hi0 : (i = 0 ∧ s.get_symbol i = .ok ⟨[45, 0], 2, 1⟩) ∨
          ∃ c, s.get_code_point i = .ok c ∧ is_digit c = true := Or.inr ⟨c, hc, hd⟩
      simp only [hd, Bool.not_true, Bool.and_false, Bool.false_eq_true, if_false, ite_self]
      exact hstep _ trivial (hcont hi0)
    · have hd2 : is_digit c = false := by simpa using hd
      by_cases h0 : i = 0
      · by_cases he : sym.eq ⟨[45, 0], 2, 1⟩ = true
        · have hi0 : (i = 0 ∧ s.get_symbol i = .ok ⟨[45, 0], 2, 1⟩) ∨
              ∃ c, s.get_code_point i = .ok c ∧ is_digit c = true :=
            Or.inl ⟨h0, by rw [hsym, hchar.mp he]⟩
          simp only [h0, if_true, he, Bool.not_true, Bool.false_and, Bool.false_eq_true,
            if_false]
          rw [h0] at hi0
          have := hstep _ trivial (hcont (h0 ▸ hi0))
          simpa [h0] using this
        · have he2 : sym.eq ⟨[45, 0], 2, 1⟩ = false := by simpa using he
          simp only [h0, if_true, he2, hd2, Bool.not_false, Bool.and_self]
          have := hstop (by
            rintro (⟨_, h2⟩ | ⟨c', hc', hd'⟩)
            · rw [hsym] at h2
              exact he (hchar.mpr (Except.ok.inj h2))
            · rw [hc] at hc'
              rw [← Except.ok.inj hc'] at hd'
              exact hd hd')
          simpa [h0] using this
      · simp only [h0, if_false, hd2, Bool.not_false, if_true]
        exact hstop (by
          rintro (⟨h1, _⟩ | ⟨c', hc', hd'⟩)
          · exact h0 h1
          · rw [hc] at hc'
            rw [← Except.ok.inj hc'] at hd'
            exact hd hd')

/-! ## One-character symbols and the loops of `is_uint` and `is_float` -/

theorem symbol_value_single (d : Nat) (h : d < 256) : symbol_value [d] = d := by
  simp only [symbol_value, bytes_to_uint32, List.length_singleton, List.take_succ_cons,
    List.take_zero, List.foldr_cons, List.foldr_nil]
  omega

theorem validSymbol_char (d : Nat) (h0 : 0 < d) (h1 : d < 128) : ValidSymbol [d] := by
  refine ⟨?_, ?_⟩
  · simp [Complete, width_of_byte_ascii d h1]
  · intro b hb
    rw [List.mem_singleton] at hb
    omega

theorem valid_char (d : Nat) (h0 : 0 < d) (h1 : d < 128) : Valid [[d]] := by
  refine ⟨?_, ?_⟩
  · intro c hc
    rw [List.mem_singleton] at hc
    rw [hc]
    exact validSymbol_char d h0 h1
  · simp [PTRDIFF_MAX_eq]

theorem of_symbols_char (d : Nat) : of_symbols [[d]] = ⟨[d, 0], 2, 1⟩ := rfl

theorem digit_symbol (c : List Nat) (hc : ValidSymbol c) :
    is_digit (symbol_value c) = true ↔ ∃ d, c = [d] ∧ 48 ≤ d ∧ d ≤ 57 := by
  constructor
  · intro h
    have hb : 48 ≤ symbol_value c ∧ symbol_value c ≤ 57 := by simpa [is_digit] using h
    refine ⟨symbol_value c, ?_, hb⟩
    apply symbol_value_inj c [symbol_value c] hc
      (validSymbol_char _ (by omega) (by omega))
    rw [symbol_value_single _ (by omega)]
  · rintro ⟨d, rfl, h1, h2⟩
    rw [symbol_value_single d (by omega)]
    simp [is_digit, h1, h2]

theorem symbol_eq_char (c : List Nat) (hc : Valid [c]) (d : Nat) (h0 : 0 < d)
    (h1 : d < 128) : (of_symbols [c]).eq ⟨[d, 0], 2, 1⟩ = decide (c = [d]) := by
  rw [← of_symbols_char d, eq_of_symbols [c] [[d]] hc (valid_char d h0 h1)]
  simp

theorem get_symbol_char_iff (s : UTF8String) (hs : WellFormed s) (i : Nat)
    (hi : i < s.m_length) (d : Nat) :
    s.get_symbol i = .ok ⟨[d, 0], 2, 1⟩ ↔ (syms s).getD i [] = [d] := by
  rw [get_symbol_syms s hs i hi, ← of_symbols_char d]
  constructor
  · intro h; exact of_symbols_singleton_inj _ _ h
  · intro h; rw [h]

theorem get_symbol_value_syms (s : UTF8String) (hs : WellFormed s) (i : Nat)
    (hi : i < s.m_length) :
    s.get_symbol_value i = .ok (symbol_value ((syms s).getD i [])) := by
  have hv := hs.valid
  have hrep := hs.rep_eq
  generalize syms s = xs at hv hrep
  subst hrep
  have hi2 : i < xs.length := hi
  rw [get_symbol_value_of_symbols xs i hv hi2, List.getD_eq_getElem _ _ hi2]

theorem syms_getD_valid (s : UTF8String) (hs : WellFormed s) (i : Nat)
    (hi : i < s.m_length) : Valid [(syms s).getD i []] := by
  have hi2 : i < (syms s).length := by rw [← hs.1.length_eq]; exact hi
  rw [List.getD_eq_getElem _ _ hi2]
  exact hs.valid.singleton i hi2

theorem is_uint_loop_spec (s : UTF8String) (hs : WellFormed s) :
    ∀ (n i : Nat), i + n ≤ s.m_length →
      ∃ b, is_uint_loop s n i = .ok b ∧
        (b = true ↔ ∀ j, i ≤ j → j < i + n →
          is_digit (symbol_value ((syms s).getD j [])) = true) := by
  intro n
  induction n with
  | zero => intro i _; exact ⟨true, rfl, by simp; intro j h1 h2; omega⟩
  | succ k ih =>
    intro i hle
    obtain ⟨b, hb, hspec⟩ := ih (i + 1) (by omega)
    unfold is_uint_loop
    simp only [get_symbol_value_syms s hs i (by omega), hb, bind, Except.bind]
    by_cases hd : is_digit (symbol_value ((syms s).getD i [])) = true
    · simp only [hd, Bool.not_true, Bool.false_eq_true, if_false]
      refine ⟨b, rfl, ?_⟩
      rw [hspec]
      constructor
      · intro hall j h1 h2
        by_cases hji : j = i
        · rw [hji]; exact hd
        · exact hall j (by omega) (by omega)
      · intro hall j h1 h2
        exact hall j (by omega) (by omega)
    · have hd2 : is_digit (symbol_value ((syms s).getD i [])) = false := by simpa using hd
      simp only [hd2, Bool.not_false, if_true]
      refine ⟨false, rfl, ?_⟩
      constructor
      · intro hcon; cases hcon
      · intro hall
        exact absurd (hall i (le_refl _) (by omega)) hd

theorem is_float_loop_spec (s : UTF8String) (hs : WellFormed s)
    (R : Nat → Nat → Bool → Prop)
    (hR : ∀ i n pf, R i n pf ↔
      (∀ j, i ≤ j → j < i + n →
        is_digit (symbol_value ((syms s).getD j [])) = true ∨
          (j = 0 ∧ (syms s).getD j [] = [45]) ∨ (syms s).getD j [] = [46]) ∧
      (∀ j k, i ≤ j → j < i + n → i ≤ k → k < i + n →
        (syms s).getD j [] = [46] → (syms s).getD k [] = [46] → j = k) ∧
      (pf = true → ∀ j, i ≤ j → j < i + n → (syms s).getD j [] ≠ [46])) :
    ∀ (n i : Nat) (pf : Bool), i + n ≤ s.m_length →
      ∃ b, is_float_loop s n i pf = .ok b ∧ (b = true ↔ R i n pf) := by
  intro n
  induction n with
  | zero =>
    intro i pf _
    refine ⟨true, rfl, ?_⟩
    simp only [true_iff]
    rw [hR]
    refine ⟨?_, ?_, ?_⟩
    · intro j h1 h2; omega
    · intro j k h1 h2; omega
    · intro _ j h1 h2; omega
  | succ k ih =>
    intro i pf hle
    have hi : i < s.m_length := by omega
    have hval := get_symbol_value_syms s hs i hi
    have hsym := get_symbol_syms s hs i hi
    have hvalid := syms_getD_valid s hs i hi
    have hminus := symbol_eq_char _ hvalid 45 (by decide) (by decide)
    have hpoint := symbol_eq_char _ hvalid 46 (by decide) (by decide)
    have hcont : (is_digit (symbol_value ((syms s).getD i [])) = true ∨
          (i = 0 ∧ (syms s).getD i [] = [45])) →
        (R i (k + 1) pf ↔ R (i + 1) k pf) := by
      intro hal
      have hne : (syms s).getD i [] ≠ [46] := by
        intro h46
        rw [h46] at hal
        rcases hal with h | ⟨_, h⟩
        · revert h; decide
        · revert h; decide
      rw [hR, hR]
      constructor
      · rintro ⟨h1, h2, h3⟩
        refine ⟨fun j a b => h1 j (by omega) (by omega),
          fun j l a b c d => h2 j l (by omega) (by omega) (by omega) (by omega),
          fun hp j a b => h3 hp j (by omega) (by omega)⟩
      · rintro ⟨h1, h2, h3⟩
        refine ⟨?_, ?_, ?_⟩
        · intro j a b
          by_cases hji : j = i
          · rw [hji]
            rcases hal with h | h
            · exact Or.inl h
            · exact Or.inr (Or.inl h)
          · exact h1 j (by omega) (by omega)
        · intro j l a b c d ej el
          have hj : j ≠ i := fun h => hne (h ▸ ej)
          have hl : l ≠ i := fun h => hne (h ▸ el)
          exact h2 j l (by omega) (by omega) (by omega) (by omega) ej el
        · intro hp j a b
          by_cases hji : j = i
          · rw [hji]; exact hne
          · exact h3 hp j (by omega) (by omega)
    have hpt : (syms s).getD i [] = [46] → (R i (k + 1) false ↔ R (i + 1) k true) := by
      intro h46
      rw [hR, hR]
      constructor
      · rintro ⟨h1, h2, _⟩
        refine ⟨fun j a b => h1 j (by omega) (by omega),
          fun j l a b c d => h2 j l (by omega) (by omega) (by omega) (by omega),
          fun _ j a b ej => ?_⟩
        have := h2 i j (le_refl _) (by omega) (by omega) (by omega) h46 ej
        omega
      · rintro ⟨h1, h2, h3⟩
        refine ⟨?_, ?_, ?_⟩
        · intro j a b
          by_cases hji : j = i
          · rw [hji]; exact Or.inr (Or.inr h46)
          · exact h1 j (by omega) (by omega)
        · intro j l a b c d ej el
          by_cases hji : j = i
          · by_cases hli : l = i
            · omega
            · exact absurd el (h3 rfl l (by omega) (by omega))
          · by_cases hli : l = i
            · exact absurd ej (h3 rfl j (by omega) (by omega))
            · exact h2 j l (by omega) (by omega) (by omega) (by omega) ej el
        · intro hp; cases hp
    have hstop1 : ¬ (is_digit (symbol_value ((syms s).getD i [])) = true ∨
          (i = 0 ∧ (syms s).getD i [] = [45]) ∨ (syms s).getD i [] = [46]) →
        ¬ R i (k + 1) pf := by
      intro hno hr
      rw [hR] at hr
      exact hno (hr.1 i (le_refl _) (by omega))
    have hstop2 : (syms s).getD i [] = [46] → ¬ R i (k + 1) true := by
      intro h46 hr
      rw [hR] at hr
      exact hr.2.2 rfl i (le_refl _) (by omega) h46
    have hgo : ∀ pf2, (R i (k + 1) pf ↔ R (i + 1) k pf2) →
        ∃ b, is_float_loop s k (i + 1) pf2 = .ok b ∧ (b = true ↔ R i (k + 1) pf) := by
      intro pf2 hiff
      obtain ⟨b, hb, hspec⟩ := ih (i + 1) pf2 (by omega)
      exact ⟨b, hb, by rw [hspec]; exact hiff.symm⟩
    have hhalt : ¬ R i (k + 1) pf →
        ∃ b, (Except.ok false : Except Error Bool) = .ok b ∧ (b = true ↔ R i (k + 1) pf) := by
      intro hno
      exact ⟨false, rfl, Iff.intro (fun h => Bool.noConfusion h) (fun h => absurd h hno)⟩
    by_cases hd : is_digit (symbol_value ((syms s).getD i [])) = true
    · have heq : is_float_loop s (k + 1) i pf = is_float_loop s k (i + 1) pf := by
        rw [is_float_loop]
        simp only [hval, bind, Except.bind, hd, Bool.not_true, Bool.false_eq_true, if_false]
      rw [heq]
      exact hgo pf (hcont (Or.inl hd))
    · have hd2 : is_digit (symbol_value ((syms s).getD i [])) = false := by simpa using hd
      by_cases hm : i = 0 ∧ (syms s).getD i [] = [45]
      · have heq : is_float_loop s (k + 1) i pf = is_float_loop s k (i + 1) pf := by
          have hmd : decide ((syms s).getD i [] = [45]) = true := decide_eq_true hm.2
          rw [is_float_loop]
          simp only [hval, hsym, bind, Except.bind, hd2, Bool.not_false, if_true,
            if_pos hm.1, of_cstr_char 45 (by decide) (by decide), pure, Except.pure,
            hminus, hmd]
        rw [heq]
        exact hgo pf (hcont (Or.inr hm))
      · have h45 : i = 0 → decide ((syms s).getD i [] = [45]) = false := by
          intro h0
          exact decide_eq_false (fun h => hm ⟨h0, h⟩)
        have hstep : is_float_loop s (k + 1) i pf =
            if decide ((syms s).getD i [] = [46]) && !pf then is_float_loop s k (i + 1) true
            else .ok false := by
          rw [is_float_loop]
          by_cases h0 : i = 0
          · simp only [hval, hsym, bind, Except.bind, hd2, Bool.not_false, if_true,
              of_cstr_char 45 (by decide) (by decide),
              of_cstr_char 46 (by decide) (by decide),
              pure, Except.pure, hminus, hpoint, if_pos h0, h45 h0, Bool.false_eq_true,
              if_false]
          · simp only [hval, hsym, bind, Except.bind, hd2, Bool.not_false, if_true,
              of_cstr_char 46 (by decide) (by decide),
              pure, Except.pure, hpoint, if_neg h0, Bool.false_eq_true, if_false]
        rw [hstep]
        by_cases hp : (syms s).getD i [] = [46]
        · cases pf
          · simp only [hp, decide_True, Bool.not_false, Bool.and_self, if_true]
            exact hgo true (hpt hp)
          · simp only [hp, decide_True, Bool.not_true, Bool.and_false, Bool.false_eq_true,
              if_false]
            exact hhalt (hstop2 hp)
        · simp only [hp, decide_False, Bool.false_and, Bool.false_eq_true, if_false]
          exact hhalt (hstop1 (by
            rintro (h | h | h)
            · exact hd h
            · exact hm h
            · exact hp h))

/-! ## Symbol indices out of range -/

theorem get_byte_index_total (s : UTF8String)
    (h : count_loop s (s.m_data_length + 1) 0 0 = .ok s.m_length) (i : Nat)
    (hi : i < s.m_length) :
    ∃ b, s.get_byte_index_for_symbol_index i = .ok b ∧ b < s.m_data_length - 1 := by
  obtain ⟨bi, hbi, hlt⟩ := byte_index_loop_of_count s i _ 0 0 _ h (Nat.zero_le _) hi
  refine ⟨bi, ?_, hlt⟩
  unfold get_byte_index_for_symbol_index
  simp only [check_symbol_index, not_le.mpr hi, ge_iff_le, if_false, bind, Except.bind, hbi]

theorem Inv.empty_length {s : UTF8String} (h : Inv s) (he : s.is_empty = true) :
    s.m_length = 0 := by
  have h4 := h.2.2.2
  have hle : s.m_data_length ≤ 1 := by simpa [is_empty] using he
  unfold count_loop at h4
  simp only [show ¬ 0 < s.m_data_length - 1 by omega, if_false] at h4
  exact (Except.ok.inj h4).symm

theorem symbol_index_out_of_range (s : UTF8String) (i : Nat) (hge : s.m_length ≤ i) :
    s.get_symbol i = .error .IndexOutOfBoundsError ∧
    s.get_symbol_value i = .error .IndexOutOfBoundsError ∧
    s.get_code_point i = .error .IndexOutOfBoundsError ∧
    s.get_symbol_width i = .error .IndexOutOfBoundsError ∧
    s.get_byte_index_for_symbol_index i = .error .IndexOutOfBoundsError := by
  refine ⟨?_, ?_, ?_, ?_, ?_⟩
  · simp only [get_symbol, check_symbol_index, ge_iff_le, hge, if_true, bind, Except.bind]
  · simp only [get_symbol_value, check_symbol_index, ge_iff_le, hge, if_true, bind,
      Except.bind]
  · simp only [get_code_point, check_symbol_index, ge_iff_le, hge, if_true, bind,
      Except.bind]
  · simp only [get_symbol_width, check_symbol_index, ge_iff_le, hge, if_true, bind,
      Except.bind]
  · simp only [get_byte_index_for_symbol_index, check_symbol_index, ge_iff_le, hge, if_true,
      bind, Except.bind]

/-! ## What `assign_internal` stores -/

theorem strlen_cons_zero (t : List Nat) : strlen (0 :: t) = 0 := by
  simp [strlen, List.takeWhile]

theorem strlen_cons_pos (b : Nat) (t : List Nat) (hb : b ≠ 0) :
    strlen (b :: t) = strlen t + 1 := by
  have hb2 : (b != 0) = true := by simpa using hb
  simp [strlen, List.takeWhile, hb2]

theorem strlen_spec : ∀ (data : List Nat), 0 ∈ data →
    strlen data < data.length ∧ data.getD (strlen data) 1 = 0 ∧
    (∀ b ∈ data.take (strlen data), b ≠ 0) ∧
    data.take (strlen data + 1) = data.take (strlen data) ++ [0] := by
  intro data
  induction data with
  | nil => intro h; cases h
  | cons b t ih =>
    intro h
    by_cases hb : b = 0
    · subst hb
      rw [strlen_cons_zero]
      simp
    · have ht : 0 ∈ t := by
        rcases List.mem_cons.mp h with h1 | h1
        · exact absurd h1.symm hb
        · exact h1
      obtain ⟨h1, h2, h3, h4⟩ := ih ht
      rw [strlen_cons_pos b t hb]
      refine ⟨by simp; omega, by simpa using h2, ?_, ?_⟩
      · intro x hx
        rw [List.take_succ_cons] at hx
        rcases List.mem_cons.mp hx with e | e
        · rw [e]; exact hb
        · exact h3 x e
      · rw [List.take_succ_cons, List.take_succ_cons, h4]
        rfl

/-- The branch of `assign_internal` that scans for the terminator. -/
theorem assign_internal_scan (data : List Nat) (h0 : 0 ∈ data) :
    assign_internal data npos =
      .ok ⟨data.take (strlen data) ++ [0], strlen data + 1,
        (symbols (data.take (strlen data))).length⟩ := by
  obtain ⟨h1, _, _, h4⟩ := strlen_spec data h0
  unfold assign_internal
  simp only [if_true, memcpy_new_char, Nat.sub_self, List.replicate_zero, List.append_nil, h4]
  rw [count_loop_eq _ (by simp [h1.le]) _ _ _ (by dsimp only; omega)]
  simp [bind, Except.bind, pure, Except.pure, content, List.take_take, h1.le]

theorem take_terminated (data : List Nat) (n : Nat) (hn : 0 < n) (hlen : n ≤ data.length)
    (h0 : data.getD (n - 1) 0 = 0) : data.take n = data.take (n - 1) ++ [0] := by
  obtain ⟨k, rfl⟩ : ∃ k, n = k + 1 := ⟨n - 1, by omega⟩
  have hk : k < data.length := by omega
  simp only [Nat.add_sub_cancel] at h0 ⊢
  rw [List.take_succ, List.getElem?_eq_getElem hk]
  rw [List.getD_eq_getElem _ _ hk] at h0
  simp [h0]

/-- Every shape that `assign_internal` stores: the bytes `c` and one terminator. -/
theorem stored_shape (c : List Nat) :
    (⟨c ++ [0], c.length + 1, (symbols c).length⟩ : UTF8String).m_data.getLast? = some 0 ∧
    content ⟨c ++ [0], c.length + 1, (symbols c).length⟩ = c ∧
    count_loop ⟨c ++ [0], c.length + 1, (symbols c).length⟩ (c.length + 1 + 1) 0 0 =
      .ok (symbols c).length := by
  refine ⟨by simp, by simp [content], ?_⟩
  rw [count_loop_eq _ (by simp) _ _ _ (by dsimp only; omega)]
  simp [content]

/-- With readable input, `assign_internal` returns a string of the stored shape. -/
theorem assign_internal_stored (data : List Nat) (n : Nat)
    (hread : if n = npos then 0 ∈ data else n ≤ data.length) :
    ∃ c, assign_internal data n = .ok ⟨c ++ [0], c.length + 1, (symbols c).length⟩ := by
  by_cases hn : n = npos
  · rw [if_pos hn] at hread
    subst hn
    refine ⟨data.take (strlen data), ?_⟩
    rw [assign_internal_scan data hread]
    have := (strlen_spec data hread).1
    simp [List.length_take, this.le]
  · rw [if_neg hn] at hread
    by_cases ht : 0 < n ∧ data.getD (n - 1) 0 = 0
    · refine ⟨data.take (n - 1), ?_⟩
      rw [assign_internal_terminated data n ht.1 hn hread ht.2,
        take_terminated data n ht.1 hread ht.2]
      have : min (n - 1) data.length + 1 = n := by omega
      simp [List.length_take, this]
    · refine ⟨data.take n, ?_⟩
      rw [assign_internal_unterminated data n hn hread ht]
      simp [List.length_take, hread]

theorem assign_self (o : UTF8String) (h : Inv o) : assign o = .ok o := by
  have hp := h.pos
  have hnp : o.m_data_length ≠ npos := by
    have := h.2.1
    rw [PTRDIFF_MAX_eq] at this
    rw [npos_eq]
    omega
  have h0 : o.m_data.getD (o.m_data_length - 1) 0 = 0 := by
    rw [h.data_eq, ← h.content_length]
    simp
  unfold assign
  rw [assign_internal_terminated _ _ hp hnp (by rw [h.1]) h0]
  have e1 : o.m_data.take o.m_data_length = o.m_data := by
    rw [← h.1]; exact List.take_length _
  have e2 : (symbols (o.m_data.take (o.m_data_length - 1))).length = o.m_length := by
    rw [h.length_eq]; rfl
  rw [e1, e2]

/-! ## The stored shape of every result -/

theorem shape_terminated (c : List Nat) :
    Terminated ⟨c ++ [0], c.length + 1, (symbols c).length⟩ := by
  refine ⟨by simp, by simp, ?_⟩
  simp

theorem shape_counted (c : List Nat) :
    Counted ⟨c ++ [0], c.length + 1, (symbols c).length⟩ := by
  obtain ⟨_, h2, h3⟩ := stored_shape c
  exact ⟨h3, by simp only [syms, h2]⟩

theorem Inv.shape {s : UTF8String} (h : Inv s) :
    s = ⟨content s ++ [0], (content s).length + 1, (symbols (content s)).length⟩ := by
  have h1 := h.data_eq
  have h2 := h.content_length
  have h3 := h.pos
  have h4 := h.length_eq
  cases s with
  | mk d l m =>
    simp only [mk.injEq]
    simp only at h2 h3 h4
    exact ⟨h1, by omega, h4⟩

theorem assign_stored (o : UTF8String) (h : Inv o) :
    ∃ c, assign o = .ok ⟨c ++ [0], c.length + 1, (symbols c).length⟩ :=
  ⟨content o, by rw [assign_self o h, ← h.shape]⟩

theorem concatenate_stored (a b : UTF8String) (ha : Inv a) (hb : Inv b) :
    ∃ c, a.concatenate b = .ok ⟨c ++ [0], c.length + 1, (symbols c).length⟩ := by
  refine ⟨content a ++ content b, ?_⟩
  rw [concatenate_eq a b ha hb]
  have h1 := hb.data_eq
  have h2 := ha.content_length
  have h3 := hb.content_length
  have h4 := hb.pos
  congr 2
  · rw [h1, List.append_assoc]
  · rw [List.length_append]; omega

theorem repeat_stored (s : UTF8String) (count : Nat) (hs : Inv s)
    (hsize : (s.m_data_length - 1) * count + 1 < npos) :
    ∃ c, s.repeat count = .ok ⟨c ++ [0], c.length + 1, (symbols c).length⟩ := by
  refine ⟨(List.replicate count (content s)).flatten, ?_⟩
  rw [repeat_eq s count hs hsize]
  have h2 := hs.content_length
  congr 2
  rw [length_tile, h2, Nat.mul_comm]

theorem remove_duplicates_symbols_sublist {α : Type} [DecidableEq α] (ds : List α) :
    ∀ (fuel i : Nat) (input output : List α),
      List.Sublist (remove_duplicates_symbols ds fuel i input output) (output ++ input) := by
  intro fuel
  induction fuel with
  | zero => intro i input output; exact List.Sublist.refl _
  | succ n ih =>
    intro i input output
    unfold remove_duplicates_symbols
    by_cases hi : i ≠ npos
    · simp only [hi, ne_eq, not_false_eq_true, if_true]
      obtain ⟨k, hk⟩ := strip_symbols_suffix ds
        ((input.drop (i + ds.length)).length + 1) (input.drop (i + ds.length))
      rw [hk]
      refine (ih _ _ _).trans ?_
      rw [List.append_assoc]
      apply List.Sublist.append_left
      have h1 : List.Sublist ((input.drop (i + ds.length)).drop k)
          (input.drop (i + ds.length)) := List.drop_sublist _ _
      have h2 := List.Sublist.append_left h1 (input.take (i + ds.length))
      rwa [List.take_append_drop] at h2
    · simp only [hi, if_false]
      exact List.Sublist.refl _

theorem remove_duplicates_wellFormed (s sub : UTF8String) (hs : WellFormed s)
    (hsub : WellFormed sub) : ∃ r, s.remove_duplicates sub = .ok r ∧ WellFormed r := by
  by_cases he : sub.is_empty = true
  · exact ⟨s, by simp [remove_duplicates, he], hs⟩
  · have hvx := hs.valid
    have hrx := hs.rep_eq
    have hvd := hsub.valid
    have hrd := hsub.rep_eq
    generalize syms s = xs at hvx hrx
    generalize syms sub = ds at hvd hrd
    subst hrx hrd
    have hne : ds ≠ [] := by
      rw [is_empty_of_symbols ds hvd.complete] at he
      simpa using he
    refine ⟨_, remove_duplicates_of_symbols xs ds hvx hvd hne, ?_⟩
    apply Valid.wellFormed
    apply hvx.sublist
    have := remove_duplicates_symbols_sublist ds (xs.length + 1) (find_first_symbols xs ds)
      xs []
    simpa using this

theorem remove_duplicates_stored (s sub : UTF8String) (hs : WellFormed s)
    (hsub : WellFormed sub) :
    ∃ c, s.remove_duplicates sub = .ok ⟨c ++ [0], c.length + 1, (symbols c).length⟩ := by
  obtain ⟨r, hr, hwf⟩ := remove_duplicates_wellFormed s sub hs hsub
  exact ⟨content r, by rw [hr, ← hwf.1.shape]⟩

/-! ## The classes of `width_of_byte` -/

set_option maxRecDepth 100000 in
theorem width_of_byte_classes : ∀ x, x < 256 →
    (x < 128 → width_of_byte x = 1) ∧
    (192 ≤ x → x < 224 → width_of_byte x = 2) ∧
    (224 ≤ x → x < 240 → width_of_byte x = 3) ∧
    (240 ≤ x → x < 248 → width_of_byte x = 4) ∧
    (128 ≤ x → x < 192 → width_of_byte x = 4) ∧
    (248 ≤ x → width_of_byte x = 4) := by
  decide

/-! ## The byte index of a symbol -/

theorem walk_loop (s : UTF8String) (k : Nat) :
    ∀ (fuel c b : Nat), c ≤ k → byte_index_loop s k fuel (walk s c) c = .ok b → b ≠ npos →
      b = walk s k := by
  intro fuel
  induction fuel with
  | zero => intro c b _ h; simp [byte_index_loop] at h
  | succ n ih =>
    intro c b hck h hnp
    unfold byte_index_loop at h
    by_cases hi : walk s c < s.m_data_length - 1
    · by_cases hc : c = k
      · subst hc
        rw [if_pos hi, if_pos rfl] at h
        exact (Except.ok.inj h).symm
      · have hlt : walk s c < s.m_data_length := by omega
        rw [if_pos hi, if_neg hc, get_byte_width_ok s _ hlt] at h
        exact ih (c + 1) b (by omega) h hnp
    · rw [if_neg hi] at h
      exact absurd (Except.ok.inj h).symm hnp

theorem get_byte_index_walk (s : UTF8String) (hs : Inv s) (i : Nat) (hi : i < s.m_length) :
    s.get_byte_index_for_symbol_index i = .ok (walk s i) ∧
    walk s i < s.m_data_length - 1 := by
  obtain ⟨b, hb, hlt⟩ := get_byte_index_total s hs.2.2.2 i hi
  have hnp : b ≠ npos := by
    have := hs.2.1
    rw [PTRDIFF_MAX_eq] at this
    rw [npos_eq]
    omega
  have hloop : byte_index_loop s i (s.m_data_length + 1) (walk s 0) 0 = .ok b := by
    have := hb
    unfold get_byte_index_for_symbol_index at this
    simpa only [check_symbol_index, not_le.mpr hi, ge_iff_le, if_false, bind, Except.bind]
      using this
  have := walk_loop s i _ 0 b (Nat.zero_le _) hloop hnp
  rw [← this]
  exact ⟨hb, hlt⟩

theorem get_symbol_width_walk (s : UTF8String) (hs : Inv s) (i : Nat)
    (hi : i < s.m_length) :
    s.get_symbol_width i = .ok (width_of_byte (s.m_data.getD (walk s i) 0)) := by
  obtain ⟨hb, hlt⟩ := get_byte_index_walk s hs i hi
  unfold get_symbol_width
  simp only [check_symbol_index, not_le.mpr hi, ge_iff_le, if_false, bind, Except.bind, hb,
    get_byte_width_ok s _ (show walk s i < s.m_data_length by omega)]

theorem walk_sum (s : UTF8String) (i : Nat) :
    walk s i =
      ((List.range i).map (fun j => width_of_byte (s.m_data.getD (walk s j) 0))).sum := by
  induction i with
  | zero => rfl
  | succ k ih =>
    rw [List.range_succ, List.map_append, List.sum_append, ← ih]
    simp [walk]

theorem walk_lt (s : UTF8String) (j i : Nat) (h : j < i) : walk s j < walk s i := by
  induction i with
  | zero => omega
  | succ k ih =>
    have hw := width_of_byte_pos (s.m_data.getD (walk s k) 0)
    have e : walk s (k + 1) = walk s k + width_of_byte (s.m_data.getD (walk s k) 0) := rfl
    by_cases hjk : j = k
    · rw [hjk, e]; omega
    · have := ih (by omega)
      rw [e]; omega

/-! ## The bytes of a symbol -/

theorem symbol_run_of_symbols (xs : List (List Nat)) (k : Nat) (h : Valid xs)
    (hk : k < xs.length) :
    (of_symbols xs).get_byte_index_for_symbol_index k = .ok (xs.take k).flatten.length ∧
    (of_symbols xs).get_byte_width (xs.take k).flatten.length = .ok xs[k].length ∧
    ((of_symbols xs).m_data.drop (xs.take k).flatten.length).take xs[k].length = xs[k] := by
  have hv : ValidSymbol xs[k] := h.1 _ (List.getElem_mem hk)
  have hflat := flatten_split_at xs k hk
  have hpos : 0 < xs[k].length := List.length_pos.mpr hv.1.ne_nil
  have hlt : (xs.take k).flatten.length < (of_symbols xs).m_data_length := by
    simp only [of_symbols, hflat, List.length_append]
    omega
  have hdrop : (of_symbols xs).m_data.drop (xs.take k).flatten.length =
      xs[k] ++ ((xs.drop (k + 1)).flatten ++ [0]) := by
    simp only [of_symbols, hflat, List.append_assoc]
    rw [List.drop_left]
  have hd : (of_symbols xs).m_data.getD (xs.take k).flatten.length 0 = xs[k].headD 0 := by
    have h0 : (of_symbols xs).m_data.getD (xs.take k).flatten.length 0 =
        ((of_symbols xs).m_data.drop (xs.take k).flatten.length).headD 0 := by
      rw [List.getD_eq_getElem?_getD, List.headD_eq_head?_getD, List.head?_drop]
    rw [h0, hdrop]
    cases hx : xs[k] with
    | nil => rw [hx] at hpos; simp at hpos
    | cons b t => rfl
  refine ⟨get_byte_index_of_symbols xs k h.complete hk, ?_, ?_⟩
  · rw [get_byte_width_ok _ _ hlt, hd, ← hv.1]
  · rw [hdrop, List.take_left]

theorem get_symbol_width_of_symbols (xs : List (List Nat)) (k : Nat) (h : Valid xs)
    (hk : k < xs.length) :
    (of_symbols xs).get_symbol_width k = .ok xs[k].length := by
  obtain ⟨h1, h2, _⟩ := symbol_run_of_symbols xs k h hk
  have hc : (of_symbols xs).check_symbol_index k = .ok () := by
    simp [check_symbol_index, of_symbols, hk]
  unfold get_symbol_width
  simp only [hc, h1, h2, bind, Except.bind]

/-! ## The loop of `operator<` -/

theorem lt_loop_spec (a b : UTF8String) (ha : Inv a) (hb : Inv b) :
    ∀ (n i : Nat), i + n = min a.m_length b.m_length →
      ∃ r, lt_loop a b n i = .ok r ∧
        (r = true ↔
          (∃ k, i ≤ k ∧ k < a.m_length ∧ k < b.m_length ∧
            (∀ j, i ≤ j → j < k → a.get_code_point j = b.get_code_point j) ∧
            ∃ x y, a.get_code_point k = .ok x ∧ b.get_code_point k = .ok y ∧ x < y) ∨
          ((∀ j, i ≤ j → j < a.m_length → j < b.m_length →
              a.get_code_point j = b.get_code_point j) ∧
            a.m_length < b.m_length)) := by
  intro n
  induction n with
  | zero =>
    intro i hin
    refine ⟨decide (a.m_length < b.m_length), rfl, ?_⟩
    rw [decide_eq_true_iff]
    constructor
    · intro h
      exact Or.inr ⟨fun j h1 h2 h3 => by omega, h⟩
    · rintro (⟨k, h1, h2, h3, _⟩ | ⟨_, h⟩)
      · omega
      · exact h
  | succ m ih =>
    intro i hin
    obtain ⟨x, hx⟩ := get_code_point_total a ha.2.2.2 i (by omega)
    obtain ⟨y, hy⟩ := get_code_point_total b hb.2.2.2 i (by omega)
    obtain ⟨r, hr, hspec⟩ := ih (i + 1) (by omega)
    unfold lt_loop
    simp only [hx, hy, bind, Except.bind, pure, Except.pure]
    by_cases hxy : x < y
    · refine ⟨true, by rw [if_pos hxy], ?_⟩
      simp only [true_iff]
      exact Or.inl ⟨i, le_refl _, by omega, by omega, fun j h1 h2 => by omega,
        x, y, hx, hy, hxy⟩
    · by_cases hyx : y < x
      · refine ⟨false, by rw [if_neg hxy, if_pos hyx], ?_⟩
        constructor
        · intro h; cases h
        · rintro (⟨k, h1, h2, h3, h4, x', y', hx', hy', hlt⟩ | ⟨h1, _⟩)
          · by_cases hki : k = i
            · subst hki
              rw [hx] at hx'
              rw [hy] at hy'
              have e1 := Except.ok.inj hx'
              have e2 := Except.ok.inj hy'
              omega
            · have := h4 i (le_refl _) (by omega)
              rw [hx, hy] at this
              have e := Except.ok.inj this
              omega
          · have := h1 i (le_refl _) (by omega) (by omega)
            rw [hx, hy] at this
            have e := Except.ok.inj this
            omega
      · have hxe : x = y := by omega
        have hcp : a.get_code_point i = b.get_code_point i := by rw [hx, hy, hxe]
        refine ⟨r, by rw [if_neg hxy, if_neg hyx]; exact hr, ?_⟩
        rw [hspec]
        constructor
        · rintro (⟨k, h1, h2, h3, h4, hex⟩ | ⟨h1, h2⟩)
          · refine Or.inl ⟨k, by omega, h2, h3, ?_, hex⟩
            intro j hj1 hj2
            by_cases hji : j = i
            · rw [hji]; exact hcp
            · exact h4 j (by omega) hj2
          · refine Or.inr ⟨?_, h2⟩
            intro j hj1 hj2 hj3
            by_cases hji : j = i
            · rw [hji]; exact hcp
            · exact h1 j (by omega) hj2 hj3
        · rintro (⟨k, h1, h2, h3, h4, x', y', hx', hy', hlt⟩ | ⟨h1, h2⟩)
          · have hki : k ≠ i := by
              intro hki
              subst hki
              rw [hx] at hx'
              rw [hy] at hy'
              have e1 := Except.ok.inj hx'
              have e2 := Except.ok.inj hy'
              omega
            exact Or.inl ⟨k, by omega, h2, h3, fun j hj1 hj2 => h4 j (by omega) hj2,
              x', y', hx', hy', hlt⟩
          · exact Or.inr ⟨fun j hj1 hj2 hj3 => h1 j (by omega) hj2 hj3, h2⟩

/-! ## The bit operations of `get_code_point` -/

theorem and_mask (x j k : Nat) : x &&& (2 ^ j * (2 ^ k - 1)) = 2 ^ j * (x / 2 ^ j % 2 ^ k) := by
  apply Nat.eq_of_testBit_eq
  intro i
  rw [Nat.testBit_and, Nat.testBit_mul_pow_two, Nat.testBit_mul_pow_two,
    Nat.testBit_two_pow_sub_one, Nat.testBit_mod_two_pow, ← Nat.shiftRight_eq_div_pow,
    Nat.testBit_shiftRight]
  by_cases h : i ≥ j
  · have e : j + (i - j) = i := by omega
    rw [e]
    cases x.testBit i <;> simp [h]
  · simp [h]

theorem decode2 (v : Nat) :
    (((v <<< 6) % 2 ^ 32) &&& 0x000007C0) ||| ((v >>> 8) &&& 0x0000003F) =
      v % 32 * 64 + v / 256 % 64 := by
  have m1 : (0x000007C0 : Nat) = 2 ^ 6 * (2 ^ 5 - 1) := by norm_num
  have m2 : (0x0000003F : Nat) = 2 ^ 6 - 1 := by norm_num
  rw [m1, m2, and_mask, Nat.and_pow_two_sub_one_eq_mod, Nat.shiftLeft_eq,
    Nat.shiftRight_eq_div_pow, ← Nat.mul_add_lt_is_or (Nat.mod_lt _ (by norm_num))]
  norm_num
  omega

theorem decode3 (v : Nat) :
    (((v <<< 12) % 2 ^ 32) &&& 0x0000F000) ||| ((v >>> 2) &&& 0x00000FC0) |||
      ((v >>> 16) &&& 0x0000003F) =
      v % 16 * 4096 + v / 256 % 64 * 64 + v / 65536 % 64 := by
  have hA : ((v <<< 12) % 2 ^ 32) &&& 0x0000F000 = 2 ^ 12 * (v % 16) := by
    rw [show (0x0000F000 : Nat) = 2 ^ 12 * (2 ^ 4 - 1) by norm_num, and_mask,
      Nat.shiftLeft_eq]
    norm_num
    omega
  have hB : (v >>> 2) &&& 0x00000FC0 = 2 ^ 6 * (v / 256 % 64) := by
    rw [show (0x00000FC0 : Nat) = 2 ^ 6 * (2 ^ 6 - 1) by norm_num, and_mask,
      Nat.shiftRight_eq_div_pow]
    norm_num
    omega
  have hC : (v >>> 16) &&& 0x0000003F = v / 65536 % 64 := by
    rw [show (0x0000003F : Nat) = 2 ^ 6 - 1 by norm_num, Nat.and_pow_two_sub_one_eq_mod,
      Nat.shiftRight_eq_div_pow]
  rw [hA, hB, hC]
  have h1 : 2 ^ 6 * (v / 256 % 64) < 2 ^ 12 := by norm_num; omega
  rw [← Nat.mul_add_lt_is_or h1 (v % 16)]
  have e : 2 ^ 12 * (v % 16) + 2 ^ 6 * (v / 256 % 64) =
      2 ^ 6 * (64 * (v % 16) + v / 256 % 64) := by norm_num; omega
  have h2 : v / 65536 % 64 < 2 ^ 6 := Nat.mod_lt _ (by norm_num)
  rw [e, ← Nat.mul_add_lt_is_or h2]
  norm_num
  omega

theorem decode4 (v : Nat) :
    (((v <<< 18) % 2 ^ 32) &&& 0x001C0000) |||
      (((v <<< 4) % 2 ^ 32) &&& 0x0003F000) ||| ((v >>> 10) &&& 0x00000FC0) |||
      ((v >>> 24) &&& 0x0000003F) =
      v % 8 * 262144 + v / 256 % 64 * 4096 + v / 65536 % 64 * 64 + v / 16777216 % 64 := by
  have hA : ((v <<< 18) % 2 ^ 32) &&& 0x001C0000 = 2 ^ 18 * (v % 8) := by
    rw [show (0x001C0000 : Nat) = 2 ^ 18 * (2 ^ 3 - 1) by norm_num, and_mask,
      Nat.shiftLeft_eq]
    norm_num
    omega
  have hB : ((v <<< 4) % 2 ^ 32) &&& 0x0003F000 = 2 ^ 12 * (v / 256 % 64) := by
    rw [show (0x0003F000 : Nat) = 2 ^ 12 * (2 ^ 6 - 1) by norm_num, and_mask,
      Nat.shiftLeft_eq]
    norm_num
    omega
  have hC : (v >>> 10) &&& 0x00000FC0 = 2 ^ 6 * (v / 65536 % 64) := by
    rw [show (0x00000FC0 : Nat) = 2 ^ 6 * (2 ^ 6 - 1) by norm_num, and_mask,
      Nat.shiftRight_eq_div_pow]
    norm_num
    omega
  have hD : (v >>> 24) &&& 0x0000003F = v / 16777216 % 64 := by
    rw [show (0x0000003F : Nat) = 2 ^ 6 - 1 by norm_num, Nat.and_pow_two_sub_one_eq_mod,
      Nat.shiftRight_eq_div_pow]
  rw [hA, hB, hC, hD]
  have h1 : 2 ^ 12 * (v / 256 % 64) < 2 ^ 18 := by norm_num; omega
  rw [← Nat.mul_add_lt_is_or h1 (v % 8)]
  have e1 : 2 ^ 18 * (v % 8) + 2 ^ 12 * (v / 256 % 64) =
      2 ^ 12 * (64 * (v % 8) + v / 256 % 64) := by norm_num; omega
  have h2 : 2 ^ 6 * (v / 65536 % 64) < 2 ^ 12 := by norm_num; omega
  rw [e1, ← Nat.mul_add_lt_is_or h2]
  have e2 : 2 ^ 12 * (64 * (v % 8) + v / 256 % 64) + 2 ^ 6 * (v / 65536 % 64) =
      2 ^ 6 * (64 * (64 * (v % 8) + v / 256 % 64) + v / 65536 % 64) := by norm_num; omega
  have h3 : v / 16777216 % 64 < 2 ^ 6 := Nat.mod_lt _ (by norm_num)
  rw [e2, ← Nat.mul_add_lt_is_or h3]
  norm_num
  omega

theorem width_one_lt (x : Nat) (hx : x < 256) (hw : width_of_byte x = 1) : x < 128 := by
  obtain ⟨_, h2, h3, h4, h5, h6⟩ := width_of_byte_classes x hx
  by_contra hge
  by_cases c1 : x < 192
  · have := h5 (by omega) c1; omega
  · by_cases c2 : x < 224
    · have := h2 (by omega) c2; omega
    · by_cases c3 : x < 240
      · have := h3 (by omega) c3; omega
      · by_cases c4 : x < 248
        · have := h4 (by omega) c4; omega
        · have := h6 (by omega); omega

theorem get_code_point_of_symbols (xs : List (List Nat)) (k : Nat) (h : Valid xs)
    (hk : k < xs.length) :
    (of_symbols xs).get_code_point k = .ok (utf8_scalar_value xs[k]) := by
  have hv : ValidSymbol xs[k] := h.1 _ (List.getElem_mem hk)
  have hc : (of_symbols xs).check_symbol_index k = .ok () := by
    simp [check_symbol_index, of_symbols, hk]
  have hw := get_symbol_width_of_symbols xs k h hk
  have hval := get_symbol_value_of_symbols xs k h hk
  unfold get_code_point
  simp only [hc, hw, hval, bind, Except.bind, pure, Except.pure]
  generalize xs[k] = c at hv
  obtain ⟨hcomp, hbytes⟩ := hv
  have hle := hcomp.length_le
  match c, hcomp, hbytes, hle with
  | [], hcomp, _, _ => exact absurd rfl hcomp.ne_nil
  | [b0], hcomp, hbytes, _ =>
    have h0 := (hbytes b0 (by simp)).2
    have hw1 : width_of_byte b0 = 1 := by
      have := hcomp
      simp only [Complete, List.length_singleton, List.headD_cons] at this
      exact this.symm
    have := width_one_lt b0 h0 hw1
    simp only [List.length_singleton, if_true, symbol_value_single b0 h0, utf8_scalar_value]
    refine congrArg Except.ok ?_
    omega
  | [b0, b1], _, hbytes, _ =>
    have h0 := (hbytes b0 (by simp)).2
    have h1 := (hbytes b1 (by simp)).2
    have hv2 : symbol_value [b0, b1] = b0 + 256 * b1 := by
      simp only [symbol_value, bytes_to_uint32, List.length_cons, List.length_nil,
        List.take_succ_cons, List.take_zero, List.foldr_cons, List.foldr_nil]
      omega
    simp only [List.length_cons, List.length_nil, Nat.reduceAdd, Nat.reduceEqDiff, if_false,
      if_true, hv2, decode2, utf8_scalar_value]
    refine congrArg Except.ok ?_
    omega
  | [b0, b1, b2], _, hbytes, _ =>
    have h0 := (hbytes b0 (by simp)).2
    have h1 := (hbytes b1 (by simp)).2
    have h2 := (hbytes b2 (by simp)).2
    have hv3 : symbol_value [b0, b1, b2] = b0 + 256 * b1 + 65536 * b2 := by
      simp only [symbol_value, bytes_to_uint32, List.length_cons, List.length_nil,
        List.take_succ_cons, List.take_zero, List.foldr_cons, List.foldr_nil]
      omega
    simp only [List.length_cons, List.length_nil, Nat.reduceAdd, Nat.reduceEqDiff, if_false,
      if_true, hv3, decode3, utf8_scalar_value]
    refine congrArg Except.ok ?_
    omega
  | [b0, b1, b2, b3], _, hbytes, _ =>
    have h0 := (hbytes b0 (by simp)).2
    have h1 := (hbytes b1 (by simp)).2
    have h2 := (hbytes b2 (by simp)).2
    have h3 := (hbytes b3 (by simp)).2
    have hv4 : symbol_value [b0, b1, b2, b3] =
        b0 + 256 * b1 + 65536 * b2 + 16777216 * b3 := by
      simp only [symbol_value, bytes_to_uint32, List.length_cons, List.length_nil,
        List.take_succ_cons, List.take_zero, List.foldr_cons, List.foldr_nil]
      omega
    simp only [List.length_cons, List.length_nil, Nat.reduceAdd, Nat.reduceEqDiff, if_false,
      hv4, decode4, utf8_scalar_value]
    refine congrArg Except.ok ?_
    omega
  | _ :: _ :: _ :: _ :: _ :: _, _, _, hle => simp at hle

/-! ## The walk and the symbol length -/

theorem walk_ge (s : UTF8String) (k : Nat) : k ≤ walk s k := by
  induction k with
  | zero => exact Nat.zero_le _
  | succ n ih =>
    have hw := width_of_byte_pos (s.m_data.getD (walk s n) 0)
    have e : walk s (n + 1) = walk s n + width_of_byte (s.m_data.getD (walk s n) 0) := rfl
    omega

theorem walk_le (s : UTF8String) (j i : Nat) (h : j ≤ i) : walk s j ≤ walk s i := by
  rcases Nat.eq_or_lt_of_le h with e | l
  · rw [e]
  · exact (walk_lt s j i l).le

theorem Inv.symbols_le_bytes {s : UTF8String} (h : Inv s) : s.m_length ≤ s.m_data_length - 1 := by
  rcases Nat.eq_zero_or_pos s.m_length with h0 | hpos
  · omega
  · have h1 := (get_byte_index_walk s h (s.m_length - 1) (by omega)).2
    have h2 := walk_ge s (s.m_length - 1)
    omega

/-! ## The symbol index of a byte -/

theorem walk_succ (s : UTF8String) (k : Nat) :
    walk s (k + 1) = walk s k + width_of_byte (s.m_data.getD (walk s k) 0) := rfl

theorem symbol_index_loop_found (s : UTF8String) (b k : Nat)
    (hk : walk s k < s.m_data_length - 1) (h1 : walk s k ≤ b) (h2 : b < walk s (k + 1)) :
    ∀ (fuel c : Nat), c ≤ k → s.m_data_length - 1 - walk s c < fuel →
      symbol_index_loop s b fuel (walk s c) c = .ok k := by
  intro fuel
  induction fuel with
  | zero => intro c _ h; omega
  | succ n ih =>
    intro c hck hfuel
    have hle := walk_le s c k hck
    have hi : walk s c < s.m_data_length - 1 := by omega
    have hlt : walk s c < s.m_data_length := by omega
    have hw := width_of_byte_pos (s.m_data.getD (walk s c) 0)
    unfold symbol_index_loop
    simp only [if_pos hi, get_byte_width_ok s _ hlt, bind, Except.bind, ← walk_succ]
    by_cases hc : c = k
    · subst hc
      rw [if_pos ⟨h1, h2⟩]
    · have hle2 := walk_le s (c + 1) k (by omega)
      have hno : ¬ (b ≥ walk s c ∧ b < walk s (c + 1)) := by omega
      rw [if_neg hno]
      have e := walk_succ s c
      exact ih (c + 1) (by omega) (by omega)

theorem symbol_index_loop_none (s : UTF8String) (b : Nat)
    (hall : ∀ k, walk s k < s.m_data_length - 1 → walk s (k + 1) ≤ b) :
    ∀ (fuel c : Nat), s.m_data_length - 1 - walk s c < fuel →
      symbol_index_loop s b fuel (walk s c) c = .ok npos := by
  intro fuel
  induction fuel with
  | zero => intro c h; omega
  | succ n ih =>
    intro c hfuel
    unfold symbol_index_loop
    by_cases hi : walk s c < s.m_data_length - 1
    · have hlt : walk s c < s.m_data_length := by omega
      have hw := width_of_byte_pos (s.m_data.getD (walk s c) 0)
      have hn := hall c hi
      simp only [if_pos hi, get_byte_width_ok s _ hlt, bind, Except.bind, ← walk_succ]
      have hno : ¬ (b ≥ walk s c ∧ b < walk s (c + 1)) := by omega
      rw [if_neg hno]
      have e := walk_succ s c
      exact ih (c + 1) (by omega)
    · rw [if_neg hi]

theorem walk_cover (s : UTF8String) : ∀ b, ∃ k, walk s k ≤ b ∧ b < walk s (k + 1) := by
  intro b
  induction b with
  | zero =>
    refine ⟨0, Nat.le_refl _, ?_⟩
    have := walk_lt s 0 1 (by omega)
    exact this
  | succ n ih =>
    obtain ⟨k, h1, h2⟩ := ih
    by_cases h : n + 1 < walk s (k + 1)
    · exact ⟨k, by omega, h⟩
    · have := walk_lt s (k + 1) (k + 1 + 1) (by omega)
      exact ⟨k + 1, by omega, by omega⟩

theorem count_loop_walk (s : UTF8String) :
    ∀ (fuel c m : Nat), count_loop s fuel (walk s c) c = .ok m →
      c ≤ m ∧ s.m_data_length - 1 ≤ walk s m := by
  intro fuel
  induction fuel with
  | zero => intro c m h; simp [count_loop] at h
  | succ n ih =>
    intro c m h
    unfold count_loop at h
    by_cases hi : walk s c < s.m_data_length - 1
    · have hlt : walk s c < s.m_data_length := by omega
      rw [if_pos hi] at h
      simp only [get_byte_width_ok s _ hlt, bind, Except.bind, ← walk_succ] at h
      have := ih (c + 1) m h
      exact ⟨by omega, this.2⟩
    · rw [if_neg hi] at h
      have e := Except.ok.inj h
      subst e
      exact ⟨Nat.le_refl _, by omega⟩

theorem Inv.lt_length_iff {s : UTF8String} (h : Inv s) (k : Nat) :
    k < s.m_length ↔ walk s k < s.m_data_length - 1 := by
  constructor
  · intro hk
    exact (get_byte_index_walk s h k hk).2
  · intro hk
    by_contra hge
    have h1 := (count_loop_walk s _ 0 _ h.2.2.2).2
    have h2 := walk_le s s.m_length k (by omega)
    omega

theorem walk_of_symbols (xs : List (List Nat)) (h : Valid xs) :
    ∀ k, k ≤ xs.length → walk (of_symbols xs) k = (xs.take k).flatten.length := by
  intro k
  induction k with
  | zero => intro _; rfl
  | succ n ih =>
    intro hk
    have hn : n < xs.length := by omega
    obtain ⟨_, h2, _⟩ := symbol_run_of_symbols xs n h hn
    have hflat := flatten_split_at xs n hn
    have hpos : 0 < xs[n].length :=
      List.length_pos.mpr (h.1 _ (List.getElem_mem hn)).1.ne_nil
    have hlt : (xs.take n).flatten.length < (of_symbols xs).m_data_length := by
      simp only [of_symbols, hflat, List.length_append]
      omega
    rw [get_byte_width_ok _ _ hlt] at h2
    have hw := Except.ok.inj h2
    have e : xs.take (n + 1) = xs.take n ++ [xs[n]] := by
      rw [List.take_succ, List.getElem?_eq_getElem hn]
      rfl
    rw [walk_succ, ih (by omega), hw, e, List.flatten_append, List.length_append]
    simp

theorem WellFormed.walk_length {s : UTF8String} (h : WellFormed s) :
    walk s s.m_length = s.m_data_length - 1 := by
  have hv := h.valid
  have hrep := h.rep_eq
  generalize syms s = xs at hv hrep
  subst hrep
  rw [show (of_symbols xs).m_length = xs.length from rfl, walk_of_symbols xs hv _ (le_refl _),
    List.take_length]
  simp [of_symbols]

/-! ## Well-formed UTF-8 sequences -/

theorem WellFormedSequence.validSymbol {c : List Nat} (h : WellFormedSequence c) :
    ValidSymbol c := by
  rcases c with _ | ⟨b0, _ | ⟨b1, _ | ⟨b2, _ | ⟨b3, _ | ⟨b4, t⟩⟩⟩⟩⟩
  · exact absurd h (by simp [WellFormedSequence])
  · simp only [WellFormedSequence] at h
    have hw := (width_of_byte_classes b0 (by omega)).1 (by omega)
    refine ⟨by simp [Complete, hw], ?_⟩
    intro x hx
    simp only [List.mem_singleton] at hx
    omega
  · simp only [WellFormedSequence] at h
    have hw := (width_of_byte_classes b0 (by omega)).2.1 (by omega) (by omega)
    refine ⟨by simp [Complete, hw], ?_⟩
    intro x hx
    simp only [List.mem_cons, List.mem_singleton, List.not_mem_nil, or_false] at hx
    omega
  · simp only [WellFormedSequence] at h
    have hw := (width_of_byte_classes b0 (by omega)).2.2.1 (by omega) (by omega)
    refine ⟨by simp [Complete, hw], ?_⟩
    intro x hx
    simp only [List.mem_cons, List.mem_singleton, List.not_mem_nil, or_false] at hx
    omega
  · simp only [WellFormedSequence] at h
    have hw := (width_of_byte_classes b0 (by omega)).2.2.2.1 (by omega) (by omega)
    refine ⟨by simp [Complete, hw], ?_⟩
    intro x hx
    simp only [List.mem_cons, List.mem_singleton, List.not_mem_nil, or_false] at hx
    omega
  · exact absurd h (by simp [WellFormedSequence])

theorem WellFormedSequence.range {c : List Nat} (h : WellFormedSequence c) :
    (c.length = 1 ∧ utf8_scalar_value c < 128) ∨
    (c.length = 2 ∧ 128 ≤ utf8_scalar_value c ∧ utf8_scalar_value c < 2048) ∨
    (c.length = 3 ∧ 2048 ≤ utf8_scalar_value c ∧ utf8_scalar_value c < 65536) ∨
    (c.length = 4 ∧ 65536 ≤ utf8_scalar_value c) := by
  rcases c with _ | ⟨b0, _ | ⟨b1, _ | ⟨b2, _ | ⟨b3, _ | ⟨b4, t⟩⟩⟩⟩⟩
  · exact absurd h (by simp [WellFormedSequence])
  · simp only [WellFormedSequence] at h
    refine Or.inl ⟨rfl, ?_⟩
    simp only [utf8_scalar_value]
    omega
  · simp only [WellFormedSequence] at h
    refine Or.inr (Or.inl ⟨rfl, ?_⟩)
    simp only [utf8_scalar_value]
    omega
  · simp only [WellFormedSequence] at h
    refine Or.inr (Or.inr (Or.inl ⟨rfl, ?_⟩))
    simp only [utf8_scalar_value]
    omega
  · simp only [WellFormedSequence] at h
    refine Or.inr (Or.inr (Or.inr ⟨rfl, ?_⟩))
    simp only [utf8_scalar_value]
    omega
  · exact absurd h (by simp [WellFormedSequence])

theorem WellFormedSequence.digit {c : List Nat} (h : WellFormedSequence c)
    (hd : is_digit (utf8_scalar_value c) = true) : ∃ d, c = [d] ∧ 48 ≤ d ∧ d ≤ 57 := by
  have hb : 48 ≤ utf8_scalar_value c ∧ utf8_scalar_value c ≤ 57 := by
    simpa [is_digit] using hd
  have hr := h.range
  have hl : c.length = 1 := by omega
  obtain ⟨d, rfl⟩ := List.length_eq_one.mp hl
  simp only [WellFormedSequence] at h
  simp only [utf8_scalar_value] at hb
  exact ⟨d, rfl, by omega, by omega⟩

theorem WellFormedSequence.inj {c₁ c₂ : List Nat} (h₁ : WellFormedSequence c₁)
    (h₂ : WellFormedSequence c₂) (hv : utf8_scalar_value c₁ = utf8_scalar_value c₂) :
    c₁ = c₂ := by
  have r₁ := h₁.range
  have r₂ := h₂.range
  have hl : c₁.length = c₂.length := by omega
  clear r₁ r₂
  rcases c₁ with _ | ⟨a0, _ | ⟨a1, _ | ⟨a2, _ | ⟨a3, _ | ⟨a4, t⟩⟩⟩⟩⟩ <;>
    rcases c₂ with _ | ⟨d0, _ | ⟨d1, _ | ⟨d2, _ | ⟨d3, _ | ⟨d4, u⟩⟩⟩⟩⟩ <;>
    simp only [List.length_cons, List.length_nil] at hl <;>
    try omega
  · exact absurd h₁ (by simp [WellFormedSequence])
  · simp only [WellFormedSequence] at h₁ h₂
    simp only [utf8_scalar_value] at hv
    have e0 : a0 = d0 := by omega
    rw [e0]
  · simp only [WellFormedSequence] at h₁ h₂
    simp only [utf8_scalar_value] at hv
    have e0 : a0 = d0 := by omega
    have e1 : a1 = d1 := by omega
    rw [e0, e1]
  · simp only [WellFormedSequence] at h₁ h₂
    simp only [utf8_scalar_value] at hv
    have e0 : a0 = d0 := by omega
    have e1 : a1 = d1 := by omega
    have e2 : a2 = d2 := by omega
    rw [e0, e1, e2]
  · simp only [WellFormedSequence] at h₁ h₂
    simp only [utf8_scalar_value] at hv
    have e0 : a0 = d0 := by omega
    have e1 : a1 = d1 := by omega
    have e2 : a2 = d2 := by omega
    have e3 : a3 = d3 := by omega
    rw [e0, e1, e2, e3]
  · exact absurd h₁ (by simp [WellFormedSequence])

theorem WellFormedUTF8.structural {s : UTF8String} (h : WellFormedUTF8 s) : WellFormed s := by
  refine ⟨h.1, ?_, ?_⟩
  · intro b hb
    rw [← symbols_flatten (content s)] at hb
    obtain ⟨c, hc, hbc⟩ := List.mem_flatten.mp hb
    exact (h.2 c hc).validSymbol.2 b hbc
  · intro c hc
    exact (h.2 c hc).validSymbol.1

/-! ## When the numeric predicates are true -/

theorem get_code_point_syms (s : UTF8String) (hs : WellFormed s) (i : Nat)
    (hi : i < s.m_length) :
    s.get_code_point i = .ok (utf8_scalar_value ((syms s).getD i [])) := by
  have hv := hs.valid
  have hrep := hs.rep_eq
  generalize syms s = xs at hv hrep
  subst hrep
  have hi2 : i < xs.length := hi
  rw [get_code_point_of_symbols xs i hv hi2, List.getD_eq_getElem _ _ hi2]

theorem syms_getD_mem (s : UTF8String) (hs : Inv s) (i : Nat) (hi : i < s.m_length) :
    (syms s).getD i [] ∈ syms s := by
  have hi2 : i < (syms s).length := by rw [← hs.length_eq]; exact hi
  rw [List.getD_eq_getElem _ _ hi2]
  exact List.getElem_mem hi2

theorem is_int_true (s : UTF8String) (hs : Inv s) :
    s.is_int = .ok true ↔
      s.is_empty = false ∧ ∀ j, j < s.m_length →
        (j = 0 ∧ s.get_symbol j = .ok ⟨[45, 0], 2, 1⟩) ∨
          ∃ c, s.get_code_point j = .ok c ∧ is_digit c = true := by
  obtain ⟨b, hb, hspec⟩ := is_int_loop_spec s hs s.m_length 0 (by omega)
  have hiff : s.is_int = .ok true ↔ b = true ∧ s.is_empty = false := by
    unfold is_int
    simp only [hb, bind, Except.bind, pure, Except.pure]
    cases b <;> cases s.is_empty <;> simp
  rw [hiff, hspec]
  constructor
  · rintro ⟨h1, h2⟩
    exact ⟨h2, fun j hj => h1 j (Nat.zero_le _) (by omega)⟩
  · rintro ⟨h1, h2⟩
    exact ⟨fun j _ hj => h2 j (by omega), h1⟩

theorem is_uint_true (s : UTF8String) (hs : WellFormed s) :
    s.is_uint = .ok true ↔
      s.is_empty = false ∧ ∀ j, j < s.m_length →
        is_digit (symbol_value ((syms s).getD j [])) = true := by
  obtain ⟨b, hb, hspec⟩ := is_uint_loop_spec s hs s.m_length 0 (by omega)
  have hiff : s.is_uint = .ok true ↔ b = true ∧ s.is_empty = false := by
    unfold is_uint
    simp only [hb, bind, Except.bind, pure, Except.pure]
    cases b <;> cases s.is_empty <;> simp
  rw [hiff, hspec]
  constructor
  · rintro ⟨h1, h2⟩
    exact ⟨h2, fun j hj => h1 j (Nat.zero_le _) (by omega)⟩
  · rintro ⟨h1, h2⟩
    exact ⟨fun j _ hj => h2 j (by omega), h1⟩

theorem is_float_true (s : UTF8String) (hs : WellFormed s) :
    s.is_float = .ok true ↔
      s.is_empty = false ∧
      (∀ j, j < s.m_length →
        is_digit (symbol_value ((syms s).getD j [])) = true ∨
          (j = 0 ∧ (syms s).getD j [] = [45]) ∨ (syms s).getD j [] = [46]) ∧
      (∀ j k, j < s.m_length → k < s.m_length →
        (syms s).getD j [] = [46] → (syms s).getD k [] = [46] → j = k) := by
  obtain ⟨b, hb, hspec⟩ := is_float_loop_spec s hs
    (fun i n pf =>
      (∀ j, i ≤ j → j < i + n →
        is_digit (symbol_value ((syms s).getD j [])) = true ∨
          (j = 0 ∧ (syms s).getD j [] = [45]) ∨ (syms s).getD j [] = [46]) ∧
      (∀ j k, i ≤ j → j < i + n → i ≤ k → k < i + n →
        (syms s).getD j [] = [46] → (syms s).getD k [] = [46] → j = k) ∧
      (pf = true → ∀ j, i ≤ j → j < i + n → (syms s).getD j [] ≠ [46]))
    (fun _ _ _ => Iff.rfl) s.m_length 0 false (by omega)
  have hiff : s.is_float = .ok true ↔ b = true ∧ s.is_empty = false := by
    unfold is_float
    simp only [hb, bind, Except.bind, pure, Except.pure]
    cases b <;> cases s.is_empty <;> simp
  rw [hiff, hspec]
  constructor
  · rintro ⟨⟨h1, h2, _⟩, h3⟩
    exact ⟨h3, fun j hj => h1 j (Nat.zero_le _) (by omega),
      fun j k hj hk => h2 j k (Nat.zero_le _) (by omega) (Nat.zero_le _) (by omega)⟩
  · rintro ⟨h1, h2, h3⟩
    exact ⟨⟨fun j _ hj => h2 j (by omega),
      fun j k _ hj _ hk => h3 j k (by omega) (by omega), fun h => by cases h⟩, h1⟩

theorem is_int_of_uint (s : UTF8String) (hs : WellFormed s) (h : s.is_uint = .ok true) :
    s.is_int = .ok true := by
  obtain ⟨h1, h2⟩ := (is_uint_true s hs).mp h
  refine (is_int_true s hs.1).mpr ⟨h1, fun j hj => Or.inr ?_⟩
  have hv : ValidSymbol ((syms s).getD j []) :=
    (syms_getD_valid s hs j hj).1 _ (List.mem_singleton.mpr rfl)
  obtain ⟨d, hd, hd1, hd2⟩ := (digit_symbol _ hv).mp (h2 j hj)
  refine ⟨_, get_code_point_syms s hs j hj, ?_⟩
  rw [hd]
  simp only [utf8_scalar_value, is_digit]
  have e1 : 48 ≤ d % 128 := by omega
  have e2 : d % 128 ≤ 57 := by omega
  simp [e1, e2]

theorem is_float_of_int (s : UTF8String) (hs : WellFormedUTF8 s) (h : s.is_int = .ok true) :
    s.is_float = .ok true := by
  have hwf := hs.structural
  obtain ⟨h1, h2⟩ := (is_int_true s hs.1).mp h
  have hcase : ∀ j, j < s.m_length →
      (j = 0 ∧ (syms s).getD j [] = [45]) ∨
        ∃ d, (syms s).getD j [] = [d] ∧ 48 ≤ d ∧ d ≤ 57 := by
    intro j hj
    rcases h2 j hj with ⟨h0, hm⟩ | ⟨c, hc, hd⟩
    · exact Or.inl ⟨h0, (get_symbol_char_iff s hwf j hj 45).mp hm⟩
    · rw [get_code_point_syms s hwf j hj] at hc
      rw [← Except.ok.inj hc] at hd
      exact Or.inr ((hs.2 _ (syms_getD_mem s hs.1 j hj)).digit hd)
  refine (is_float_true s hwf).mpr ⟨h1, ?_, ?_⟩
  · intro j hj
    rcases hcase j hj with hm | ⟨d, hd, hd1, hd2⟩
    · exact Or.inr (Or.inl hm)
    · left
      rw [hd, symbol_value_single d (by omega)]
      simp [is_digit, hd1, hd2]
  · intro j k hj hk ej ek
    exfalso
    rcases hcase j hj with ⟨_, hm⟩ | ⟨d, hd, hd1, hd2⟩
    · rw [hm] at ej
      revert ej; decide
    · rw [hd] at ej
      have := List.singleton_inj.mp ej
      omega

/-! ## `operator<` on lists of code points -/

theorem lt_loop_of_symbols (xs ys : List (List Nat)) (hx : Valid xs) (hy : Valid ys) :
    ∀ (n i : Nat), i + n = min xs.length ys.length →
      lt_loop (of_symbols xs) (of_symbols ys) n i =
        .ok (lex_lt ((xs.drop i).map utf8_scalar_value)
          ((ys.drop i).map utf8_scalar_value)) := by
  intro n
  induction n with
  | zero =>
    intro i hin
    simp only [lt_loop, get_length, pure, Except.pure,
      show (of_symbols xs).m_length = xs.length from rfl,
      show (of_symbols ys).m_length = ys.length from rfl]
    by_cases hxy : xs.length < ys.length
    · have h1 : xs.drop i = [] := List.drop_eq_nil_of_le (by omega)
      have h2 : i < ys.length := by omega
      rw [h1, List.drop_eq_getElem_cons h2]
      simp [lex_lt, hxy]
    · have h2 : ys.drop i = [] := List.drop_eq_nil_of_le (by omega)
      rw [h2]
      cases hd : xs.drop i with
      | nil => simp [lex_lt, hxy]
      | cons c rest => simp [lex_lt, hxy]
  | succ m ih =>
    intro i hin
    have h1 : i < xs.length := by omega
    have h2 : i < ys.length := by omega
    unfold lt_loop
    simp only [get_code_point_of_symbols xs i hx h1, get_code_point_of_symbols ys i hy h2,
      bind, Except.bind, pure, Except.pure, ih (i + 1) (by omega)]
    rw [List.drop_eq_getElem_cons h1, List.drop_eq_getElem_cons h2]
    simp only [List.map_cons, lex_lt]
    by_cases c1 : utf8_scalar_value xs[i] < utf8_scalar_value ys[i]
    · simp only [c1, if_true]
    · by_cases c2 : utf8_scalar_value ys[i] < utf8_scalar_value xs[i]
      · simp only [c1, c2, if_true, if_false]
      · simp only [c1, c2, if_false]

theorem lt_of_symbols (xs ys : List (List Nat)) (hx : Valid xs) (hy : Valid ys) :
    (of_symbols xs).lt (of_symbols ys) =
      .ok (lex_lt (xs.map utf8_scalar_value) (ys.map utf8_scalar_value)) := by
  unfold lt
  have := lt_loop_of_symbols xs ys hx hy (min xs.length ys.length) 0 (by omega)
  simpa [get_length, of_symbols] using this

theorem lex_lt_irrefl : ∀ l : List Nat, lex_lt l l = false := by
  intro l
  induction l with
  | nil => rfl
  | cons x rest ih => simp [lex_lt, ih]

theorem lex_lt_asymm : ∀ l₁ l₂ : List Nat, lex_lt l₁ l₂ = true → lex_lt l₂ l₁ = false := by
  intro l₁
  induction l₁ with
  | nil =>
    intro l₂ h
    cases l₂ with
    | nil => rfl
    | cons y ys => rfl
  | cons x xs ih =>
    intro l₂ h
    cases l₂ with
    | nil => simp [lex_lt] at h
    | cons y ys =>
      simp only [lex_lt] at h ⊢
      by_cases c1 : x < y
      · have c2 : ¬ y < x := by omega
        simp only [c1, c2, if_true, if_false]
      · by_cases c2 : y < x
        · simp only [c1, c2, if_true, if_false] at h
          cases h
        · simp only [c1, c2, if_false] at h ⊢
          exact ih ys h

theorem lex_lt_total : ∀ l₁ l₂ : List Nat, l₁ ≠ l₂ →
    lex_lt l₁ l₂ = true ∨ lex_lt l₂ l₁ = true := by
  intro l₁
  induction l₁ with
  | nil =>
    intro l₂ h
    cases l₂ with
    | nil => exact absurd rfl h
    | cons y ys => exact Or.inl rfl
  | cons x xs ih =>
    intro l₂ h
    cases l₂ with
    | nil => exact Or.inr rfl
    | cons y ys =>
      simp only [lex_lt]
      by_cases c1 : x < y
      · left; simp only [c1, if_true]
      · by_cases c2 : y < x
        · right; simp only [c2, if_true]
        · have e : x = y := by omega
          subst e
          have hne : xs ≠ ys := fun hh => h (by rw [hh])
          simp only [c1, if_false]
          exact ih ys hne

theorem lex_lt_trans : ∀ l₁ l₂ l₃ : List Nat, lex_lt l₁ l₂ = true → lex_lt l₂ l₃ = true →
    lex_lt l₁ l₃ = true := by
  intro l₁
  induction l₁ with
  | nil =>
    intro l₂ l₃ h1 h2
    cases l₂ with
    | nil => simp [lex_lt] at h1
    | cons y ys =>
      cases l₃ with
      | nil => simp [lex_lt] at h2
      | cons z zs => rfl
  | cons x xs ih =>
    intro l₂ l₃ h1 h2
    cases l₂ with
    | nil => simp [lex_lt] at h1
    | cons y ys =>
      cases l₃ with
      | nil => simp [lex_lt] at h2
      | cons z zs =>
        simp only [lex_lt] at h1 h2 ⊢
        by_cases a1 : x < y
        · by_cases b1 : y < z
          · have : x < z := by omega
            simp only [this, if_true]
          · by_cases b2 : z < y
            · simp only [b1, b2, if_true, if_false] at h2
              cases h2
            · have : x < z := by omega
              simp only [this, if_true]
        · by_cases a2 : y < x
          · simp only [a1, a2, if_true, if_false] at h1
            cases h1
          · simp only [a1, a2, if_false] at h1
            have e : x = y := by omega
            subst e
            by_cases b1 : x < z
            · simp only [b1, if_true]
            · by_cases b2 : z < x
              · simp only [b1, b2, if_true, if_false] at h2
                cases h2
              · simp only [b1, b2, if_false] at h2 ⊢
                exact ih ys zs h1 h2

theorem scalar_map_inj : ∀ (xs ys : List (List Nat)), (∀ c ∈ xs, WellFormedSequence c) →
    (∀ c ∈ ys, WellFormedSequence c) →
    xs.map utf8_scalar_value = ys.map utf8_scalar_value → xs = ys := by
  intro xs
  induction xs with
  | nil =>
    intro ys _ _ h
    cases ys with
    | nil => rfl
    | cons y t => simp at h
  | cons x rest ih =>
    intro ys hx hy h
    cases ys with
    | nil => simp at h
    | cons y t =>
      simp only [List.map_cons, List.cons.injEq] at h
      have e := (hx x (List.mem_cons_self _ _)).inj (hy y (List.mem_cons_self _ _)) h.1
      have e2 := ih t (fun c hc => hx c (List.mem_cons_of_mem _ hc))
        (fun c hc => hy c (List.mem_cons_of_mem _ hc)) h.2
      rw [e, e2]

/-- Outside well-formed UTF-8 the predicates and the order part ways: the overlong
form `C0 B0` decodes to the code point of `'0'`, so `is_int` holds for it, while
`is_uint` and `is_float`, which test the packed bytes, do not; and it is neither
before, nor after, nor equal to `"0"`. -/
theorem overlong_digit :
    WellFormed ⟨[0xC0, 0xB0, 0], 3, 1⟩ ∧ ¬ WellFormedUTF8 ⟨[0xC0, 0xB0, 0], 3, 1⟩ ∧
    get_code_point ⟨[0xC0, 0xB0, 0], 3, 1⟩ 0 = .ok 48 ∧
    is_int ⟨[0xC0, 0xB0, 0], 3, 1⟩ = .ok true ∧
    is_uint ⟨[0xC0, 0xB0, 0], 3, 1⟩ = .ok false ∧
    is_float ⟨[0xC0, 0xB0, 0], 3, 1⟩ = .ok false ∧
    lt ⟨[0xC0, 0xB0, 0], 3, 1⟩ ⟨[48, 0], 2, 1⟩ = .ok false ∧
    lt ⟨[48, 0], 2, 1⟩ ⟨[0xC0, 0xB0, 0], 3, 1⟩ = .ok false ∧
    eq ⟨[48, 0], 2, 1⟩ ⟨[0xC0, 0xB0, 0], 3, 1⟩ = false := by
  decide

theorem is_float_returns (s : UTF8String) (hs : WellFormed s) : ∃ f, s.is_float = .ok f := by
  obtain ⟨b, hb, _⟩ := is_float_loop_spec s hs
    (fun i n pf =>
      (∀ j, i ≤ j → j < i + n →
        is_digit (symbol_value ((syms s).getD j [])) = true ∨
          (j = 0 ∧ (syms s).getD j [] = [45]) ∨ (syms s).getD j [] = [46]) ∧
      (∀ j k, i ≤ j → j < i + n → i ≤ k → k < i + n →
        (syms s).getD j [] = [46] → (syms s).getD k [] = [46] → j = k) ∧
      (pf = true → ∀ j, i ≤ j → j < i + n → (syms s).getD j [] ≠ [46]))
    (fun _ _ _ => Iff.rfl) s.m_length 0 false (by omega)
  unfold is_float
  simp only [hb, bind, Except.bind, pure, Except.pure]
  split_ifs <;> exact ⟨_, rfl⟩

/-! ## `split` on lists of symbols, one delimiter at a time -/

theorem split_symbols_scan {α : Type} [DecidableEq α] (xs ds : List α) :
    ∀ (fuel i : Nat) (el : List α) (els : List (List α)), xs.length - i < fuel →
      (∀ j, i ≤ j → (xs.drop j).take ds.length ≠ ds) →
      split_symbols xs ds fuel i el els = els ++ [el ++ xs.drop i] := by
  intro fuel
  induction fuel with
  | zero => intro i el els h; omega
  | succ n ih =>
    intro i el els hfuel hno
    unfold split_symbols
    by_cases hi : i < xs.length
    · rw [if_pos hi, if_neg (hno i (le_refl _)), ih (i + 1) _ _ (by omega)
        (fun j hj => hno j (by omega))]
      rw [List.append_assoc, List.drop_eq_getElem_cons hi]
      rfl
    · rw [if_neg hi, List.drop_eq_nil_of_le (by omega), List.append_nil]

theorem split_symbols_first {α : Type} [DecidableEq α] (xs ds : List α) (p : Nat)
    (hp : p < xs.length) (hm : (xs.drop p).take ds.length = ds) :
    ∀ (fuel i : Nat) (el : List α) (els : List (List α)), i ≤ p → xs.length - i < fuel →
      (∀ j, i ≤ j → j < p → (xs.drop j).take ds.length ≠ ds) →
      split_symbols xs ds fuel i el els =
        split_symbols xs ds (fuel - (p - i) - 1) (p + ds.length) []
          (els ++ [el ++ (xs.drop i).take (p - i)]) := by
  intro fuel
  induction fuel with
  | zero => intro i el els _ h; omega
  | succ n ih =>
    intro i el els hip hfuel hno
    have hi : i < xs.length := by omega
    rw [split_symbols, if_pos hi]
    by_cases hc : i = p
    · subst hc
      rw [if_pos hm]
      simp
    · have hlt : i < p := by omega
      rw [if_neg (hno i (le_refl _) hlt), ih (i + 1) _ _ (by omega) (by omega)
        (fun j hj1 hj2 => hno j (by omega) hj2)]
      have e1 : n - (p - (i + 1)) - 1 = n + 1 - (p - i) - 1 := by omega
      have e2 : (xs.drop i).take 1 ++ (xs.drop (i + 1)).take (p - (i + 1)) =
          (xs.drop i).take (p - i) := by
        rw [List.drop_eq_getElem_cons hi]
        have e3 : p - i = (p - (i + 1)) + 1 := by omega
        rw [e3, List.take_succ_cons]
        rfl
      rw [e1, List.append_assoc, e2]

theorem split_symbols_acc {α : Type} [DecidableEq α] (xs ds : List α) :
    ∀ (fuel i : Nat) (el : List α) (els : List (List α)),
      split_symbols xs ds fuel i el els = els ++ split_symbols xs ds fuel i el [] := by
  intro fuel
  induction fuel with
  | zero => intro i el els; simp [split_symbols]
  | succ n ih =>
    intro i el els
    unfold split_symbols
    by_cases hi : i < xs.length
    · rw [if_pos hi, if_pos hi]
      by_cases hm : (xs.drop i).take ds.length = ds
      · rw [if_pos hm, if_pos hm, ih _ _ (els ++ [el]), ih _ _ ([] ++ [el])]
        simp
      · rw [if_neg hm, if_neg hm, ih]
    · rw [if_neg hi, if_neg hi]
      simp

theorem split_symbols_shift {α : Type} [DecidableEq α] (xs ds : List α) (k : Nat) :
    ∀ (fuel i : Nat) (el : List α) (els : List (List α)),
      split_symbols xs ds fuel (k + i) el els =
        split_symbols (xs.drop k) ds fuel i el els := by
  intro fuel
  induction fuel with
  | zero => intro i el els; simp [split_symbols]
  | succ n ih =>
    intro i el els
    have hd : (xs.drop k).drop i = xs.drop (k + i) := by rw [List.drop_drop]
    have hl : (k + i < xs.length) ↔ (i < (xs.drop k).length) := by
      rw [List.length_drop]; omega
    unfold split_symbols
    rw [hd]
    by_cases hi : k + i < xs.length
    · rw [if_pos hi, if_pos (hl.mp hi)]
      by_cases hm : (xs.drop (k + i)).take ds.length = ds
      · rw [if_pos hm, if_pos hm, Nat.add_assoc, ih]
      · rw [if_neg hm, if_neg hm, Nat.add_assoc, ih]
    · rw [if_neg hi, if_neg (fun h => hi (hl.mpr h))]

theorem split_symbols_fuel {α : Type} [DecidableEq α] (xs ds : List α) (hne : ds ≠ []) :
    ∀ (fuel fuel' i : Nat) (el : List α) (els : List (List α)), xs.length - i < fuel →
      xs.length - i < fuel' →
      split_symbols xs ds fuel i el els = split_symbols xs ds fuel' i el els := by
  have hpos := List.length_pos.mpr hne
  intro fuel
  induction fuel with
  | zero => intro fuel' i el els h; omega
  | succ n ih =>
    intro fuel' i el els h1 h2
    obtain ⟨m, rfl⟩ : ∃ m, fuel' = m + 1 := ⟨fuel' - 1, by omega⟩
    unfold split_symbols
    by_cases hi : i < xs.length
    · simp only [if_pos hi]
      by_cases hm : (xs.drop i).take ds.length = ds
      · simp only [if_pos hm]
        exact ih m _ _ _ (by omega) (by omega)
      · simp only [if_neg hm]
        exact ih m _ _ _ (by omega) (by omega)
    · simp only [if_neg hi]

/-- The result of `split` on lists of symbols, by the first match of the delimiter. -/
theorem split_symbols_rec {α : Type} [DecidableEq α] (xs ds : List α) (hne : ds ≠ []) :
    ((∀ j, (xs.drop j).take ds.length ≠ ds) →
      split_symbols xs ds (xs.length + 1) 0 [] [] = [xs]) ∧
    (∀ p, (xs.drop p).take ds.length = ds →
      (∀ j, j < p → (xs.drop j).take ds.length ≠ ds) →
      split_symbols xs ds (xs.length + 1) 0 [] [] =
        xs.take p :: split_symbols (xs.drop (p + ds.length)) ds
          ((xs.drop (p + ds.length)).length + 1) 0 [] []) := by
  have hpos := List.length_pos.mpr hne
  constructor
  · intro hno
    rw [split_symbols_scan xs ds _ 0 [] [] (by omega) (fun j _ => hno j)]
    simp
  · intro p hm hno
    have hp : p + ds.length ≤ xs.length := by
      by_contra hc
      exact no_match_of_short xs ds p (by omega) hne hm
    rw [split_symbols_first xs ds p (by omega) hm _ 0 [] [] (Nat.zero_le _) (by omega)
      (fun j _ hj => hno j hj), split_symbols_acc]
    have e : split_symbols xs ds (xs.length + 1 - (p - 0) - 1) (p + ds.length) [] [] =
        split_symbols (xs.drop (p + ds.length)) ds
          ((xs.drop (p + ds.length)).length + 1) 0 [] [] := by
      have := split_symbols_shift xs ds (p + ds.length) (xs.length + 1 - (p - 0) - 1) 0 [] []
      simp only [Nat.add_zero] at this
      rw [this]
      apply split_symbols_fuel _ ds hne
      · rw [List.length_drop]; omega
      · omega
    rw [e]
    simp

theorem window_take {α : Type} (xs : List α) (p j n : Nat) (h : j + n ≤ p) :
    ((xs.take p).drop j).take n = (xs.drop j).take n := by
  rw [List.drop_take, List.take_take]
  congr 1
  omega

theorem window_length {α : Type} (xs ds : List α) (j : Nat)
    (h : (xs.drop j).take ds.length = ds) (hne : ds ≠ []) : j + ds.length ≤ xs.length := by
  by_contra hc
  exact no_match_of_short xs ds j (by omega) hne h

/-- No element of `split` on lists of symbols holds the delimiter, and every element
is a sublist of the string. -/
theorem split_symbols_elements {α : Type} [DecidableEq α] (ds : List α) (hne : ds ≠ []) :
    ∀ (n : Nat) (xs : List α), xs.length = n →
      ∀ e ∈ split_symbols xs ds (xs.length + 1) 0 [] [],
        (∀ j, (e.drop j).take ds.length ≠ ds) ∧ List.Sublist e xs := by
  have hpos := List.length_pos.mpr hne
  intro n
  induction n using Nat.strong_induction_on with
  | _ n ih =>
    intro xs hn e he
    by_cases hex : ∃ j, (xs.drop j).take ds.length = ds
    · have hm := Nat.find_spec hex
      have hmin : ∀ j, j < Nat.find hex → (xs.drop j).take ds.length ≠ ds :=
        fun j hj => Nat.find_min hex hj
      have hp := window_length xs ds _ hm hne
      rw [(split_symbols_rec xs ds hne).2 _ hm hmin] at he
      rcases List.mem_cons.mp he with h | h
      · subst h
        refine ⟨fun j hj => ?_, List.take_sublist _ _⟩
        have hl := window_length _ ds j hj hne
        rw [List.length_take] at hl
        rw [window_take xs _ j _ (by omega)] at hj
        exact hmin j (by omega) hj
      · have hlen : (xs.drop (Nat.find hex + ds.length)).length < n := by
          rw [List.length_drop]; omega
        obtain ⟨h1, h2⟩ := ih _ hlen _ rfl e h
        exact ⟨h1, h2.trans (List.drop_sublist _ _)⟩
    · have hno : ∀ j, (xs.drop j).take ds.length ≠ ds := fun j hj => hex ⟨j, hj⟩
      rw [(split_symbols_rec xs ds hne).1 hno] at he
      rw [List.mem_singleton.mp he]
      exact ⟨hno, List.Sublist.refl _⟩

/-! ## `remove_duplicates` on lists of symbols, one match at a time -/

theorem strip_symbols_no_match {α : Type} [DecidableEq α] (ds : List α) (n : Nat)
    (input : List α) (h : input.take ds.length ≠ ds) :
    strip_symbols ds (n + 1) input = input := by
  rw [strip_symbols, if_neg h]

theorem strip_symbols_result {α : Type} [DecidableEq α] (ds : List α) (hne : ds ≠ []) :
    ∀ (fuel : Nat) (input : List α), input.length < fuel →
      (strip_symbols ds fuel input).take ds.length ≠ ds := by
  have hpos := List.length_pos.mpr hne
  intro fuel
  induction fuel with
  | zero => intro input h; omega
  | succ n ih =>
    intro input hlen
    rw [strip_symbols]
    by_cases hm : input.take ds.length = ds
    · rw [if_pos hm]
      apply ih
      have hl : ds.length ≤ input.length := by
        have := congrArg List.length hm
        rw [List.length_take] at this
        omega
      rw [List.length_drop]
      omega
    · rw [if_neg hm]
      exact hm

theorem strip_symbols_length {α : Type} [DecidableEq α] (ds : List α) (fuel : Nat)
    (input : List α) : (strip_symbols ds fuel input).length ≤ input.length := by
  obtain ⟨k, hk⟩ := strip_symbols_suffix ds fuel input
  rw [hk, List.length_drop]
  omega

theorem remove_duplicates_symbols_acc {α : Type} [DecidableEq α] (ds : List α) :
    ∀ (fuel i : Nat) (input output : List α),
      remove_duplicates_symbols ds fuel i input output =
        output ++ remove_duplicates_symbols ds fuel i input [] := by
  intro fuel
  induction fuel with
  | zero => intro i input output; simp [remove_duplicates_symbols]
  | succ n ih =>
    intro i input output
    unfold remove_duplicates_symbols
    by_cases hi : i ≠ npos
    · simp only [if_pos hi]
      rw [ih _ _ (output ++ _), ih _ _ ([] ++ _)]
      simp
    · simp only [if_neg hi]
      simp

theorem remove_duplicates_symbols_fuel {α : Type} [DecidableEq α] (ds : List α)
    (hne : ds ≠ []) :
    ∀ (fuel fuel' : Nat) (input output : List α), input.length < fuel →
      input.length < fuel' → input.length < npos →
      remove_duplicates_symbols ds fuel (find_first_symbols input ds) input output =
        remove_duplicates_symbols ds fuel' (find_first_symbols input ds) input output := by
  have hpos := List.length_pos.mpr hne
  intro fuel
  induction fuel with
  | zero => intro fuel' input output h; omega
  | succ n ih =>
    intro fuel' input output h1 h2 h3
    obtain ⟨m, rfl⟩ : ∃ m, fuel' = m + 1 := ⟨fuel' - 1, by omega⟩
    unfold remove_duplicates_symbols
    by_cases hi : find_first_symbols input ds ≠ npos
    · simp only [if_pos hi]
      rcases find_first_symbols_spec input ds hne h3 with ⟨e, _⟩ | ⟨hle, _, _⟩
      · exact absurd e hi
      · have hl := strip_symbols_length ds
          ((input.drop (find_first_symbols input ds + ds.length)).length + 1)
          (input.drop (find_first_symbols input ds + ds.length))
        have hd : (input.drop (find_first_symbols input ds + ds.length)).length =
            input.length - (find_first_symbols input ds + ds.length) := List.length_drop _ _
        exact ih m _ _ (by omega) (by omega) (by omega)
    · simp only [if_neg hi]

/-- The result of `remove_duplicates` on lists of symbols, by the first match. -/
theorem remove_duplicates_symbols_rec {α : Type} [DecidableEq α] (xs ds : List α)
    (hne : ds ≠ []) (hlen : xs.length < npos) :
    ((∀ j, (xs.drop j).take ds.length ≠ ds) →
      remove_duplicates_symbols ds (xs.length + 1) (find_first_symbols xs ds) xs [] = xs) ∧
    (∀ p, (xs.drop p).take ds.length = ds →
      (∀ j, j < p → (xs.drop j).take ds.length ≠ ds) →
      find_first_symbols xs ds = p ∧
      remove_duplicates_symbols ds (xs.length + 1) (find_first_symbols xs ds) xs [] =
        xs.take (p + ds.length) ++
          remove_duplicates_symbols ds
            ((strip_symbols ds ((xs.drop (p + ds.length)).length + 1)
              (xs.drop (p + ds.length))).length + 1)
            (find_first_symbols (strip_symbols ds ((xs.drop (p + ds.length)).length + 1)
              (xs.drop (p + ds.length))) ds)
            (strip_symbols ds ((xs.drop (p + ds.length)).length + 1)
              (xs.drop (p + ds.length))) []) := by
  have hpos := List.length_pos.mpr hne
  constructor
  · intro hno
    rcases find_first_symbols_spec xs ds hne hlen with ⟨e, _⟩ | ⟨_, hm, _⟩
    · rw [e]
      simp [remove_duplicates_symbols]
    · exact absurd hm (hno _)
  · intro p hm hmin
    have hfp : find_first_symbols xs ds = p := by
      rcases find_first_symbols_spec xs ds hne hlen with ⟨_, hno⟩ | ⟨_, hq, hqmin⟩
      · exact absurd hm (hno p)
      · rcases Nat.lt_trichotomy (find_first_symbols xs ds) p with h | h | h
        · exact absurd hq (hmin _ h)
        · exact h
        · exact absurd hm (hqmin p h)
    have hp := window_length xs ds p hm hne
    refine ⟨hfp, ?_⟩
    rw [hfp]
    have hpn : p ≠ npos := by omega
    rw [remove_duplicates_symbols, if_pos hpn]
    dsimp only
    have hl := strip_symbols_length ds ((xs.drop (p + ds.length)).length + 1)
      (xs.drop (p + ds.length))
    have hd : (xs.drop (p + ds.length)).length = xs.length - (p + ds.length) :=
      List.length_drop _ _
    rw [remove_duplicates_symbols_acc,
      remove_duplicates_symbols_fuel ds hne xs.length
        ((strip_symbols ds ((xs.drop (p + ds.length)).length + 1)
          (xs.drop (p + ds.length))).length + 1) _ [] (by omega) (by omega) (by omega)]
    simp

/-! ## `remove_duplicates` applied twice -/

theorem remove_duplicates_list_none {α : Type} [DecidableEq α] (xs ds : List α)
    (hne : ds ≠ []) (hlen : xs.length < npos)
    (hno : ∀ j, (xs.drop j).take ds.length ≠ ds) : remove_duplicates_list ds xs = xs :=
  (remove_duplicates_symbols_rec xs ds hne hlen).1 hno

theorem remove_duplicates_list_match {α : Type} [DecidableEq α] (xs ds : List α)
    (hne : ds ≠ []) (hlen : xs.length < npos) (p : Nat)
    (hm : (xs.drop p).take ds.length = ds)
    (hmin : ∀ j, j < p → (xs.drop j).take ds.length ≠ ds) :
    remove_duplicates_list ds xs =
      xs.take (p + ds.length) ++ remove_duplicates_list ds (after_match ds xs p) :=
  ((remove_duplicates_symbols_rec xs ds hne hlen).2 p hm hmin).2

theorem after_match_length {α : Type} [DecidableEq α] (xs ds : List α) (p : Nat)
    (hne : ds ≠ []) (hp : p + ds.length ≤ xs.length) :
    (after_match ds xs p).length < xs.length := by
  have hpos := List.length_pos.mpr hne
  have hl := strip_symbols_length ds ((xs.drop (p + ds.length)).length + 1)
    (xs.drop (p + ds.length))
  have hd : (xs.drop (p + ds.length)).length = xs.length - (p + ds.length) :=
    List.length_drop _ _
  unfold after_match
  omega

theorem after_match_le {α : Type} [DecidableEq α] (xs ds : List α) (p : Nat) :
    (after_match ds xs p).length ≤ xs.length - (p + ds.length) := by
  have hl := strip_symbols_length ds ((xs.drop (p + ds.length)).length + 1)
    (xs.drop (p + ds.length))
  have hd : (xs.drop (p + ds.length)).length = xs.length - (p + ds.length) :=
    List.length_drop _ _
  unfold after_match
  omega

theorem after_match_eq {α : Type} [DecidableEq α] (ds R Y : List α) (p : Nat)
    (h : R.drop (p + ds.length) = Y) (hY : Y.take ds.length ≠ ds) :
    after_match ds R p = Y := by
  unfold after_match
  rw [h]
  exact strip_symbols_no_match ds _ Y hY

theorem after_match_start {α : Type} [DecidableEq α] (xs ds : List α) (p : Nat)
    (hne : ds ≠ []) : (after_match ds xs p).take ds.length ≠ ds :=
  strip_symbols_result ds hne _ _ (Nat.lt_succ_self _)

theorem first_match_cases {α : Type} (xs ds : List α) :
    (∀ j, (xs.drop j).take ds.length ≠ ds) ∨
    ∃ p, (xs.drop p).take ds.length = ds ∧ ∀ j, j < p → (xs.drop j).take ds.length ≠ ds := by
  classical
  by_cases hex : ∃ j, (xs.drop j).take ds.length = ds
  · exact Or.inr ⟨Nat.find hex, Nat.find_spec hex, fun j hj => Nat.find_min hex hj⟩
  · exact Or.inl (fun j hj => hex ⟨j, hj⟩)

theorem remove_duplicates_list_length {α : Type} [DecidableEq α] (xs ds : List α) :
    (remove_duplicates_list ds xs).length ≤ xs.length := by
  have := (remove_duplicates_symbols_sublist ds (xs.length + 1) (find_first_symbols xs ds)
    xs []).length_le
  simpa [remove_duplicates_list] using this

theorem remove_duplicates_list_take {α : Type} [DecidableEq α] (xs ds : List α)
    (hne : ds ≠ []) (hlen : xs.length < npos) :
    (remove_duplicates_list ds xs).take ds.length = xs.take ds.length := by
  rcases first_match_cases xs ds with hno | ⟨p, hm, hmin⟩
  · rw [remove_duplicates_list_none xs ds hne hlen hno]
  · have hp := window_length xs ds p hm hne
    rw [remove_duplicates_list_match xs ds hne hlen p hm hmin,
      List.take_append_of_le_length (by rw [List.length_take]; omega), List.take_take]
    congr 1
    omega

theorem window_append_left {α : Type} (P Y : List α) (j n : Nat) (h : j + n ≤ P.length) :
    ((P ++ Y).drop j).take n = (P.drop j).take n := by
  rw [List.drop_append_of_le_length (by omega),
    List.take_append_of_le_length (by rw [List.length_drop]; omega)]

theorem window_append_right {α : Type} (P Y : List α) (j n : Nat) :
    ((P ++ Y).drop (P.length + j)).take n = (Y.drop j).take n := by
  rw [List.drop_append]

/-- On lists of symbols `remove_duplicates` is idempotent. -/
theorem remove_duplicates_list_idem {α : Type} [DecidableEq α] (ds : List α)
    (hne : ds ≠ []) :
    ∀ (n : Nat) (xs : List α), xs.length = n → xs.length < npos →
      remove_duplicates_list ds (remove_duplicates_list ds xs) =
        remove_duplicates_list ds xs := by
  have hpos := List.length_pos.mpr hne
  intro n
  induction n using Nat.strong_induction_on with
  | _ n ih =>
    intro xs hn hlen
    rcases first_match_cases xs ds with hno | ⟨p, hm, hmin⟩
    · rw [remove_duplicates_list_none xs ds hne hlen hno,
        remove_duplicates_list_none xs ds hne hlen hno]
    · have hp := window_length xs ds p hm hne
      have hT := after_match_length xs ds p hne hp
      have hTle := after_match_le xs ds p
      have hrec := remove_duplicates_list_match xs ds hne hlen p hm hmin
      have hGl := remove_duplicates_list_length (after_match ds xs p) ds
      have hPl : (xs.take (p + ds.length)).length = p + ds.length := by
        rw [List.length_take]; omega
      rw [hrec]
      have hRl : (xs.take (p + ds.length) ++
          remove_duplicates_list ds (after_match ds xs p)).length < npos := by
        rw [List.length_append, hPl]
        omega
      have hRm : ((xs.take (p + ds.length) ++
          remove_duplicates_list ds (after_match ds xs p)).drop p).take ds.length = ds := by
        rw [window_append_left _ _ p _ (by omega), window_take xs _ p _ (le_refl _)]
        exact hm
      have hRmin : ∀ j, j < p → ((xs.take (p + ds.length) ++
          remove_duplicates_list ds (after_match ds xs p)).drop j).take ds.length ≠ ds := by
        intro j hj
        rw [window_append_left _ _ j _ (by omega), window_take xs _ j _ (by omega)]
        exact hmin j hj
      rw [remove_duplicates_list_match _ ds hne hRl p hRm hRmin]
      have hA : after_match ds (xs.take (p + ds.length) ++
          remove_duplicates_list ds (after_match ds xs p)) p =
          remove_duplicates_list ds (after_match ds xs p) := by
        have hdrop : (xs.take (p + ds.length) ++
            remove_duplicates_list ds (after_match ds xs p)).drop (p + ds.length) =
            remove_duplicates_list ds (after_match ds xs p) := by
          have := List.drop_left (xs.take (p + ds.length))
            (remove_duplicates_list ds (after_match ds xs p))
          rwa [hPl] at this
        apply after_match_eq ds _ _ p hdrop
        rw [remove_duplicates_list_take _ ds hne (by omega)]
        exact after_match_start xs ds p hne
      rw [hA, ih _ (hn ▸ hT) _ rfl (by omega)]
      congr 1
      rw [List.take_append_of_le_length (by omega), List.take_of_length_le (by omega)]

/-! ## No two adjacent copies after `remove_duplicates` -/

theorem windows_overlap {α : Type} (xs ds : List α) (p q : Nat) (hpq : p < q)
    (hq : q < p + ds.length) (hp : (xs.drop p).take ds.length = ds)
    (hqm : (xs.drop q).take ds.length = ds) :
    ds.drop (q - p) = ds.take (ds.length - (q - p)) := by
  have e1 : ((xs.drop p).take ds.length).drop (q - p) =
      (xs.drop q).take (ds.length - (q - p)) := by
    rw [List.drop_take, List.drop_drop]
    have : p + (q - p) = q := by omega
    rw [this]
  have e2 : ((xs.drop q).take ds.length).take (ds.length - (q - p)) =
      (xs.drop q).take (ds.length - (q - p)) := by
    rw [List.take_take, Nat.min_eq_left (by omega)]
  rw [hp] at e1
  rw [hqm] at e2
  rw [e1, e2]

theorem window_double {α : Type} (R ds : List α) (j : Nat)
    (h : (R.drop j).take (ds ++ ds).length = ds ++ ds) :
    (R.drop j).take ds.length = ds ∧ (R.drop (j + ds.length)).take ds.length = ds := by
  rw [List.length_append] at h
  constructor
  · have e : ((R.drop j).take (ds.length + ds.length)).take ds.length =
        (R.drop j).take ds.length := by
      rw [List.take_take, Nat.min_eq_left (by omega)]
    rw [h, List.take_left] at e
    exact e.symm
  · have e : ((R.drop j).take (ds.length + ds.length)).drop ds.length =
        (R.drop (j + ds.length)).take ds.length := by
      rw [List.drop_take, List.drop_drop, Nat.add_sub_cancel]
    rw [h, List.drop_left] at e
    exact e.symm

/-- On lists of symbols, when `ds` cannot overlap itself, `remove_duplicates` leaves no
copy of `ds` that another copy follows at once. -/
theorem remove_duplicates_list_no_double {α : Type} [DecidableEq α] (ds : List α)
    (hne : ds ≠ [])
    (hub : ∀ k, 0 < k → k < ds.length → ds.drop k ≠ ds.take (ds.length - k)) :
    ∀ (n : Nat) (xs : List α), xs.length = n → xs.length < npos →
      ∀ j, ¬ (((remove_duplicates_list ds xs).drop j).take ds.length = ds ∧
        ((remove_duplicates_list ds xs).drop (j + ds.length)).take ds.length = ds) := by
  have hpos := List.length_pos.mpr hne
  intro n
  induction n using Nat.strong_induction_on with
  | _ n ih =>
    intro xs hn hlen j
    rcases first_match_cases xs ds with hno | ⟨p, hm, hmin⟩
    · rw [remove_duplicates_list_none xs ds hne hlen hno]
      exact fun h => hno j h.1
    · have hp := window_length xs ds p hm hne
      have hT := after_match_length xs ds p hne hp
      have hTle := after_match_le xs ds p
      have hPl : (xs.take (p + ds.length)).length = p + ds.length := by
        rw [List.length_take]; omega
      rw [remove_duplicates_list_match xs ds hne hlen p hm hmin]
      have hRm : ((xs.take (p + ds.length) ++
          remove_duplicates_list ds (after_match ds xs p)).drop p).take ds.length = ds := by
        rw [window_append_left _ _ p _ (by omega), window_take xs _ p _ (le_refl _)]
        exact hm
      rintro ⟨h1, h2⟩
      rcases Nat.lt_trichotomy j p with hlt | heq | hgt
      · rw [window_append_left _ _ j _ (by omega), window_take xs _ j _ (by omega)] at h1
        exact hmin j hlt h1
      · subst heq
        have := window_append_right (xs.take (j + ds.length))
          (remove_duplicates_list ds (after_match ds xs j)) 0 ds.length
        rw [hPl, Nat.add_zero, List.drop_zero] at this
        rw [this, remove_duplicates_list_take _ ds hne (by omega)] at h2
        exact after_match_start xs ds j hne h2
      · by_cases hov : j < p + ds.length
        · exact hub (j - p) (by omega) (by omega) (windows_overlap _ ds p j hgt hov hRm h1)
        · obtain ⟨j', rfl⟩ : ∃ j', j = (p + ds.length) + j' := ⟨j - (p + ds.length), by omega⟩
          have w1 := window_append_right (xs.take (p + ds.length))
            (remove_duplicates_list ds (after_match ds xs p)) j' ds.length
          have w2 := window_append_right (xs.take (p + ds.length))
            (remove_duplicates_list ds (after_match ds xs p)) (j' + ds.length) ds.length
          rw [hPl] at w1 w2
          rw [w1] at h1
          rw [Nat.add_assoc, w2] at h2
          exact ih _ (hn ▸ hT) _ rfl (by omega) j' ⟨h1, h2⟩

theorem remove_duplicates_of_list (xs ds : List (List Nat)) (hx : Valid xs) (hd : Valid ds)
    (hne : ds ≠ []) :
    (of_symbols xs).remove_duplicates (of_symbols ds) =
      .ok (of_symbols (remove_duplicates_list ds xs)) ∧
    Valid (remove_duplicates_list ds xs) := by
  refine ⟨remove_duplicates_of_symbols xs ds hx hd hne, ?_⟩
  apply hx.sublist
  have := remove_duplicates_symbols_sublist ds (xs.length + 1) (find_first_symbols xs ds)
    xs []
  simpa [remove_duplicates_list] using this

/-! ## Concatenation and repetition (C1, C2, C5, C6) -/

/-- C1, as stated, fails: `UTF8String( "\xE0" )` (a lone leading byte of a three-byte
sequence, symbol length 1) concatenated with `UTF8String( "ab" )` (symbol length 2)
has symbol length 1, not 3, because the walk over the new buffer steps from the
leading byte over `a` and `b`. -/
theorem concatenate_length_counterexample :
    of_cstr [0xE0, 0] = .ok ⟨[0xE0, 0], 2, 1⟩ ∧
    of_cstr [97, 98, 0] = .ok ⟨[97, 98, 0], 3, 2⟩ ∧
    concatenate ⟨[0xE0, 0], 2, 1⟩ ⟨[97, 98, 0], 3, 2⟩ = .ok ⟨[0xE0, 97, 98, 0], 4, 1⟩ ∧
    (⟨[0xE0, 97, 98, 0], 4, 1⟩ : UTF8String).m_length ≠
      (⟨[0xE0, 0], 2, 1⟩ : UTF8String).m_length + (⟨[97, 98, 0], 3, 2⟩ : UTF8String).m_length := by
  decide

/-- C1, amended: for all strings `a` and `b` such that no symbol run of `a` is cut short
by its terminator, `a.concatenate( b )` returns, and its symbol length is
`a.m_length + b.m_length`. -/
theorem concatenate_length (a b : UTF8String) (ha : Inv a) (hb : Inv b) (hal : Aligned a) :
    ∃ r, a.concatenate b = .ok r ∧ r.m_length = a.m_length + b.m_length := by
  refine ⟨_, concatenate_eq a b ha hb, ?_⟩
  show (symbols (content a ++ content b)).length = _
  rw [symbols_append _ _ hal, List.length_append, ha.length_eq, hb.length_eq]
  rfl

/-- An instance of C1 (amended): a three-byte symbol followed by a string whose only
run is cut short. -/
theorem concatenate_length_witness :
    Inv ⟨[0xEC, 0x84, 0xB8, 0], 4, 1⟩ ∧ Inv ⟨[0xE0, 0], 2, 1⟩ ∧
    Aligned ⟨[0xEC, 0x84, 0xB8, 0], 4, 1⟩ ∧
    ∃ r, concatenate ⟨[0xEC, 0x84, 0xB8, 0], 4, 1⟩ ⟨[0xE0, 0], 2, 1⟩ = .ok r ∧
      r.m_length = 1 + 1 :=
  ⟨by decide, by decide, by decide,
    concatenate_length ⟨[0xEC, 0x84, 0xB8, 0], 4, 1⟩ ⟨[0xE0, 0], 2, 1⟩
      (by decide) (by decide) (by decide)⟩

/-- C2, as stated, fails: `UTF8String( "\xE0" )` has symbol length 1 and its
`repeat( 2 )` has the bytes `E0 E0 00` and symbol length 1, not 2. -/
theorem repeat_length_counterexample :
    of_cstr [0xE0, 0] = .ok ⟨[0xE0, 0], 2, 1⟩ ∧
    «repeat» ⟨[0xE0, 0], 2, 1⟩ 2 = .ok ⟨[0xE0, 0xE0, 0], 3, 1⟩ ∧
    (⟨[0xE0, 0xE0, 0], 3, 1⟩ : UTF8String).m_length ≠
      (⟨[0xE0, 0], 2, 1⟩ : UTF8String).m_length * 2 := by
  decide

/-- C2, amended: for every string `s` none of whose symbol runs is cut short by its
terminator and every `n` (positive or zero) for which the new byte length
`( m_data_length - 1 ) * n + 1` stays below the `std::size_t` sentinel, `s.repeat( n )`
returns, and its symbol length is `s.m_length * n`. -/
theorem repeat_length (s : UTF8String) (n : Nat) (hs : Inv s) (hal : Aligned s)
    (hsize : (s.m_data_length - 1) * n + 1 < npos) :
    ∃ r, s.repeat n = .ok r ∧ r.m_length = s.m_length * n := by
  refine ⟨_, repeat_eq s n hs hsize, ?_⟩
  show (symbols (List.replicate n (content s)).flatten).length = _
  rw [symbols_tile _ hal, length_tile, hs.length_eq]
  rfl

/-- An instance of C2 (amended): a three-byte symbol and a letter, three times over. -/
theorem repeat_length_witness :
    Inv ⟨[0xEC, 0x84, 0xB8, 97, 0], 5, 2⟩ ∧ Aligned ⟨[0xEC, 0x84, 0xB8, 97, 0], 5, 2⟩ ∧
    (5 - 1) * 3 + 1 < npos ∧
    ∃ r, «repeat» ⟨[0xEC, 0x84, 0xB8, 97, 0], 5, 2⟩ 3 = .ok r ∧ r.m_length = 2 * 3 :=
  ⟨by decide, by decide, by decide,
    repeat_length ⟨[0xEC, 0x84, 0xB8, 97, 0], 5, 2⟩ 3 (by decide) (by decide) (by decide)⟩

/-- C5: for all strings `a` and `b`, `a.concatenate( b )` returns; the stored byte length
is `( a.m_data_length - 1 ) + b.m_data_length` and the buffer is the bytes of `a`
without its terminator followed by all the bytes of `b`.  Also, `"Hello"` concatenated
with `" World"` is `"Hello World"`, of symbol length 11. -/
theorem concatenate_bytes (a b : UTF8String) (ha : Inv a) (hb : Inv b) :
    (∃ r, a.concatenate b = .ok r ∧
      r.m_data_length = (a.m_data_length - 1) + b.m_data_length ∧
      r.m_data = a.m_data.take (a.m_data_length - 1) ++ b.m_data) ∧
    (∃ h w hw, of_cstr [72, 101, 108, 108, 111, 0] = .ok h ∧
      of_cstr [32, 87, 111, 114, 108, 100, 0] = .ok w ∧
      h.concatenate w = .ok hw ∧
      of_cstr [72, 101, 108, 108, 111, 32, 87, 111, 114, 108, 100, 0] = .ok hw ∧
      hw.m_length = 11) :=
  ⟨⟨_, concatenate_eq a b ha hb, rfl, rfl⟩,
    ⟨⟨[72, 101, 108, 108, 111, 0], 6, 5⟩, ⟨[32, 87, 111, 114, 108, 100, 0], 7, 6⟩,
      ⟨[72, 101, 108, 108, 111, 32, 87, 111, 114, 108, 100, 0], 12, 11⟩, by decide⟩⟩

/-- An instance of C5: a string with a zero byte inside followed by a string whose
only run is cut short. -/
theorem concatenate_bytes_witness :
    Inv ⟨[97, 0, 98, 0], 4, 3⟩ ∧ Inv ⟨[0xE0, 0], 2, 1⟩ ∧
    ∃ r, concatenate ⟨[97, 0, 98, 0], 4, 3⟩ ⟨[0xE0, 0], 2, 1⟩ = .ok r ∧
      r.m_data_length = (4 - 1) + 2 ∧ r.m_data = [97, 0, 98] ++ [0xE0, 0] :=
  ⟨by decide, by decide,
    (concatenate_bytes ⟨[97, 0, 98, 0], 4, 3⟩ ⟨[0xE0, 0], 2, 1⟩ (by decide) (by decide)).1⟩

/-- C6: for every string `s` and every `count`, zero included, for which the new byte
length `( m_data_length - 1 ) * count + 1` does not overflow (it stays below the
`std::size_t` sentinel), `s.repeat( count )` returns; the stored byte length is
`( m_data_length - 1 ) * count + 1` and the buffer is the bytes of `s` before its
terminator, `count` times over, followed by one zero byte.  Also, `"ab".repeat( 3 )` is
`"ababab"`, and `repeat( 0 )` leaves the empty string. -/
theorem repeat_bytes (s : UTF8String) (count : Nat) (hs : Inv s)
    (hsize : (s.m_data_length - 1) * count + 1 < npos) :
    (∃ r, s.repeat count = .ok r ∧
      r.m_data_length = (s.m_data_length - 1) * count + 1 ∧
      r.m_data =
        (List.replicate count (s.m_data.take (s.m_data_length - 1))).flatten ++ [0]) ∧
    (∃ ab r, of_cstr [97, 98, 0] = .ok ab ∧ ab.repeat 3 = .ok r ∧
      of_cstr [97, 98, 97, 98, 97, 98, 0] = .ok r) ∧
    (∃ e, new = .ok e ∧ s.repeat 0 = .ok e) := by
  refine ⟨⟨_, repeat_eq s count hs hsize, rfl, rfl⟩,
    ⟨⟨[97, 98, 0], 3, 2⟩, ⟨[97, 98, 97, 98, 97, 98, 0], 7, 6⟩, by decide⟩,
    ⟨⟨[0], 1, 0⟩, by decide, ?_⟩⟩
  rw [repeat_eq s 0 hs (by rw [npos_eq]; omega)]
  rfl

/-- An instance of C6: a string with a zero byte inside and a cut-short run, twice
over. -/
theorem repeat_bytes_witness :
    Inv ⟨[97, 0, 0xE0, 0], 4, 3⟩ ∧ (4 - 1) * 2 + 1 < npos ∧
    ∃ r, «repeat» ⟨[97, 0, 0xE0, 0], 4, 3⟩ 2 = .ok r ∧
      r.m_data_length = (4 - 1) * 2 + 1 ∧
      r.m_data = (List.replicate 2 [97, 0, 0xE0]).flatten ++ [0] :=
  ⟨by decide, by decide,
    (repeat_bytes ⟨[97, 0, 0xE0, 0], 4, 3⟩ 2 (by decide) (by decide)).1⟩

/-! ## Errors of `substring` and `split` (C8, C9) -/

/-- C8: for every string `s`, every `start` and every `end`, `s.substring( start, end )`
returns the empty string (the default-constructed one) when `start` is the symbol
length of `s`, and throws `IndexOutOfBoundsError` if and only if `start` is greater
than the symbol length.  (For a `start` in range on a string whose last symbol run is
cut short, `get_symbol` copies the bytes that exist.) -/
theorem substring_bounds (s : UTF8String) (start end_ : Nat) (hs : Inv s) :
    (start = s.m_length → ∃ e, new = .ok e ∧ s.substring start end_ = .ok e) ∧
    (s.substring start end_ = .error .IndexOutOfBoundsError ↔ start > s.m_length) := by
  refine ⟨fun h => ⟨⟨[0], 1, 0⟩, new_eq, ?_⟩, ?_, ?_⟩
  · simp [substring, get_length, h, new_eq]
  · intro herr
    by_contra hle
    obtain ⟨r, hr⟩ := substring_total s hs.2.2.2 start end_ (by omega)
    rw [hr] at herr
    cases herr
  · intro hgt
    have hne : ¬ start = s.get_length := by simp only [get_length]; omega
    simp [substring, hne, check_symbol_index, bind, Except.bind, le_of_lt hgt]

/-- An instance of C8: `start` equal to the symbol length, on a string whose last run
is cut short. -/
theorem substring_bounds_witness :
    Inv ⟨[0xEC, 0x84, 0xB8, 97, 0xE0, 0], 6, 3⟩ ∧
    ((3 = 3 → ∃ e, new = .ok e ∧
        substring ⟨[0xEC, 0x84, 0xB8, 97, 0xE0, 0], 6, 3⟩ 3 7 = .ok e) ∧
      (substring ⟨[0xEC, 0x84, 0xB8, 97, 0xE0, 0], 6, 3⟩ 3 7 = .error .IndexOutOfBoundsError ↔
        3 > 3)) :=
  ⟨by decide, substring_bounds ⟨[0xEC, 0x84, 0xB8, 97, 0xE0, 0], 6, 3⟩ 3 7 (by decide)⟩

/-- C9: for every well-formed string `s` and every well-formed delimiter `d`,
`s.split( d )` throws `ValueError` if and only if `d` is empty; for a non-empty `d` it
returns a non-empty list (so it throws nothing, and its loop terminates).  The symbols of
a well-formed `s` all lie inside its buffer, so every `substring` and `get_symbol` call
of the loop reads stored bytes only. -/
theorem split_errors (s d : UTF8String) (hs : WellFormed s) (hd : WellFormed d) :
    (s.split d = .error .ValueError ↔ d.is_empty = true) ∧
    (d.is_empty = false → ∃ parts, s.split d = .ok parts ∧ parts ≠ []) := by
  have key : d.is_empty = false → ∃ parts, s.split d = .ok parts ∧ parts ≠ [] := by
    intro hne
    unfold split
    simp only [hne, Bool.false_eq_true, if_false, new_eq, bind, Except.bind]
    exact split_loop_total s d hs.1 (hd.1.length_pos hne) _ _ _ _ (by omega)
  refine ⟨⟨fun herr => ?_, fun he => by simp [split, he]⟩, key⟩
  by_contra hne
  obtain ⟨parts, hp, _⟩ := key (by simpa using hne)
  rw [hp] at herr
  cases herr

/-- An instance of C9: the string `"aé,b"` split at a comma. -/
theorem split_errors_witness :
    WellFormed ⟨[97, 0xC3, 0xA9, 44, 98, 0], 6, 4⟩ ∧ WellFormed ⟨[44, 0], 2, 1⟩ ∧
    ((split ⟨[97, 0xC3, 0xA9, 44, 98, 0], 6, 4⟩ ⟨[44, 0], 2, 1⟩ = .error .ValueError ↔
        is_empty ⟨[44, 0], 2, 1⟩ = true) ∧
      (is_empty ⟨[44, 0], 2, 1⟩ = false →
        ∃ parts, split ⟨[97, 0xC3, 0xA9, 44, 98, 0], 6, 4⟩ ⟨[44, 0], 2, 1⟩ = .ok parts ∧
          parts ≠ [])) :=
  ⟨by decide, by decide,
    split_errors ⟨[97, 0xC3, 0xA9, 44, 98, 0], 6, 4⟩ ⟨[44, 0], 2, 1⟩ (by decide) (by decide)⟩

/-! ## `substring` on well-formed strings (C4, C7) -/

/-- C4: for every valid ASCII string `s`, `s.substring( 0, s.get_length() )` returns `s`
itself: the same bytes, byte length and symbol length. -/
theorem substring_full_ascii (s : UTF8String) (hs : ValidAscii s) :
    s.substring 0 s.get_length = .ok s := by
  have hw := hs.wf_of_ascii
  have hlt := hw.length_lt
  have hv := hw.valid
  have hrep := hw.rep_eq
  generalize syms s = xs at hlt hv hrep
  subst hrep
  rw [PTRDIFF_MAX_eq] at hlt
  rw [show (of_symbols xs).get_length = xs.length from rfl,
    substring_of_symbols _ hv 0 _ (Nat.zero_le _), Nat.zero_add,
    Nat.mod_eq_of_lt (by rw [SIZE_MOD_eq]; omega)]
  simp

/-- An instance of C4: the string `"Hello"`. -/
theorem substring_full_ascii_witness :
    ValidAscii ⟨[72, 101, 108, 108, 111, 0], 6, 5⟩ ∧
    substring ⟨[72, 101, 108, 108, 111, 0], 6, 5⟩ 0
      (get_length ⟨[72, 101, 108, 108, 111, 0], 6, 5⟩) =
        .ok ⟨[72, 101, 108, 108, 111, 0], 6, 5⟩ :=
  ⟨by decide, substring_full_ascii ⟨[72, 101, 108, 108, 111, 0], 6, 5⟩ (by decide)⟩

/-- C7: for every well-formed string `s`, every `start` below its symbol length and every
`end` with `start + end` not overflowing `std::size_t`, `s.substring( start, end )`
returns a well-formed string `r` of symbol length
`min( s.m_length, start + end ) - start`; symbol `j` of `r` is symbol `start + j` of
`s`, and the bytes of `r` are the bytes of `s` from the byte index of symbol `start` on,
as many as `r` holds, plus the terminator. -/
theorem substring_symbols (s : UTF8String) (start end_ : Nat) (hs : WellFormed s)
    (hstart : start < s.m_length) (hsum : start + end_ < SIZE_MOD) :
    ∃ r b, s.substring start end_ = .ok r ∧ WellFormed r ∧
      r.m_length = min s.m_length (start + end_) - start ∧
      (∀ j, j < r.m_length →
        ∃ c, r.get_symbol j = .ok c ∧ s.get_symbol (start + j) = .ok c) ∧
      s.get_byte_index_for_symbol_index start = .ok b ∧
      r.m_data = (s.m_data.drop b).take (r.m_data_length - 1) ++ [0] := by
  have hv := hs.valid
  have hrep := hs.rep_eq
  generalize syms s = xs at hv hrep
  subst hrep
  have hstart2 : start < xs.length := hstart
  have hvr : Valid ((xs.drop start).take (min xs.length (start + end_) - start)) :=
    (hv.drop _).take _
  refine ⟨_, _, ?_, hvr.wellFormed, ?_, ?_,
    get_byte_index_of_symbols xs start hv.complete hstart2, ?_⟩
  · rw [substring_of_symbols xs hv start end_ (le_of_lt hstart2), Nat.mod_eq_of_lt hsum]
  · show ((xs.drop start).take (min xs.length (start + end_) - start)).length = _
    rw [List.length_take, List.length_drop]
    show _ = min xs.length (start + end_) - start
    omega
  · intro j hj
    have hj1 : j < ((xs.drop start).take (min xs.length (start + end_) - start)).length := hj
    have hj2 : start + j < xs.length := by
      rw [List.length_take, List.length_drop] at hj1
      omega
    refine ⟨_, get_symbol_of_symbols _ j hvr hj1, ?_⟩
    rw [get_symbol_of_symbols xs (start + j) hv hj2]
    congr 3
    rw [List.getElem_take, List.getElem_drop]
  · have hf : (xs.drop start).flatten =
        ((xs.drop start).take (min xs.length (start + end_) - start)).flatten ++
          ((xs.drop start).drop (min xs.length (start + end_) - start)).flatten := by
      rw [← List.flatten_append, List.take_append_drop]
    have hdata : (of_symbols xs).m_data.drop (xs.take start).flatten.length =
        (xs.drop start).flatten ++ [0] := by
      simp only [of_symbols]
      conv_lhs => rw [← List.take_append_drop start xs]
      rw [List.flatten_append, List.append_assoc, List.take_append_drop, List.drop_left]
    rw [hdata, hf]
    simp only [of_symbols, List.append_assoc, Nat.add_sub_cancel]
    rw [List.take_left]

/-- An instance of C7: symbols 1 and 2 of a string of four symbols of widths 3, 1, 2
and 1. -/
theorem substring_symbols_witness :
    WellFormed ⟨[0xEC, 0x84, 0xB8, 97, 0xC3, 0xA9, 98, 0], 8, 4⟩ ∧ 1 < 4 ∧ 1 + 2 < SIZE_MOD ∧
    ∃ r b, substring ⟨[0xEC, 0x84, 0xB8, 97, 0xC3, 0xA9, 98, 0], 8, 4⟩ 1 2 = .ok r ∧
      WellFormed r ∧ r.m_length = min 4 (1 + 2) - 1 ∧
      (∀ j, j < r.m_length → ∃ c, r.get_symbol j = .ok c ∧
        get_symbol ⟨[0xEC, 0x84, 0xB8, 97, 0xC3, 0xA9, 98, 0], 8, 4⟩ (1 + j) = .ok c) ∧
      get_byte_index_for_symbol_index ⟨[0xEC, 0x84, 0xB8, 97, 0xC3, 0xA9, 98, 0], 8, 4⟩ 1 =
        .ok b ∧
      r.m_data =
        ((⟨[0xEC, 0x84, 0xB8, 97, 0xC3, 0xA9, 98, 0], 8, 4⟩ : UTF8String).m_data.drop b).take
          (r.m_data_length - 1) ++ [0] :=
  ⟨by decide, by decide, by decide,
    substring_symbols ⟨[0xEC, 0x84, 0xB8, 97, 0xC3, 0xA9, 98, 0], 8, 4⟩ 1 2
      (by decide) (by decide) (by decide)⟩

/-! ## Splitting and joining again (C3) -/

/-- C3, as stated, fails: `UTF8String( "a\0b", 3 )` holds the bytes `61 00 62 00` (three
symbols); `get_symbol( 1 )` of it is the empty string, so splitting at `","` gives the
single piece `"ab"`, and joining that piece gives `"ab"`, which is neither the same
object as `s` nor equal to it under `operator==`. -/
theorem split_join_counterexample :
    of_data [97, 0, 98] 3 = .ok ⟨[97, 0, 98, 0], 4, 3⟩ ∧
    of_cstr [44, 0] = .ok ⟨[44, 0], 2, 1⟩ ∧
    is_empty ⟨[44, 0], 2, 1⟩ = false ∧
    split ⟨[97, 0, 98, 0], 4, 3⟩ ⟨[44, 0], 2, 1⟩ = .ok [⟨[97, 98, 0], 3, 2⟩] ∧
    join ⟨[44, 0], 2, 1⟩ [⟨[97, 98, 0], 3, 2⟩] = .ok ⟨[97, 98, 0], 3, 2⟩ ∧
    (⟨[97, 98, 0], 3, 2⟩ : UTF8String) ≠ ⟨[97, 0, 98, 0], 4, 3⟩ ∧
    eq ⟨[97, 98, 0], 3, 2⟩ ⟨[97, 0, 98, 0], 4, 3⟩ = false := by
  decide

/-- C3, amended: for every well-formed string `s` and every well-formed non-empty
delimiter `d`, `s.split( d )` returns, and joining its elements in order with
`concatenate`, `d` between each two consecutive elements, gives `s` again. -/
theorem split_join (s d : UTF8String) (hs : WellFormed s) (hd : WellFormed d)
    (hne : d.is_empty = false) :
    ∃ parts, s.split d = .ok parts ∧ join d parts = .ok s := by
  have hvx := hs.valid
  have hrx := hs.rep_eq
  have hvd := hd.valid
  have hrd := hd.rep_eq
  generalize syms s = xs at hvx hrx
  generalize syms d = ds at hvd hrd
  subst hrx hrd
  have hds : ds ≠ [] := by
    rw [is_empty_of_symbols ds hvd.complete] at hne
    simpa using hne
  have hj : join_symbols ds (split_symbols xs ds (xs.length + 1) 0 [] []) = xs := by
    rw [join_split_symbols xs ds hds _ 0 [] [] (by omega)]
    simp [join_symbols]
  refine ⟨_, split_of_symbols xs ds hvx hvd hds, ?_⟩
  rw [join_of_symbols ds _ (by rw [hj]; exact hvx), hj]

/-- An instance of C3 (amended): a string with a two-byte symbol and an empty piece,
split at commas. -/
theorem split_join_witness :
    WellFormed ⟨[97, 44, 0xC3, 0xA9, 44, 44, 99, 0], 8, 6⟩ ∧ WellFormed ⟨[44, 0], 2, 1⟩ ∧
    is_empty ⟨[44, 0], 2, 1⟩ = false ∧
    ∃ parts, split ⟨[97, 44, 0xC3, 0xA9, 44, 44, 99, 0], 8, 6⟩ ⟨[44, 0], 2, 1⟩ = .ok parts ∧
      join ⟨[44, 0], 2, 1⟩ parts = .ok ⟨[97, 44, 0xC3, 0xA9, 44, 44, 99, 0], 8, 6⟩ :=
  ⟨by decide, by decide, by decide,
    split_join ⟨[97, 44, 0xC3, 0xA9, 44, 44, 99, 0], 8, 6⟩ ⟨[44, 0], 2, 1⟩
      (by decide) (by decide) (by decide)⟩

/-! ## Removing duplicates (C10) -/

/-- C10: for every well-formed string `s` and every well-formed string `c` of one symbol,
`s.remove_duplicates( c )` returns and leaves a well-formed string whose symbols are
those of `s` with every maximal run of consecutive occurrences of the symbol of `c`
collapsed to one occurrence, all other symbols kept in order (`syms` lists the symbols
of a string, see `get_symbol_syms`).  Also, `"foo//bar"` with `"/"` becomes
`"foo/bar"`. -/
theorem remove_duplicates_collapses (s c : UTF8String) (hs : WellFormed s)
    (hc : WellFormed c) (h1 : c.m_length = 1) :
    (∃ r, s.remove_duplicates c = .ok r ∧ WellFormed r ∧
      syms r = collapse_runs ((syms c).headD []) (syms s)) ∧
    (∃ foo sep r, of_cstr [102, 111, 111, 47, 47, 98, 97, 114, 0] = .ok foo ∧
      of_cstr [47, 0] = .ok sep ∧ foo.remove_duplicates sep = .ok r ∧
      of_cstr [102, 111, 111, 47, 98, 97, 114, 0] = .ok r) := by
  refine ⟨?_, ⟨[102, 111, 111, 47, 47, 98, 97, 114, 0], 9, 8⟩, ⟨[47, 0], 2, 1⟩,
    ⟨[102, 111, 111, 47, 98, 97, 114, 0], 8, 7⟩, by decide⟩
  have hvx := hs.valid
  have hrx := hs.rep_eq
  have hvd := hc.valid
  have hrd := hc.rep_eq
  generalize syms s = xs at hvx hrx
  generalize hds : syms c = ds at hvd hrd
  subst hrx
  have hdl : ds.length = 1 := by
    rw [hrd] at h1
    exact h1
  obtain ⟨c0, hc0⟩ : ∃ c0, ds = [c0] := List.length_eq_one.mp hdl
  subst hc0
  subst hrd
  have hxl : xs.length < npos := by
    have := hvx.lt_size
    rw [npos_eq]
    omega
  have hvr : Valid (collapse_runs c0 xs) := hvx.sublist (collapse_runs_sublist c0 xs)
  refine ⟨of_symbols (collapse_runs c0 xs), ?_, hvr.wellFormed, ?_⟩
  · rw [remove_duplicates_of_symbols xs [c0] hvx hvd (by simp),
      remove_duplicates_single c0 _ xs [] (Nat.lt_succ_self _) hxl]
    rfl
  · rw [syms_of_symbols _ hvr.complete]
    rfl

/-- An instance of C10: slashes at the start, in the middle and at the end of a string
with a two-byte symbol. -/
theorem remove_duplicates_collapses_witness :
    WellFormed ⟨[47, 47, 0xC3, 0xA9, 47, 47, 47, 98, 47, 0], 10, 8⟩ ∧
    WellFormed ⟨[47, 0], 2, 1⟩ ∧ (⟨[47, 0], 2, 1⟩ : UTF8String).m_length = 1 ∧
    ∃ r, remove_duplicates ⟨[47, 47, 0xC3, 0xA9, 47, 47, 47, 98, 47, 0], 10, 8⟩
        ⟨[47, 0], 2, 1⟩ = .ok r ∧ WellFormed r ∧
      syms r = collapse_runs ((syms ⟨[47, 0], 2, 1⟩).headD [])
        (syms ⟨[47, 47, 0xC3, 0xA9, 47, 47, 47, 98, 47, 0], 10, 8⟩) :=
  ⟨by decide, by decide, by decide,
    (remove_duplicates_collapses ⟨[47, 47, 0xC3, 0xA9, 47, 47, 47, 98, 47, 0], 10, 8⟩
      ⟨[47, 0], 2, 1⟩ (by decide) (by decide) (by decide)).1⟩

/-! ## Searching and comparing ends (C11 to C14) -/

/-- C11: for every well-formed string `s` and every well-formed non-empty needle `sub`,
`s.find_first( sub )` returns; the result is `npos` if and only if `sub` matches `s` at
no symbol index (as when `sub` is longer than `s`), and otherwise it is the least
symbol index at which `sub` matches `s` symbol for symbol. -/
theorem find_first_least (s sub : UTF8String) (hs : WellFormed s) (hsub : WellFormed sub)
    (hne : sub.is_empty = false) :
    ∃ r, s.find_first sub = .ok r ∧
      (r = npos ↔ ∀ i, ¬ MatchesAt s sub i) ∧
      (r ≠ npos → MatchesAt s sub r ∧ ∀ i, i < r → ¬ MatchesAt s sub i) ∧
      (sub.m_length > s.m_length → r = npos) := by
  have hvx := hs.valid
  have hrx := hs.rep_eq
  have hxl := hs.length_lt_npos
  have hvd := hsub.valid
  have hrd := hsub.rep_eq
  generalize syms s = xs at hvx hrx hxl
  generalize syms sub = ds at hvd hrd
  subst hrx hrd
  have hds : ds ≠ [] := by
    rw [is_empty_of_symbols ds hvd.complete] at hne
    simpa using hne
  refine ⟨_, find_first_of_symbols xs ds hvx hvd, ?_⟩
  have hiff := matchesAt_of_symbols xs ds hvx hvd
  rcases find_first_symbols_spec xs ds hds hxl with ⟨h1, h2⟩ | ⟨h1, h2, h3⟩
  · have hnone : ∀ i, ¬ MatchesAt (of_symbols xs) (of_symbols ds) i :=
      fun i hm => h2 i ((hiff i).mp hm).2
    exact ⟨⟨fun _ => hnone, fun _ => h1⟩, fun hr => absurd h1 hr, fun _ => h1⟩
  · have hm : MatchesAt (of_symbols xs) (of_symbols ds) (find_first_symbols xs ds) :=
      (hiff _).mpr ⟨h1, h2⟩
    have hnp : find_first_symbols xs ds ≠ npos := by omega
    refine ⟨⟨fun hr => absurd hr hnp, fun hall => absurd hm (hall _)⟩,
      fun _ => ⟨hm, fun i hi hmi => h3 i hi ((hiff i).mp hmi).2⟩, fun hgt => ?_⟩
    have hgt2 : ds.length > xs.length := hgt
    omega

/-- An instance of C11: the needle `"é,"` in a string that holds it twice. -/
theorem find_first_least_witness :
    WellFormed ⟨[97, 0xC3, 0xA9, 44, 98, 0xC3, 0xA9, 44, 0], 9, 6⟩ ∧
    WellFormed ⟨[0xC3, 0xA9, 44, 0], 4, 2⟩ ∧
    is_empty ⟨[0xC3, 0xA9, 44, 0], 4, 2⟩ = false ∧
    ∃ r, find_first ⟨[97, 0xC3, 0xA9, 44, 98, 0xC3, 0xA9, 44, 0], 9, 6⟩
        ⟨[0xC3, 0xA9, 44, 0], 4, 2⟩ = .ok r ∧
      (r = npos ↔ ∀ i, ¬ MatchesAt ⟨[97, 0xC3, 0xA9, 44, 98, 0xC3, 0xA9, 44, 0], 9, 6⟩
        ⟨[0xC3, 0xA9, 44, 0], 4, 2⟩ i) ∧
      (r ≠ npos → MatchesAt ⟨[97, 0xC3, 0xA9, 44, 98, 0xC3, 0xA9, 44, 0], 9, 6⟩
          ⟨[0xC3, 0xA9, 44, 0], 4, 2⟩ r ∧
        ∀ i, i < r → ¬ MatchesAt ⟨[97, 0xC3, 0xA9, 44, 98, 0xC3, 0xA9, 44, 0], 9, 6⟩
          ⟨[0xC3, 0xA9, 44, 0], 4, 2⟩ i) ∧
      ((⟨[0xC3, 0xA9, 44, 0], 4, 2⟩ : UTF8String).m_length >
          (⟨[97, 0xC3, 0xA9, 44, 98, 0xC3, 0xA9, 44, 0], 9, 6⟩ : UTF8String).m_length →
        r = npos) :=
  ⟨by decide, by decide, by decide,
    find_first_least ⟨[97, 0xC3, 0xA9, 44, 98, 0xC3, 0xA9, 44, 0], 9, 6⟩
      ⟨[0xC3, 0xA9, 44, 0], 4, 2⟩ (by decide) (by decide) (by decide)⟩

/-- C13: for all well-formed strings `s` and `sub`, `s.starts_with( sub )` returns, and
it returns true if and only if `sub` has no more symbols than `s` and symbol `i` of
`sub` is symbol `i` of `s` for every `i` below the symbol length of `sub`; so it is
true for the empty `sub`, and the concatenation of `s` and `sub` starts with `s`. -/
theorem starts_with_iff (s sub : UTF8String) (hs : WellFormed s) (hsub : WellFormed sub) :
    (∃ b, s.starts_with sub = .ok b ∧
      (b = true ↔ sub.m_length ≤ s.m_length ∧
        ∀ i, i < sub.m_length → sub.get_symbol i = s.get_symbol i) ∧
      (sub.m_length = 0 → b = true)) ∧
    (∀ r, s.concatenate sub = .ok r → Inv r → r.starts_with s = .ok true) := by
  have hvx := hs.valid
  have hrx := hs.rep_eq
  have hvd := hsub.valid
  have hrd := hsub.rep_eq
  generalize syms s = xs at hvx hrx
  generalize syms sub = ds at hvd hrd
  subst hrx hrd
  have hiff := matchesAt_of_symbols xs ds hvx hvd 0
  have hkey : xs.take ds.length = ds ↔ ((of_symbols ds).m_length ≤ (of_symbols xs).m_length ∧
      ∀ i, i < (of_symbols ds).m_length →
        (of_symbols ds).get_symbol i = (of_symbols xs).get_symbol i) := by
    constructor
    · intro h
      have hle : 0 + ds.length ≤ xs.length := by
        have := congrArg List.length h
        rw [List.length_take] at this
        omega
      obtain ⟨h1, h2⟩ := hiff.mpr ⟨hle, by simpa using h⟩
      exact ⟨by simpa using h1, fun i hi => by simpa using (h2 i hi).symm⟩
    · rintro ⟨h1, h2⟩
      have := (hiff.mp ⟨by simpa using h1, fun j hj => by simpa using (h2 j hj).symm⟩).2
      simpa using this
  refine ⟨⟨_, starts_with_of_symbols xs ds hvx hvd, ?_, ?_⟩, ?_⟩
  · rw [decide_eq_true_iff]
    exact hkey
  · intro h0
    have : ds = [] := List.length_eq_zero.mp h0
    subst this
    simp
  · intro r hr hinv
    rw [concatenate_of_symbols xs ds hvx hvd] at hr
    have hr2 : of_symbols (xs ++ ds) = r := Except.ok.inj hr
    subst hr2
    rw [starts_with_of_symbols (xs ++ ds) xs (valid_append_of_inv xs ds hvx hvd hinv) hvx]
    simp

/-- An instance of C13: `"é,b"` and its start `"é,"`. -/
theorem starts_with_iff_witness :
    WellFormed ⟨[0xC3, 0xA9, 44, 98, 0], 5, 3⟩ ∧ WellFormed ⟨[0xC3, 0xA9, 44, 0], 4, 2⟩ ∧
    (∃ b, starts_with ⟨[0xC3, 0xA9, 44, 98, 0], 5, 3⟩ ⟨[0xC3, 0xA9, 44, 0], 4, 2⟩ = .ok b ∧
      (b = true ↔ (⟨[0xC3, 0xA9, 44, 0], 4, 2⟩ : UTF8String).m_length ≤
          (⟨[0xC3, 0xA9, 44, 98, 0], 5, 3⟩ : UTF8String).m_length ∧
        ∀ i, i < (⟨[0xC3, 0xA9, 44, 0], 4, 2⟩ : UTF8String).m_length →
          get_symbol ⟨[0xC3, 0xA9, 44, 0], 4, 2⟩ i =
            get_symbol ⟨[0xC3, 0xA9, 44, 98, 0], 5, 3⟩ i) ∧
      ((⟨[0xC3, 0xA9, 44, 0], 4, 2⟩ : UTF8String).m_length = 0 → b = true)) :=
  ⟨by decide, by decide,
    (starts_with_iff ⟨[0xC3, 0xA9, 44, 98, 0], 5, 3⟩ ⟨[0xC3, 0xA9, 44, 0], 4, 2⟩
      (by decide) (by decide)).1⟩

/-- C12: for all well-formed strings `s` and `sub` (the empty needle included),
`s.find_last( sub )` returns: its downward scan ends after index 0 and reads no symbol
out of range.  The result is `npos` if and only if `sub` matches `s` at no symbol index
(as when `sub` is longer than `s`), and otherwise it is the greatest symbol index at
which `sub` matches `s` symbol for symbol. -/
theorem find_last_greatest (s sub : UTF8String) (hs : WellFormed s) (hsub : WellFormed sub) :
    ∃ r, s.find_last sub = .ok r ∧
      (r = npos ↔ ∀ i, ¬ MatchesAt s sub i) ∧
      (r ≠ npos → MatchesAt s sub r ∧ ∀ i, r < i → ¬ MatchesAt s sub i) ∧
      (sub.m_length > s.m_length → r = npos) := by
  have hvx := hs.valid
  have hrx := hs.rep_eq
  have hxl := hs.length_lt_npos
  have hvd := hsub.valid
  have hrd := hsub.rep_eq
  generalize syms s = xs at hvx hrx hxl
  generalize syms sub = ds at hvd hrd
  subst hrx hrd
  refine ⟨_, find_last_of_symbols xs ds hvx hvd, ?_⟩
  have hiff := matchesAt_of_symbols xs ds hvx hvd
  by_cases hg : ds.length > xs.length
  · rw [if_pos hg]
    have hnone : ∀ i, ¬ MatchesAt (of_symbols xs) (of_symbols ds) i := by
      intro i hm
      have := ((hiff i).mp hm).1
      omega
    exact ⟨⟨fun _ => hnone, fun _ => rfl⟩, fun hr => absurd rfl hr, fun _ => rfl⟩
  · rw [if_neg hg]
    rcases last_match_spec xs ds (xs.length + 2) (xs.length - ds.length) (by omega)
      (by omega) with ⟨h1, h2⟩ | ⟨h1, h2, h3⟩
    · have hnone : ∀ i, ¬ MatchesAt (of_symbols xs) (of_symbols ds) i := by
        intro i hm
        obtain ⟨hle, hmi⟩ := (hiff i).mp hm
        exact h2 i (by omega) hmi
      exact ⟨⟨fun _ => hnone, fun _ => h1⟩, fun hr => absurd h1 hr,
        fun hgt => absurd hgt hg⟩
    · have hm : MatchesAt (of_symbols xs) (of_symbols ds)
          (last_match xs ds (xs.length + 2) (xs.length - ds.length)) :=
        (hiff _).mpr ⟨by omega, h2⟩
      have hnp : last_match xs ds (xs.length + 2) (xs.length - ds.length) ≠ npos := by omega
      refine ⟨⟨fun hr => absurd hr hnp, fun hall => absurd hm (hall _)⟩,
        fun _ => ⟨hm, fun i hi hmi => ?_⟩, fun hgt => absurd hgt hg⟩
      obtain ⟨hle, hmi2⟩ := (hiff i).mp hmi
      exact h3 i hi (by omega) hmi2

/-- An instance of C12: the needle `"é,"` in a string that holds it twice. -/
theorem find_last_greatest_witness :
    WellFormed ⟨[97, 0xC3, 0xA9, 44, 98, 0xC3, 0xA9, 44, 99, 0], 10, 7⟩ ∧
    WellFormed ⟨[0xC3, 0xA9, 44, 0], 4, 2⟩ ∧
    ∃ r, find_last ⟨[97, 0xC3, 0xA9, 44, 98, 0xC3, 0xA9, 44, 99, 0], 10, 7⟩
        ⟨[0xC3, 0xA9, 44, 0], 4, 2⟩ = .ok r ∧
      (r = npos ↔ ∀ i, ¬ MatchesAt ⟨[97, 0xC3, 0xA9, 44, 98, 0xC3, 0xA9, 44, 99, 0], 10, 7⟩
        ⟨[0xC3, 0xA9, 44, 0], 4, 2⟩ i) ∧
      (r ≠ npos → MatchesAt ⟨[97, 0xC3, 0xA9, 44, 98, 0xC3, 0xA9, 44, 99, 0], 10, 7⟩
          ⟨[0xC3, 0xA9, 44, 0], 4, 2⟩ r ∧
        ∀ i, r < i → ¬ MatchesAt ⟨[97, 0xC3, 0xA9, 44, 98, 0xC3, 0xA9, 44, 99, 0], 10, 7⟩
          ⟨[0xC3, 0xA9, 44, 0], 4, 2⟩ i) ∧
      ((⟨[0xC3, 0xA9, 44, 0], 4, 2⟩ : UTF8String).m_length >
          (⟨[97, 0xC3, 0xA9, 44, 98, 0xC3, 0xA9, 44, 99, 0], 10, 7⟩ : UTF8String).m_length →
        r = npos) :=
  ⟨by decide, by decide,
    find_last_greatest ⟨[97, 0xC3, 0xA9, 44, 98, 0xC3, 0xA9, 44, 99, 0], 10, 7⟩
      ⟨[0xC3, 0xA9, 44, 0], 4, 2⟩ (by decide) (by decide)⟩

/-- C14: for all well-formed strings `s` and `sub`, `s.ends_with( sub )` returns, and it
returns true if and only if `sub` has no more symbols than `s` and symbol `i` of `sub`
is symbol `s.m_length - sub.m_length + i` of `s` for every `i` below the symbol length
of `sub`; so the concatenation of `s` and `sub` ends with `sub`. -/
theorem ends_with_iff (s sub : UTF8String) (hs : WellFormed s) (hsub : WellFormed sub) :
    (∃ b, s.ends_with sub = .ok b ∧
      (b = true ↔ sub.m_length ≤ s.m_length ∧
        ∀ i, i < sub.m_length →
          sub.get_symbol i = s.get_symbol (s.m_length - sub.m_length + i))) ∧
    (∀ r, s.concatenate sub = .ok r → Inv r → r.ends_with sub = .ok true) := by
  have hvx := hs.valid
  have hrx := hs.rep_eq
  have hvd := hsub.valid
  have hrd := hsub.rep_eq
  generalize syms s = xs at hvx hrx
  generalize syms sub = ds at hvd hrd
  subst hrx hrd
  have hiff := matchesAt_of_symbols xs ds hvx hvd (xs.length - ds.length)
  have hsl : (of_symbols ds).m_length = ds.length := rfl
  have hxl : (of_symbols xs).m_length = xs.length := rfl
  refine ⟨⟨_, ends_with_of_symbols xs ds hvx hvd, ?_⟩, ?_⟩
  · rw [decide_eq_true_iff, hsl, hxl]
    constructor
    · rintro ⟨hle, hdrop⟩
      obtain ⟨_, h2⟩ := hiff.mpr ⟨by omega, by rw [hdrop, List.take_length]⟩
      exact ⟨hle, fun i hi => (h2 i hi).symm⟩
    · rintro ⟨hle, hall⟩
      have := (hiff.mp ⟨by rw [hsl, hxl]; omega, fun j hj => (hall j hj).symm⟩).2
      rw [List.take_of_length_le (by rw [List.length_drop]; omega)] at this
      exact ⟨hle, this⟩
  · intro r hr hinv
    rw [concatenate_of_symbols xs ds hvx hvd] at hr
    have hr2 : of_symbols (xs ++ ds) = r := Except.ok.inj hr
    subst hr2
    rw [ends_with_of_symbols (xs ++ ds) ds (valid_append_of_inv xs ds hvx hvd hinv) hvd]
    simp

/-- An instance of C14: `"b,é"` and its end `",é"`. -/
theorem ends_with_iff_witness :
    WellFormed ⟨[98, 44, 0xC3, 0xA9, 0], 5, 3⟩ ∧ WellFormed ⟨[44, 0xC3, 0xA9, 0], 4, 2⟩ ∧
    (∃ b, ends_with ⟨[98, 44, 0xC3, 0xA9, 0], 5, 3⟩ ⟨[44, 0xC3, 0xA9, 0], 4, 2⟩ = .ok b ∧
      (b = true ↔ (⟨[44, 0xC3, 0xA9, 0], 4, 2⟩ : UTF8String).m_length ≤
          (⟨[98, 44, 0xC3, 0xA9, 0], 5, 3⟩ : UTF8String).m_length ∧
        ∀ i, i < (⟨[44, 0xC3, 0xA9, 0], 4, 2⟩ : UTF8String).m_length →
          get_symbol ⟨[44, 0xC3, 0xA9, 0], 4, 2⟩ i =
            get_symbol ⟨[98, 44, 0xC3, 0xA9, 0], 5, 3⟩
              ((⟨[98, 44, 0xC3, 0xA9, 0], 5, 3⟩ : UTF8String).m_length -
                (⟨[44, 0xC3, 0xA9, 0], 4, 2⟩ : UTF8String).m_length + i))) :=
  ⟨by decide, by decide,
    (ends_with_iff ⟨[98, 44, 0xC3, 0xA9, 0], 5, 3⟩ ⟨[44, 0xC3, 0xA9, 0], 4, 2⟩
      (by decide) (by decide)).1⟩

/-! ## Conversions (C18 to C20) -/

/-- C18: for every string `s` whose symbol runs are all complete (none is cut short by
the terminator), `is_int` and `is_uint` return; `to_bool`, `to_int32` and `to_int64`
throw `ConversionDataError` if and only if `s.is_int()` is false, and `to_uint32` and
`to_uint64` throw it if and only if `s.is_uint()` is false; otherwise each returns a
value.  (The five are `const` member functions: they have no other outcome than the
value or the exception, the receiver is an input only.)  `is_int` and `is_uint` read
every symbol of `s`; with complete runs each read stays inside the buffer. -/
theorem conversion_errors (s : UTF8String) (hs : Inv s ∧ Aligned s) :
    (∃ b, s.is_int = .ok b ∧
      (s.to_bool = .error .ConversionDataError ↔ b = false) ∧
      (s.to_int32 = .error .ConversionDataError ↔ b = false) ∧
      (s.to_int64 = .error .ConversionDataError ↔ b = false) ∧
      (b = true → (∃ v, s.to_bool = .ok v) ∧ (∃ v, s.to_int32 = .ok v) ∧
        (∃ v, s.to_int64 = .ok v))) ∧
    (∃ u, s.is_uint = .ok u ∧
      (s.to_uint32 = .error .ConversionDataError ↔ u = false) ∧
      (s.to_uint64 = .error .ConversionDataError ↔ u = false) ∧
      (u = true → (∃ v, s.to_uint32 = .ok v) ∧ (∃ v, s.to_uint64 = .ok v))) := by
  have h := hs.1.2.2.2
  obtain ⟨b, hb⟩ := is_int_total s h
  obtain ⟨u, hu⟩ := is_uint_total s h
  obtain ⟨t, ht⟩ := to_bool_loop_total s h s.get_length 0 (by simp [get_length])
  refine ⟨⟨b, hb, ?_⟩, ⟨u, hu, ?_⟩⟩
  · cases b
    · simp [to_bool, to_int32, to_int64, hb, bind, Except.bind]
    · simp [to_bool, to_int32, to_int64, hb, ht, bind, Except.bind, pure, Except.pure]
  · cases u
    · simp [to_uint32, to_uint64, hu, bind, Except.bind]
    · simp [to_uint32, to_uint64, hu, bind, Except.bind, pure, Except.pure]

/-- An instance of C18: the string `"1é"`, a digit followed by a two-byte symbol. -/
theorem conversion_errors_witness :
    (Inv ⟨[49, 0xC3, 0xA9, 0], 4, 2⟩ ∧ Aligned ⟨[49, 0xC3, 0xA9, 0], 4, 2⟩) ∧
    (∃ b, is_int ⟨[49, 0xC3, 0xA9, 0], 4, 2⟩ = .ok b ∧
      (to_bool ⟨[49, 0xC3, 0xA9, 0], 4, 2⟩ = .error .ConversionDataError ↔ b = false) ∧
      (to_int32 ⟨[49, 0xC3, 0xA9, 0], 4, 2⟩ = .error .ConversionDataError ↔ b = false) ∧
      (to_int64 ⟨[49, 0xC3, 0xA9, 0], 4, 2⟩ = .error .ConversionDataError ↔ b = false) ∧
      (b = true → (∃ v, to_bool ⟨[49, 0xC3, 0xA9, 0], 4, 2⟩ = .ok v) ∧
        (∃ v, to_int32 ⟨[49, 0xC3, 0xA9, 0], 4, 2⟩ = .ok v) ∧
        (∃ v, to_int64 ⟨[49, 0xC3, 0xA9, 0], 4, 2⟩ = .ok v))) :=
  ⟨by decide, (conversion_errors ⟨[49, 0xC3, 0xA9, 0], 4, 2⟩ (by decide)).1⟩

/-- C20: for every string `s` for which `s.is_int()` is true, `s.to_bool()` returns, and
it returns false if and only if every symbol of `s` is the one-character string `"0"`.
So `"0"` and `"000"` give false, while `"10"`, `"-0"` and `"-"` give true. -/
theorem to_bool_false_iff (s : UTF8String) (hs : Inv s) (hint : s.is_int = .ok true) :
    (∃ b, s.to_bool = .ok b ∧
      (b = false ↔ ∀ i, i < s.m_length → s.get_symbol i = .ok ⟨[48, 0], 2, 1⟩)) ∧
    (to_bool ⟨[48, 0], 2, 1⟩ = .ok false ∧ to_bool ⟨[48, 48, 48, 0], 4, 3⟩ = .ok false ∧
      to_bool ⟨[49, 48, 0], 3, 2⟩ = .ok true ∧ to_bool ⟨[45, 48, 0], 3, 2⟩ = .ok true ∧
      to_bool ⟨[45, 0], 2, 1⟩ = .ok true) := by
  refine ⟨?_, by decide⟩
  obtain ⟨b, hb, hspec⟩ := to_bool_loop_spec s hs s.m_length 0 (by omega)
  refine ⟨b, ?_, ?_⟩
  · simp [to_bool, hint, bind, Except.bind, get_length, hb]
  · rw [hspec]
    constructor
    · intro hall i hi
      exact hall i (Nat.zero_le _) (by omega)
    · intro hall j _ hj
      exact hall j (by omega)

/-- An instance of C20: the string `"00"`. -/
theorem to_bool_false_iff_witness :
    Inv ⟨[48, 48, 0], 3, 2⟩ ∧ is_int ⟨[48, 48, 0], 3, 2⟩ = .ok true ∧
    ∃ b, to_bool ⟨[48, 48, 0], 3, 2⟩ = .ok b ∧
      (b = false ↔ ∀ i, i < (⟨[48, 48, 0], 3, 2⟩ : UTF8String).m_length →
        get_symbol ⟨[48, 48, 0], 3, 2⟩ i = .ok ⟨[48, 0], 2, 1⟩) :=
  ⟨by decide, by decide,
    (to_bool_false_iff ⟨[48, 48, 0], 3, 2⟩ (by decide) (by decide)).1⟩


/-! ## Numeric predicates (C15 to C17) -/

/-- C15: for a well-formed string `s`, `is_int` returns, and it returns true exactly when
`s` is not empty, symbol 0 is `"-"` or has a code point from `'0'` to `'9'`, and every
later symbol has a code point from `'0'` to `'9'`; `"-123"` is an int and `"12.3"` is
not. -/
theorem is_int_iff (s : UTF8String) (hs : WellFormed s) :
    (∃ b, s.is_int = .ok b ∧
      (b = true ↔
        s.is_empty = false ∧
        (s.get_symbol 0 = .ok ⟨[45, 0], 2, 1⟩ ∨
          ∃ c, s.get_code_point 0 = .ok c ∧ 48 ≤ c ∧ c ≤ 57) ∧
        ∀ i, 0 < i → i < s.m_length →
          ∃ c, s.get_code_point i = .ok c ∧ 48 ≤ c ∧ c ≤ 57)) ∧
    (is_int ⟨[45, 49, 50, 51, 0], 5, 4⟩ = .ok true ∧
      is_int ⟨[49, 50, 46, 51, 0], 5, 4⟩ = .ok false) := by
  refine ⟨?_, by decide, by decide⟩
  have hinv : Inv s := hs.1
  obtain ⟨b, hb, hspec⟩ := is_int_loop_spec s hinv s.m_length 0 (by omega)
  have hdig : ∀ c, is_digit c = true ↔ 48 ≤ c ∧ c ≤ 57 := by
    intro c; simp [is_digit]
  by_cases hemp : s.is_empty = true
  · refine ⟨false, ?_, by simp [hemp]⟩
    unfold is_int
    simp only [hb, bind, Except.bind, hemp, pure, Except.pure, Bool.not_true, ite_self]
  · have hemp2 : s.is_empty = false := by simpa using hemp
    have hpos : 1 ≤ s.m_length := hinv.length_pos hemp2
    refine ⟨b, ?_, ?_⟩
    · unfold is_int
      simp only [hb, bind, Except.bind, hemp2, pure, Except.pure, Bool.not_false]
      cases b <;> rfl
    · rw [hspec]
      constructor
      · intro hall
        refine ⟨hemp2, ?_, ?_⟩
        · rcases hall 0 (le_refl _) (by omega) with ⟨_, h⟩ | ⟨c, hc, hd⟩
          · exact Or.inl h
          · exact Or.inr ⟨c, hc, (hdig c).mp hd⟩
        · intro i hi0 hi
          rcases hall i (by omega) (by omega) with ⟨h, _⟩ | ⟨c, hc, hd⟩
          · omega
          · exact ⟨c, hc, (hdig c).mp hd⟩
      · rintro ⟨_, h0, hrest⟩ j _ hj
        by_cases hj0 : j = 0
        · rw [hj0]
          rcases h0 with h | ⟨c, hc, hd⟩
          · exact Or.inl ⟨rfl, h⟩
          · exact Or.inr ⟨c, hc, (hdig c).mpr hd⟩
        · obtain ⟨c, hc, hd⟩ := hrest j (by omega) (by omega)
          exact Or.inr ⟨c, hc, (hdig c).mpr hd⟩

/-- An instance of C15: the string `"-12"`. -/
theorem is_int_iff_witness :
    WellFormed ⟨[45, 49, 50, 0], 4, 3⟩ ∧
    ∃ b, is_int ⟨[45, 49, 50, 0], 4, 3⟩ = .ok b ∧
      (b = true ↔
        is_empty ⟨[45, 49, 50, 0], 4, 3⟩ = false ∧
        (get_symbol ⟨[45, 49, 50, 0], 4, 3⟩ 0 = .ok ⟨[45, 0], 2, 1⟩ ∨
          ∃ c, get_code_point ⟨[45, 49, 50, 0], 4, 3⟩ 0 = .ok c ∧ 48 ≤ c ∧ c ≤ 57) ∧
        ∀ i, 0 < i → i < (⟨[45, 49, 50, 0], 4, 3⟩ : UTF8String).m_length →
          ∃ c, get_code_point ⟨[45, 49, 50, 0], 4, 3⟩ i = .ok c ∧ 48 ≤ c ∧ c ≤ 57) :=
  ⟨by decide, (is_int_iff ⟨[45, 49, 50, 0], 4, 3⟩ (by decide)).1⟩

/-- C16: for a well-formed string `s`, `is_uint` returns, and it returns true exactly
when `s` is not empty and every symbol of `s` is a one-character string whose character
is a decimal digit from `'0'` to `'9'`. -/
theorem is_uint_iff (s : UTF8String) (hs : WellFormed s) :
    ∃ b, s.is_uint = .ok b ∧
      (b = true ↔
        s.is_empty = false ∧
        ∀ i, i < s.m_length →
          ∃ d, 48 ≤ d ∧ d ≤ 57 ∧ s.get_symbol i = .ok ⟨[d, 0], 2, 1⟩) := by
  obtain ⟨b, hb, hspec⟩ := is_uint_loop_spec s hs s.m_length 0 (by omega)
  have hconv : ∀ i, i < s.m_length →
      (is_digit (symbol_value ((syms s).getD i [])) = true ↔
        ∃ d, 48 ≤ d ∧ d ≤ 57 ∧ s.get_symbol i = .ok ⟨[d, 0], 2, 1⟩) := by
    intro i hi
    have hv : ValidSymbol ((syms s).getD i []) :=
      (syms_getD_valid s hs i hi).1 _ (List.mem_singleton.mpr rfl)
    rw [digit_symbol _ hv]
    constructor
    · rintro ⟨d, h1, h2, h3⟩
      exact ⟨d, h2, h3, (get_symbol_char_iff s hs i hi d).mpr h1⟩
    · rintro ⟨d, h2, h3, h1⟩
      exact ⟨d, (get_symbol_char_iff s hs i hi d).mp h1, h2, h3⟩
  by_cases hemp : s.is_empty = true
  · refine ⟨false, ?_, by simp [hemp]⟩
    unfold is_uint
    simp only [hb, bind, Except.bind, hemp, pure, Except.pure, Bool.not_true, ite_self]
  · have hemp2 : s.is_empty = false := by simpa using hemp
    refine ⟨b, ?_, ?_⟩
    · unfold is_uint
      simp only [hb, bind, Except.bind, hemp2, pure, Except.pure, Bool.not_false]
      cases b <;> rfl
    · rw [hspec]
      constructor
      · intro hall
        exact ⟨hemp2, fun i hi => (hconv i hi).mp (hall i (Nat.zero_le _) (by omega))⟩
      · rintro ⟨_, hall⟩ j _ hj
        exact (hconv j (by omega)).mpr (hall j (by omega))

/-- An instance of C16: the string `"42"`. -/
theorem is_uint_iff_witness :
    WellFormed ⟨[52, 50, 0], 3, 2⟩ ∧
    ∃ b, is_uint ⟨[52, 50, 0], 3, 2⟩ = .ok b ∧
      (b = true ↔
        is_empty ⟨[52, 50, 0], 3, 2⟩ = false ∧
        ∀ i, i < (⟨[52, 50, 0], 3, 2⟩ : UTF8String).m_length →
          ∃ d, 48 ≤ d ∧ d ≤ 57 ∧
            get_symbol ⟨[52, 50, 0], 3, 2⟩ i = .ok ⟨[d, 0], 2, 1⟩) :=
  ⟨by decide, is_uint_iff ⟨[52, 50, 0], 3, 2⟩ (by decide)⟩

/-- C17, as stated, fails: the well-formed string `"123"` holds no `'.'` at all, and
`is_float` returns true for it. -/
theorem is_float_without_point :
    WellFormed ⟨[49, 50, 51, 0], 4, 3⟩ ∧
    is_float ⟨[49, 50, 51, 0], 4, 3⟩ = .ok true ∧
    (∀ i, i < 3 → get_symbol ⟨[49, 50, 51, 0], 4, 3⟩ i ≠ .ok ⟨[46, 0], 2, 1⟩) ∧
    (content ⟨[49, 50, 51, 0], 4, 3⟩).count 46 = 0 := by
  decide

/-- C17, amended: for a well-formed string `s`, `is_float` returns, and it returns true
exactly when `s` is not empty, `s` holds at most one `"."`, symbol 0 is `"-"`, `"."` or a
decimal digit, and every other symbol is `"."` or a decimal digit. -/
theorem is_float_iff (s : UTF8String) (hs : WellFormed s) :
    ∃ b, s.is_float = .ok b ∧
      (b = true ↔
        s.is_empty = false ∧
        (∀ i j, i < s.m_length → j < s.m_length →
          s.get_symbol i = .ok ⟨[46, 0], 2, 1⟩ → s.get_symbol j = .ok ⟨[46, 0], 2, 1⟩ →
          i = j) ∧
        (s.get_symbol 0 = .ok ⟨[45, 0], 2, 1⟩ ∨ s.get_symbol 0 = .ok ⟨[46, 0], 2, 1⟩ ∨
          ∃ d, 48 ≤ d ∧ d ≤ 57 ∧ s.get_symbol 0 = .ok ⟨[d, 0], 2, 1⟩) ∧
        ∀ i, 0 < i → i < s.m_length →
          s.get_symbol i = .ok ⟨[46, 0], 2, 1⟩ ∨
            ∃ d, 48 ≤ d ∧ d ≤ 57 ∧ s.get_symbol i = .ok ⟨[d, 0], 2, 1⟩) := by
  obtain ⟨b, hb, hspec⟩ := is_float_loop_spec s hs
    (fun i n pf =>
      (∀ j, i ≤ j → j < i + n →
        is_digit (symbol_value ((syms s).getD j [])) = true ∨
          (j = 0 ∧ (syms s).getD j [] = [45]) ∨ (syms s).getD j [] = [46]) ∧
      (∀ j k, i ≤ j → j < i + n → i ≤ k → k < i + n →
        (syms s).getD j [] = [46] → (syms s).getD k [] = [46] → j = k) ∧
      (pf = true → ∀ j, i ≤ j → j < i + n → (syms s).getD j [] ≠ [46]))
    (fun _ _ _ => Iff.rfl) s.m_length 0 false (by omega)
  have hchar := get_symbol_char_iff s hs
  have hconv : ∀ i, i < s.m_length →
      (is_digit (symbol_value ((syms s).getD i [])) = true ↔
        ∃ d, 48 ≤ d ∧ d ≤ 57 ∧ s.get_symbol i = .ok ⟨[d, 0], 2, 1⟩) := by
    intro i hi
    have hv : ValidSymbol ((syms s).getD i []) :=
      (syms_getD_valid s hs i hi).1 _ (List.mem_singleton.mpr rfl)
    rw [digit_symbol _ hv]
    constructor
    · rintro ⟨d, h1, h2, h3⟩
      exact ⟨d, h2, h3, (hchar i hi d).mpr h1⟩
    · rintro ⟨d, h2, h3, h1⟩
      exact ⟨d, (hchar i hi d).mp h1, h2, h3⟩
  by_cases hemp : s.is_empty = true
  · refine ⟨false, ?_, by simp [hemp]⟩
    unfold is_float
    simp only [hb, bind, Except.bind, hemp, pure, Except.pure, Bool.not_true, ite_self]
  · have hemp2 : s.is_empty = false := by simpa using hemp
    have hpos : 1 ≤ s.m_length := hs.1.length_pos hemp2
    refine ⟨b, ?_, ?_⟩
    · unfold is_float
      simp only [hb, bind, Except.bind, hemp2, pure, Except.pure, Bool.not_false]
      cases b <;> rfl
    · rw [hspec]
      constructor
      · rintro ⟨hA, hB, _⟩
        refine ⟨hemp2, ?_, ?_, ?_⟩
        · intro i j hi hj ei ej
          exact hB i j (Nat.zero_le _) (by omega) (Nat.zero_le _) (by omega)
            ((hchar i hi 46).mp ei) ((hchar j hj 46).mp ej)
        · rcases hA 0 (le_refl _) (by omega) with h | ⟨_, h⟩ | h
          · exact Or.inr (Or.inr ((hconv 0 (by omega)).mp h))
          · exact Or.inl ((hchar 0 (by omega) 45).mpr h)
          · exact Or.inr (Or.inl ((hchar 0 (by omega) 46).mpr h))
        · intro i hi0 hi
          rcases hA i (Nat.zero_le _) (by omega) with h | ⟨h, _⟩ | h
          · exact Or.inr ((hconv i hi).mp h)
          · omega
          · exact Or.inl ((hchar i hi 46).mpr h)
      · rintro ⟨_, hB, h0, hrest⟩
        refine ⟨?_, ?_, ?_⟩
        · intro j _ hj
          have hj2 : j < s.m_length := by omega
          by_cases hj0 : j = 0
          · subst hj0
            rcases h0 with h | h | h
            · exact Or.inr (Or.inl ⟨rfl, (hchar 0 hj2 45).mp h⟩)
            · exact Or.inr (Or.inr ((hchar 0 hj2 46).mp h))
            · exact Or.inl ((hconv 0 hj2).mpr h)
          · rcases hrest j (by omega) hj2 with h | h
            · exact Or.inr (Or.inr ((hchar j hj2 46).mp h))
            · exact Or.inl ((hconv j hj2).mpr h)
        · intro j l _ hj _ hl ej el
          exact hB j l (by omega) (by omega) ((hchar j (by omega) 46).mpr ej)
            ((hchar l (by omega) 46).mpr el)
        · intro h; cases h

/-- An instance of the amended C17: the string `"-1.5"`. -/
theorem is_float_iff_witness :
    WellFormed ⟨[45, 49, 46, 53, 0], 5, 4⟩ ∧
    ∃ b, is_float ⟨[45, 49, 46, 53, 0], 5, 4⟩ = .ok b ∧
      (b = true ↔
        is_empty ⟨[45, 49, 46, 53, 0], 5, 4⟩ = false ∧
        (∀ i j, i < (⟨[45, 49, 46, 53, 0], 5, 4⟩ : UTF8String).m_length →
          j < (⟨[45, 49, 46, 53, 0], 5, 4⟩ : UTF8String).m_length →
          get_symbol ⟨[45, 49, 46, 53, 0], 5, 4⟩ i = .ok ⟨[46, 0], 2, 1⟩ →
          get_symbol ⟨[45, 49, 46, 53, 0], 5, 4⟩ j = .ok ⟨[46, 0], 2, 1⟩ → i = j) ∧
        (get_symbol ⟨[45, 49, 46, 53, 0], 5, 4⟩ 0 = .ok ⟨[45, 0], 2, 1⟩ ∨
          get_symbol ⟨[45, 49, 46, 53, 0], 5, 4⟩ 0 = .ok ⟨[46, 0], 2, 1⟩ ∨
          ∃ d, 48 ≤ d ∧ d ≤ 57 ∧
            get_symbol ⟨[45, 49, 46, 53, 0], 5, 4⟩ 0 = .ok ⟨[d, 0], 2, 1⟩) ∧
        ∀ i, 0 < i → i < (⟨[45, 49, 46, 53, 0], 5, 4⟩ : UTF8String).m_length →
          get_symbol ⟨[45, 49, 46, 53, 0], 5, 4⟩ i = .ok ⟨[46, 0], 2, 1⟩ ∨
            ∃ d, 48 ≤ d ∧ d ≤ 57 ∧
              get_symbol ⟨[45, 49, 46, 53, 0], 5, 4⟩ i = .ok ⟨[d, 0], 2, 1⟩) :=
  ⟨by decide, is_float_iff ⟨[45, 49, 46, 53, 0], 5, 4⟩ (by decide)⟩

/-! ## The value of `to_int32` (C19) -/

/-- C19 fails on a leading zero: `UTF8String("010")` is well formed, `is_int` is true for
it and its decimal value 10 fits in 32 bits, yet `to_int32` returns 8, because `strtol` is
called with base 0 and reads a leading `0` as the mark of an octal number; for the same
reason `"08"`, of decimal value 8, gives 0.  The example of the claim, `"-123"`, does
give -123. -/
theorem to_int32_leading_zero :
    (of_cstr [48, 49, 48, 0] = .ok ⟨[48, 49, 48, 0], 4, 3⟩ ∧
      WellFormed ⟨[48, 49, 48, 0], 4, 3⟩ ∧
      is_int ⟨[48, 49, 48, 0], 4, 3⟩ = .ok true ∧
      spec_decimal_value (content ⟨[48, 49, 48, 0], 4, 3⟩) = 10 ∧
      to_int32 ⟨[48, 49, 48, 0], 4, 3⟩ = .ok 8) ∧
    (is_int ⟨[48, 56, 0], 3, 2⟩ = .ok true ∧
      spec_decimal_value (content ⟨[48, 56, 0], 3, 2⟩) = 8 ∧
      to_int32 ⟨[48, 56, 0], 3, 2⟩ = .ok 0) ∧
    (is_int ⟨[45, 49, 50, 51, 0], 5, 4⟩ = .ok true ∧
      spec_decimal_value (content ⟨[45, 49, 50, 51, 0], 5, 4⟩) = -123 ∧
      to_int32 ⟨[45, 49, 50, 51, 0], 5, 4⟩ = .ok (-123)) := by
  decide

/-! ## Symbol indices out of range (C21) -/

/-- C21: for every string `s` whose symbol runs are all complete (none is cut short by
the terminator) and every index `i`, each of `get_symbol`, `get_symbol_value`,
`get_code_point`, `get_symbol_width` and `get_byte_index_for_symbol_index` throws
`IndexOutOfBoundsError` if and only if `i` is at least the symbol length of `s`, and
returns a value for every smaller `i`; on the empty string every index is out of
bounds.  With complete runs the bytes of symbol `i` all lie inside the buffer, so the
reads of `get_symbol`, `get_symbol_value` and `get_code_point` are reads of stored
bytes. -/
theorem symbol_index_errors (s : UTF8String) (hs : Inv s ∧ Aligned s) (i : Nat) :
    ((s.get_symbol i = .error .IndexOutOfBoundsError ↔ s.m_length ≤ i) ∧
      (i < s.m_length → ∃ r, s.get_symbol i = .ok r)) ∧
    ((s.get_symbol_value i = .error .IndexOutOfBoundsError ↔ s.m_length ≤ i) ∧
      (i < s.m_length → ∃ r, s.get_symbol_value i = .ok r)) ∧
    ((s.get_code_point i = .error .IndexOutOfBoundsError ↔ s.m_length ≤ i) ∧
      (i < s.m_length → ∃ r, s.get_code_point i = .ok r)) ∧
    ((s.get_symbol_width i = .error .IndexOutOfBoundsError ↔ s.m_length ≤ i) ∧
      (i < s.m_length → ∃ r, s.get_symbol_width i = .ok r)) ∧
    ((s.get_byte_index_for_symbol_index i = .error .IndexOutOfBoundsError ↔
        s.m_length ≤ i) ∧
      (i < s.m_length → ∃ r, s.get_byte_index_for_symbol_index i = .ok r)) ∧
    (s.is_empty = true → s.m_length ≤ i) := by
  have hinv : Inv s := hs.1
  have hout := symbol_index_out_of_range s i
  have key : ∀ {α : Type} (f : Except Error α), (s.m_length ≤ i → f = .error .IndexOutOfBoundsError) →
      (i < s.m_length → ∃ r, f = .ok r) →
      ((f = .error .IndexOutOfBoundsError ↔ s.m_length ≤ i) ∧
        (i < s.m_length → ∃ r, f = .ok r)) := by
    intro α f h1 h2
    refine ⟨⟨fun he => ?_, h1⟩, h2⟩
    by_contra hlt
    obtain ⟨r, hr⟩ := h2 (by omega)
    rw [hr] at he
    cases he
  refine ⟨key _ (fun h => (hout h).1) (get_symbol_total s hinv.2.2.2 i),
    key _ (fun h => (hout h).2.1) (get_symbol_value_total s hinv.2.2.2 i),
    key _ (fun h => (hout h).2.2.1) (get_code_point_total s hinv.2.2.2 i),
    key _ (fun h => (hout h).2.2.2.1) (get_symbol_width_total s hinv.2.2.2 i),
    key _ (fun h => (hout h).2.2.2.2)
      (fun h => (get_byte_index_total s hinv.2.2.2 i h).imp fun _ hb => hb.1), ?_⟩
  intro he
  rw [hinv.empty_length he]
  exact Nat.zero_le _

/-- An instance of C21: the string `"é,"` at index 2, its symbol length, and at index 0,
its two-byte symbol. -/
theorem symbol_index_errors_witness :
    (Inv ⟨[0xC3, 0xA9, 44, 0], 4, 2⟩ ∧ Aligned ⟨[0xC3, 0xA9, 44, 0], 4, 2⟩) ∧
    (get_symbol ⟨[0xC3, 0xA9, 44, 0], 4, 2⟩ 2 = .error .IndexOutOfBoundsError ↔
      (⟨[0xC3, 0xA9, 44, 0], 4, 2⟩ : UTF8String).m_length ≤ 2) ∧
    (0 < (⟨[0xC3, 0xA9, 44, 0], 4, 2⟩ : UTF8String).m_length →
      ∃ r, get_symbol ⟨[0xC3, 0xA9, 44, 0], 4, 2⟩ 0 = .ok r) :=
  ⟨by decide, (symbol_index_errors ⟨[0xC3, 0xA9, 44, 0], 4, 2⟩ (by decide) 2).1.1,
    (symbol_index_errors ⟨[0xC3, 0xA9, 44, 0], 4, 2⟩ (by decide) 0).1.2⟩

/-! ## The stored state (C22 to C25) -/

/-- C22: every constructor (default, from a C string `data`, from `data` with a length
`n` within the readable bytes, copy) and every mutating operation (`assign` and
`operator=`, `concatenate`, `repeat` absent size overflow, `remove_duplicates` on
well-formed strings) returns and leaves a string whose buffer holds `m_data_length`
bytes, at least one, the last of which is zero; the default-constructed string has byte
length exactly 1. -/
theorem terminator_kept (data : List Nat) (n count : Nat) (o a b s sub : UTF8String)
    (hz : 0 ∈ data) (hn : n ≠ npos → n ≤ data.length)
    (ho : Inv o) (ha : Inv a) (hb : Inv b)
    (hsize : (a.m_data_length - 1) * count + 1 < npos)
    (hs : WellFormed s) (hsub : WellFormed sub) :
    (∃ r, new = .ok r ∧ Terminated r ∧ r.m_data_length = 1) ∧
    (∃ r, of_cstr data = .ok r ∧ Terminated r) ∧
    (∃ r, of_data data n = .ok r ∧ Terminated r) ∧
    (∃ r, assign o = .ok r ∧ Terminated r) ∧
    (∃ r, a.concatenate b = .ok r ∧ Terminated r) ∧
    (∃ r, a.repeat count = .ok r ∧ Terminated r) ∧
    (∃ r, s.remove_duplicates sub = .ok r ∧ Terminated r) := by
  have hread : if n = npos then 0 ∈ data else n ≤ data.length := by
    by_cases h : n = npos
    · rw [if_pos h]; exact hz
    · rw [if_neg h]; exact hn h
  refine ⟨⟨_, new_eq, by decide, rfl⟩, ?_, ?_, ?_, ?_, ?_, ?_⟩
  · obtain ⟨c, hc⟩ := assign_internal_stored data npos (by rw [if_pos rfl]; exact hz)
    exact ⟨_, hc, shape_terminated c⟩
  · obtain ⟨c, hc⟩ := assign_internal_stored data n hread
    exact ⟨_, hc, shape_terminated c⟩
  · obtain ⟨c, hc⟩ := assign_stored o ho
    exact ⟨_, hc, shape_terminated c⟩
  · obtain ⟨c, hc⟩ := concatenate_stored a b ha hb
    exact ⟨_, hc, shape_terminated c⟩
  · obtain ⟨c, hc⟩ := repeat_stored a count ha hsize
    exact ⟨_, hc, shape_terminated c⟩
  · obtain ⟨c, hc⟩ := remove_duplicates_stored s sub hs hsub
    exact ⟨_, hc, shape_terminated c⟩

/-- An instance of C22: the bytes `"é"` taken with length 2, which leaves the terminator
out, and strings with two-byte symbols. -/
theorem terminator_kept_witness :
    0 ∈ [0xC3, 0xA9, 0] ∧ ((2 : Nat) ≠ npos → 2 ≤ [0xC3, 0xA9, 0].length) ∧
    Inv ⟨[0xC3, 0xA9, 44, 0], 4, 2⟩ ∧ Inv ⟨[97, 0xC3, 0xA9, 0], 4, 2⟩ ∧
    Inv ⟨[44, 44, 0], 3, 2⟩ ∧
    ((⟨[97, 0xC3, 0xA9, 0], 4, 2⟩ : UTF8String).m_data_length - 1) * 3 + 1 < npos ∧
    WellFormed ⟨[44, 44, 0xC3, 0xA9, 0], 5, 3⟩ ∧ WellFormed ⟨[44, 0], 2, 1⟩ ∧
    (∃ r, of_data [0xC3, 0xA9, 0] 2 = .ok r ∧ Terminated r) ∧
    (∃ r, concatenate ⟨[97, 0xC3, 0xA9, 0], 4, 2⟩ ⟨[44, 44, 0], 3, 2⟩ = .ok r ∧
      Terminated r) :=
  ⟨by decide, fun _ => by decide, by decide, by decide, by decide, by decide, by decide,
    by decide,
    (terminator_kept [0xC3, 0xA9, 0] 2 3 ⟨[0xC3, 0xA9, 44, 0], 4, 2⟩
      ⟨[97, 0xC3, 0xA9, 0], 4, 2⟩ ⟨[44, 44, 0], 3, 2⟩ ⟨[44, 44, 0xC3, 0xA9, 0], 5, 3⟩
      ⟨[44, 0], 2, 1⟩ (by decide) (fun _ => by decide) (by decide) (by decide) (by decide)
      (by decide) (by decide) (by decide)).2.2.1,
    (terminator_kept [0xC3, 0xA9, 0] 2 3 ⟨[0xC3, 0xA9, 44, 0], 4, 2⟩
      ⟨[97, 0xC3, 0xA9, 0], 4, 2⟩ ⟨[44, 44, 0], 3, 2⟩ ⟨[44, 44, 0xC3, 0xA9, 0], 5, 3⟩
      ⟨[44, 0], 2, 1⟩ (by decide) (fun _ => by decide) (by decide) (by decide) (by decide)
      (by decide) (by decide) (by decide)).2.2.2.2.1⟩

/-- C23: after every constructor and every mutating operation (as in C22), the symbol
length is the number of steps of the byte-width walk from offset 0 to the terminator
(`Counted`); and when the bytes before the terminator are the concatenation of complete
sequences `xs`, as in well-formed UTF-8, it is the number of those sequences. -/
theorem symbol_length_counted (data : List Nat) (n count : Nat) (o a b s sub : UTF8String)
    (hz : 0 ∈ data) (hn : n ≠ npos → n ≤ data.length)
    (ho : Inv o) (ha : Inv a) (hb : Inv b)
    (hsize : (a.m_data_length - 1) * count + 1 < npos)
    (hs : WellFormed s) (hsub : WellFormed sub) :
    (∃ r, new = .ok r ∧ Counted r) ∧
    (∃ r, of_cstr data = .ok r ∧ Counted r) ∧
    (∃ r, of_data data n = .ok r ∧ Counted r) ∧
    (∃ r, assign o = .ok r ∧ Counted r) ∧
    (∃ r, a.concatenate b = .ok r ∧ Counted r) ∧
    (∃ r, a.repeat count = .ok r ∧ Counted r) ∧
    (∃ r, s.remove_duplicates sub = .ok r ∧ Counted r) ∧
    (∀ (t : UTF8String) (xs : List (List Nat)), Counted t → (∀ c ∈ xs, Complete c) →
      content t = xs.flatten → t.m_length = xs.length) := by
  have hread : if n = npos then 0 ∈ data else n ≤ data.length := by
    by_cases h : n = npos
    · rw [if_pos h]; exact hz
    · rw [if_neg h]; exact hn h
  refine ⟨⟨_, new_eq, by decide⟩, ?_, ?_, ?_, ?_, ?_, ?_, ?_⟩
  · obtain ⟨c, hc⟩ := assign_internal_stored data npos (by rw [if_pos rfl]; exact hz)
    exact ⟨_, hc, shape_counted c⟩
  · obtain ⟨c, hc⟩ := assign_internal_stored data n hread
    exact ⟨_, hc, shape_counted c⟩
  · obtain ⟨c, hc⟩ := assign_stored o ho
    exact ⟨_, hc, shape_counted c⟩
  · obtain ⟨c, hc⟩ := concatenate_stored a b ha hb
    exact ⟨_, hc, shape_counted c⟩
  · obtain ⟨c, hc⟩ := repeat_stored a count ha hsize
    exact ⟨_, hc, shape_counted c⟩
  · obtain ⟨c, hc⟩ := remove_duplicates_stored s sub hs hsub
    exact ⟨_, hc, shape_counted c⟩
  · intro t xs ht hxs hcont
    rw [ht.2, syms, hcont, symbols_of_complete xs hxs]

/-- An instance of C23: the same inputs as for C22. -/
theorem symbol_length_counted_witness :
    0 ∈ [0xC3, 0xA9, 0] ∧ ((2 : Nat) ≠ npos → 2 ≤ [0xC3, 0xA9, 0].length) ∧
    Inv ⟨[0xC3, 0xA9, 44, 0], 4, 2⟩ ∧ Inv ⟨[97, 0xC3, 0xA9, 0], 4, 2⟩ ∧
    Inv ⟨[44, 44, 0], 3, 2⟩ ∧
    ((⟨[97, 0xC3, 0xA9, 0], 4, 2⟩ : UTF8String).m_data_length - 1) * 3 + 1 < npos ∧
    WellFormed ⟨[44, 44, 0xC3, 0xA9, 0], 5, 3⟩ ∧ WellFormed ⟨[44, 0], 2, 1⟩ ∧
    (∃ r, «repeat» ⟨[97, 0xC3, 0xA9, 0], 4, 2⟩ 3 = .ok r ∧ Counted r) ∧
    (∃ r, remove_duplicates ⟨[44, 44, 0xC3, 0xA9, 0], 5, 3⟩ ⟨[44, 0], 2, 1⟩ = .ok r ∧
      Counted r) :=
  ⟨by decide, fun _ => by decide, by decide, by decide, by decide, by decide, by decide,
    by decide,
    (symbol_length_counted [0xC3, 0xA9, 0] 2 3 ⟨[0xC3, 0xA9, 44, 0], 4, 2⟩
      ⟨[97, 0xC3, 0xA9, 0], 4, 2⟩ ⟨[44, 44, 0], 3, 2⟩ ⟨[44, 44, 0xC3, 0xA9, 0], 5, 3⟩
      ⟨[44, 0], 2, 1⟩ (by decide) (fun _ => by decide) (by decide) (by decide) (by decide)
      (by decide) (by decide) (by decide)).2.2.2.2.2.1,
    (symbol_length_counted [0xC3, 0xA9, 0] 2 3 ⟨[0xC3, 0xA9, 44, 0], 4, 2⟩
      ⟨[97, 0xC3, 0xA9, 0], 4, 2⟩ ⟨[44, 44, 0], 3, 2⟩ ⟨[44, 44, 0xC3, 0xA9, 0], 5, 3⟩
      ⟨[44, 0], 2, 1⟩ (by decide) (fun _ => by decide) (by decide) (by decide) (by decide)
      (by decide) (by decide) (by decide)).2.2.2.2.2.2.1⟩

/-- C24: `assign( data, n )` (and the constructor of the same arguments) returns, and it
stores: for `n = npos`, the bytes of `data` up to and including its first zero byte,
which is at index `strlen( data )`; for `n > 0` with `data[ n - 1 ]` zero, exactly the
first `n` bytes; otherwise the first `n` bytes and one zero byte after them.  The
overload `assign( data )` is the case `n = npos`. -/
theorem assign_stores (data : List Nat) (n : Nat)
    (hread : if n = npos then 0 ∈ data else n ≤ data.length) :
    (∃ r, of_data data n = .ok r ∧
      (n = npos →
        (strlen data < data.length ∧ data[strlen data]? = some 0 ∧
          ∀ x ∈ data.take (strlen data), x ≠ 0) ∧
        r.m_data = data.take (strlen data + 1) ∧ r.m_data_length = strlen data + 1) ∧
      (n ≠ npos → 0 < n → data[n - 1]? = some 0 →
        r.m_data = data.take n ∧ r.m_data_length = n) ∧
      (n ≠ npos → (n = 0 ∨ data[n - 1]? ≠ some 0) →
        r.m_data = data.take n ++ [0] ∧ r.m_data_length = n + 1)) ∧
    of_cstr data = of_data data npos := by
  refine ⟨?_, rfl⟩
  by_cases hn : n = npos
  · rw [if_pos hn] at hread
    obtain ⟨h1, h2, h3, h4⟩ := strlen_spec data hread
    refine ⟨_, by rw [hn]; exact assign_internal_scan data hread, ?_, ?_, ?_⟩
    · intro _
      refine ⟨⟨h1, ?_, h3⟩, h4.symm, rfl⟩
      rw [List.getD_eq_getElem _ _ h1] at h2
      rw [List.getElem?_eq_getElem h1, h2]
    · intro h; exact absurd hn h
    · intro h; exact absurd hn h
  · rw [if_neg hn] at hread
    by_cases ht : 0 < n ∧ data.getD (n - 1) 0 = 0
    · refine ⟨_, assign_internal_terminated data n ht.1 hn hread ht.2, ?_, ?_, ?_⟩
      · intro h; exact absurd h hn
      · intro _ _ _; exact ⟨rfl, rfl⟩
      · rintro _ (h | h)
        · omega
        · exfalso
          apply h
          have hlt : n - 1 < data.length := by omega
          have := ht.2
          rw [List.getD_eq_getElem _ _ hlt] at this
          rw [List.getElem?_eq_getElem hlt, this]
    · refine ⟨_, assign_internal_unterminated data n hn hread ht, ?_, ?_, ?_⟩
      · intro h; exact absurd h hn
      · intro _ hpos h0
        exfalso
        apply ht
        refine ⟨hpos, ?_⟩
        rw [List.getD_eq_getElem?_getD, h0]
        rfl
      · intro _ _; exact ⟨rfl, rfl⟩

/-- An instance of C24: the bytes `"ab"` taken with length 2, so that a terminator is
appended. -/
theorem assign_stores_witness :
    (if (2 : Nat) = npos then 0 ∈ [97, 98, 0] else 2 ≤ [97, 98, 0].length) ∧
    ∃ r, of_data [97, 98, 0] 2 = .ok r ∧
      ((2 : Nat) = npos →
        (strlen [97, 98, 0] < [97, 98, 0].length ∧
          [97, 98, 0][strlen [97, 98, 0]]? = some 0 ∧
          ∀ x ∈ [97, 98, 0].take (strlen [97, 98, 0]), x ≠ 0) ∧
        r.m_data = [97, 98, 0].take (strlen [97, 98, 0] + 1) ∧
        r.m_data_length = strlen [97, 98, 0] + 1) ∧
      ((2 : Nat) ≠ npos → 0 < 2 → [97, 98, 0][2 - 1]? = some 0 →
        r.m_data = [97, 98, 0].take 2 ∧ r.m_data_length = 2) ∧
      ((2 : Nat) ≠ npos → ((2 : Nat) = 0 ∨ [97, 98, 0][2 - 1]? ≠ some 0) →
        r.m_data = [97, 98, 0].take 2 ++ [0] ∧ r.m_data_length = 2 + 1) :=
  ⟨by decide, (assign_stores [97, 98, 0] 2 (by decide)).1⟩

/-- C25: `a == b` holds if and only if the bytes of `a` and of `b` before their first zero
byte are the same; for strings with no zero byte before the terminator it holds if and
only if the byte lengths and the buffers are the same; and `a != b` is its negation. -/
theorem eq_iff_bytes (a b : UTF8String) (ha : Inv a) (hb : Inv b) :
    (a.eq b = true ↔
      a.m_data.take (strlen a.m_data) = b.m_data.take (strlen b.m_data)) ∧
    ((∀ x ∈ content a, x ≠ 0) → (∀ x ∈ content b, x ≠ 0) →
      (a.eq b = true ↔ a.m_data_length = b.m_data_length ∧ a.m_data = b.m_data)) ∧
    a.ne b = !a.eq b := by
  have htw : ∀ d : List Nat, d.takeWhile (fun c => c != 0) = d.take (strlen d) := by
    intro d
    exact List.prefix_iff_eq_take.mp (List.takeWhile_prefix _)
  refine ⟨?_, ?_, rfl⟩
  · simp only [eq, strcmp_eq, htw, beq_iff_eq]
  · intro hza hzb
    have hca : a.m_data.takeWhile (fun c => c != 0) = content a := by
      rw [ha.data_eq]
      exact takeWhile_content _ (fun x hx => Nat.pos_of_ne_zero (hza x hx))
    have hcb : b.m_data.takeWhile (fun c => c != 0) = content b := by
      rw [hb.data_eq]
      exact takeWhile_content _ (fun x hx => Nat.pos_of_ne_zero (hzb x hx))
    simp only [eq, strcmp_eq, hca, hcb, beq_iff_eq]
    constructor
    · intro h
      have h1 := ha.content_length
      have h2 := hb.content_length
      have h3 := ha.pos
      have h4 := hb.pos
      refine ⟨?_, by rw [ha.data_eq, hb.data_eq, h]⟩
      rw [h] at h1
      omega
    · rintro ⟨h1, h2⟩
      simp only [content, h1, h2]

/-- An instance of C25: `"é"` against `"é,"`. -/
theorem eq_iff_bytes_witness :
    Inv ⟨[0xC3, 0xA9, 0], 3, 1⟩ ∧ Inv ⟨[0xC3, 0xA9, 44, 0], 4, 2⟩ ∧
    (eq ⟨[0xC3, 0xA9, 0], 3, 1⟩ ⟨[0xC3, 0xA9, 44, 0], 4, 2⟩ = true ↔
      ([0xC3, 0xA9, 0] : List Nat).take (strlen [0xC3, 0xA9, 0]) =
        ([0xC3, 0xA9, 44, 0] : List Nat).take (strlen [0xC3, 0xA9, 44, 0])) :=
  ⟨by decide, by decide,
    (eq_iff_bytes ⟨[0xC3, 0xA9, 0], 3, 1⟩ ⟨[0xC3, 0xA9, 44, 0], 4, 2⟩ (by decide)
      (by decide)).1⟩

/-! ## Byte widths and byte indices (C29, C30) -/

/-- C29: `get_byte_width( b )` throws `IndexOutOfBoundsError` if and only if `b` is at
least the byte length; for a smaller `b` it returns a value that depends on the byte at
`b` alone: 1 for `0xxxxxxx`, 2 for `110xxxxx`, 3 for `1110xxxx` and 4 for every other
byte (`11110xxx`, `10xxxxxx`, `11111xxx`), so a value from 1 to 4. -/
theorem byte_width_classes (s t : UTF8String) (b : Nat) :
    (s.get_byte_width b = .error .IndexOutOfBoundsError ↔ s.m_data_length ≤ b) ∧
    (b < s.m_data_length →
      s.get_byte_width b = .ok (width_of_byte (s.m_data.getD b 0)) ∧
      (b < t.m_data_length → s.m_data.getD b 0 = t.m_data.getD b 0 →
        s.get_byte_width b = t.get_byte_width b)) ∧
    (∀ x, x < 256 →
      (x < 128 → width_of_byte x = 1) ∧
      (192 ≤ x → x < 224 → width_of_byte x = 2) ∧
      (224 ≤ x → x < 240 → width_of_byte x = 3) ∧
      (240 ≤ x → x < 248 → width_of_byte x = 4) ∧
      (128 ≤ x → x < 192 → width_of_byte x = 4) ∧
      (248 ≤ x → width_of_byte x = 4)) ∧
    (∀ x, 1 ≤ width_of_byte x ∧ width_of_byte x ≤ 4) := by
  refine ⟨?_, ?_, ?_, fun x => ⟨width_of_byte_pos x, width_of_byte_le x⟩⟩
  · by_cases h : s.m_data_length ≤ b
    · simp [get_byte_width, check_byte_index, h, bind, Except.bind]
    · have hlt : b < s.m_data_length := by omega
      rw [get_byte_width_ok s b hlt]
      simp [h]
  · intro hlt
    refine ⟨get_byte_width_ok s b hlt, ?_⟩
    intro ht hsame
    rw [get_byte_width_ok s b hlt, get_byte_width_ok t b ht, hsame]
  · exact width_of_byte_classes

/-- An instance of C29: the continuation byte at offset 1 of `"é"`, which is given
width 4. -/
theorem byte_width_classes_witness :
    (1 < (⟨[0xC3, 0xA9, 0], 3, 1⟩ : UTF8String).m_data_length →
      get_byte_width ⟨[0xC3, 0xA9, 0], 3, 1⟩ 1 =
        .ok (width_of_byte ((⟨[0xC3, 0xA9, 0], 3, 1⟩ : UTF8String).m_data.getD 1 0)) ∧
      (1 < (⟨[0xA9, 0xA9, 0], 3, 1⟩ : UTF8String).m_data_length →
        (⟨[0xC3, 0xA9, 0], 3, 1⟩ : UTF8String).m_data.getD 1 0 =
          (⟨[0xA9, 0xA9, 0], 3, 1⟩ : UTF8String).m_data.getD 1 0 →
        get_byte_width ⟨[0xC3, 0xA9, 0], 3, 1⟩ 1 =
          get_byte_width ⟨[0xA9, 0xA9, 0], 3, 1⟩ 1)) ∧
    get_byte_width ⟨[0xC3, 0xA9, 0], 3, 1⟩ 1 = .ok 4 :=
  ⟨(byte_width_classes ⟨[0xC3, 0xA9, 0], 3, 1⟩ ⟨[0xA9, 0xA9, 0], 3, 1⟩ 1).2.1, by decide⟩

/-- C30: for every string `s` and every `i` below its symbol length,
`get_byte_index_for_symbol_index( i )` returns the sum of the byte widths of symbols 0
to `i - 1` (`ws` lists them), which is 0 for `i = 0`, greater than the byte index of
every earlier symbol, and less than the byte length minus one; so the fall-through
return of `npos` is not reached. -/
theorem byte_index_sum (s : UTF8String) (hs : Inv s) (i : Nat) (hi : i < s.m_length) :
    ∃ b, s.get_byte_index_for_symbol_index i = .ok b ∧
      (∃ ws : List Nat, ws.length = i ∧
        (∀ j, j < i → s.get_symbol_width j = .ok (ws.getD j 0)) ∧ b = ws.sum) ∧
      (i = 0 → b = 0) ∧
      (∀ j, j < i → ∃ b', s.get_byte_index_for_symbol_index j = .ok b' ∧ b' < b) ∧
      b < s.m_data_length - 1 ∧ b ≠ npos := by
  obtain ⟨hb, hlt⟩ := get_byte_index_walk s hs i hi
  refine ⟨walk s i, hb, ?_, ?_, ?_, hlt, ?_⟩
  · refine ⟨(List.range i).map (fun j => width_of_byte (s.m_data.getD (walk s j) 0)),
      by simp, ?_, walk_sum s i⟩
    intro j hj
    rw [get_symbol_width_walk s hs j (by omega)]
    have hj2 : j < ((List.range i).map
        (fun j => width_of_byte (s.m_data.getD (walk s j) 0))).length := by simpa using hj
    rw [List.getD_eq_getElem _ _ hj2]
    simp
  · intro h0; rw [h0]; rfl
  · intro j hj
    exact ⟨walk s j, (get_byte_index_walk s hs j (by omega)).1, walk_lt s j i hj⟩
  · have := hs.2.1
    rw [PTRDIFF_MAX_eq] at this
    rw [npos_eq]
    omega

/-- An instance of C30: symbol 2 of `"aé세"`, at byte index 1 + 2. -/
theorem byte_index_sum_witness :
    Inv ⟨[97, 0xC3, 0xA9, 0xEC, 0x84, 0xB8, 0], 7, 3⟩ ∧
    2 < (⟨[97, 0xC3, 0xA9, 0xEC, 0x84, 0xB8, 0], 7, 3⟩ : UTF8String).m_length ∧
    (∃ b, get_byte_index_for_symbol_index ⟨[97, 0xC3, 0xA9, 0xEC, 0x84, 0xB8, 0], 7, 3⟩ 2 =
        .ok b ∧
      (∃ ws : List Nat, ws.length = 2 ∧
        (∀ j, j < 2 →
          get_symbol_width ⟨[97, 0xC3, 0xA9, 0xEC, 0x84, 0xB8, 0], 7, 3⟩ j =
            .ok (ws.getD j 0)) ∧ b = ws.sum) ∧
      ((2 : Nat) = 0 → b = 0) ∧
      (∀ j, j < 2 → ∃ b',
        get_byte_index_for_symbol_index ⟨[97, 0xC3, 0xA9, 0xEC, 0x84, 0xB8, 0], 7, 3⟩ j =
          .ok b' ∧ b' < b) ∧
      b < (⟨[97, 0xC3, 0xA9, 0xEC, 0x84, 0xB8, 0], 7, 3⟩ : UTF8String).m_data_length - 1 ∧
      b ≠ npos) ∧
    get_byte_index_for_symbol_index ⟨[97, 0xC3, 0xA9, 0xEC, 0x84, 0xB8, 0], 7, 3⟩ 2 = .ok 3 :=
  ⟨by decide, by decide,
    byte_index_sum ⟨[97, 0xC3, 0xA9, 0xEC, 0x84, 0xB8, 0], 7, 3⟩ (by decide) 2 (by decide),
    by decide⟩

/-! ## Ordering and the decoding of symbols (C26 to C28) -/

/-- C26: for all well-formed strings `a` and `b`, `a < b` returns, and it is true if and
only if the code points of `a` are lexicographically before those of `b`: either at
the first symbol index where the code points differ that of `a` is smaller, or the
code points agree at every index that both strings have and `a` has fewer symbols. -/
theorem lt_iff_lexicographic (a b : UTF8String) (ha : WellFormed a) (hb : WellFormed b) :
    ∃ r, a.lt b = .ok r ∧
      (r = true ↔
        (∃ k, k < a.m_length ∧ k < b.m_length ∧
          (∀ j, j < k → a.get_code_point j = b.get_code_point j) ∧
          ∃ x y, a.get_code_point k = .ok x ∧ b.get_code_point k = .ok y ∧ x < y) ∨
        ((∀ j, j < a.m_length → j < b.m_length →
            a.get_code_point j = b.get_code_point j) ∧
          a.m_length < b.m_length)) := by
  obtain ⟨r, hr, hspec⟩ := lt_loop_spec a b ha.1 hb.1 (min a.m_length b.m_length) 0
    (by omega)
  refine ⟨r, hr, ?_⟩
  rw [hspec]
  constructor
  · rintro (⟨k, _, h2, h3, h4, hex⟩ | ⟨h1, h2⟩)
    · exact Or.inl ⟨k, h2, h3, fun j hj => h4 j (Nat.zero_le _) hj, hex⟩
    · exact Or.inr ⟨fun j hj1 hj2 => h1 j (Nat.zero_le _) hj1 hj2, h2⟩
  · rintro (⟨k, h2, h3, h4, hex⟩ | ⟨h1, h2⟩)
    · exact Or.inl ⟨k, Nat.zero_le _, h2, h3, fun j _ hj => h4 j hj, hex⟩
    · exact Or.inr ⟨fun j _ hj1 hj2 => h1 j hj1 hj2, h2⟩

/-- An instance of C26: `"aé"` against `"a세"`, which differ at symbol 1. -/
theorem lt_iff_lexicographic_witness :
    WellFormed ⟨[97, 0xC3, 0xA9, 0], 4, 2⟩ ∧ WellFormed ⟨[97, 0xEC, 0x84, 0xB8, 0], 5, 2⟩ ∧
    (∃ r, lt ⟨[97, 0xC3, 0xA9, 0], 4, 2⟩ ⟨[97, 0xEC, 0x84, 0xB8, 0], 5, 2⟩ = .ok r ∧
      (r = true ↔
        (∃ k, k < (⟨[97, 0xC3, 0xA9, 0], 4, 2⟩ : UTF8String).m_length ∧
          k < (⟨[97, 0xEC, 0x84, 0xB8, 0], 5, 2⟩ : UTF8String).m_length ∧
          (∀ j, j < k → get_code_point ⟨[97, 0xC3, 0xA9, 0], 4, 2⟩ j =
            get_code_point ⟨[97, 0xEC, 0x84, 0xB8, 0], 5, 2⟩ j) ∧
          ∃ x y, get_code_point ⟨[97, 0xC3, 0xA9, 0], 4, 2⟩ k = .ok x ∧
            get_code_point ⟨[97, 0xEC, 0x84, 0xB8, 0], 5, 2⟩ k = .ok y ∧ x < y) ∨
        ((∀ j, j < (⟨[97, 0xC3, 0xA9, 0], 4, 2⟩ : UTF8String).m_length →
            j < (⟨[97, 0xEC, 0x84, 0xB8, 0], 5, 2⟩ : UTF8String).m_length →
            get_code_point ⟨[97, 0xC3, 0xA9, 0], 4, 2⟩ j =
              get_code_point ⟨[97, 0xEC, 0x84, 0xB8, 0], 5, 2⟩ j) ∧
          (⟨[97, 0xC3, 0xA9, 0], 4, 2⟩ : UTF8String).m_length <
            (⟨[97, 0xEC, 0x84, 0xB8, 0], 5, 2⟩ : UTF8String).m_length))) ∧
    lt ⟨[97, 0xC3, 0xA9, 0], 4, 2⟩ ⟨[97, 0xEC, 0x84, 0xB8, 0], 5, 2⟩ = .ok true :=
  ⟨by decide, by decide,
    lt_iff_lexicographic ⟨[97, 0xC3, 0xA9, 0], 4, 2⟩ ⟨[97, 0xEC, 0x84, 0xB8, 0], 5, 2⟩
      (by decide) (by decide),
    by decide⟩

/-- C27: for every well-formed string `s` and every `i` below its symbol length,
`get_code_point( i )` returns the Unicode scalar value that the bytes of symbol `i`
encode, whatever their number from 1 to 4 (with `bytes_to_uint32` packing the first
byte in the least-significant position); these bytes are the ones `get_symbol( i )`
holds before its terminator, run `i` of the byte-width walk.  For `"세계"`, bytes
`EC 84 B8 EA B3 84`, the code point of symbol 0 is `0xC138`. -/
theorem get_code_point_scalar (s : UTF8String) (hs : WellFormed s) (i : Nat)
    (hi : i < s.m_length) :
    (∃ r, s.get_symbol i = .ok r ∧ content r = (syms s).getD i [] ∧
      1 ≤ (content r).length ∧ (content r).length ≤ 4 ∧
      s.get_code_point i = .ok (utf8_scalar_value (content r))) ∧
    (get_code_point ⟨[0xEC, 0x84, 0xB8, 0xEA, 0xB3, 0x84, 0], 7, 2⟩ 0 = .ok 0xC138 ∧
      get_code_point ⟨[0xEC, 0x84, 0xB8, 0xEA, 0xB3, 0x84, 0], 7, 2⟩ 1 = .ok 0xACC4) := by
  refine ⟨?_, by decide⟩
  have hv := hs.valid
  have hrep := hs.rep_eq
  generalize syms s = xs at hv hrep
  subst hrep
  have hi2 : i < xs.length := hi
  have hvs : ValidSymbol xs[i] := hv.1 _ (List.getElem_mem hi2)
  have hcont : content (of_symbols [xs[i]]) = xs[i] := by
    rw [content_of_symbols]; simp
  refine ⟨_, get_symbol_of_symbols xs i hv hi2, ?_, ?_, ?_, ?_⟩
  · rw [hcont, List.getD_eq_getElem _ _ hi2]
  · rw [hcont]; exact List.length_pos.mpr hvs.1.ne_nil
  · rw [hcont]; exact hvs.1.length_le
  · rw [hcont]; exact get_code_point_of_symbols xs i hv hi2

/-- An instance of C27: the two-byte symbol of `"aé"`, U+00E9. -/
theorem get_code_point_scalar_witness :
    WellFormed ⟨[97, 0xC3, 0xA9, 0], 4, 2⟩ ∧
    1 < (⟨[97, 0xC3, 0xA9, 0], 4, 2⟩ : UTF8String).m_length ∧
    (∃ r, get_symbol ⟨[97, 0xC3, 0xA9, 0], 4, 2⟩ 1 = .ok r ∧
      content r = (syms ⟨[97, 0xC3, 0xA9, 0], 4, 2⟩).getD 1 [] ∧
      1 ≤ (content r).length ∧ (content r).length ≤ 4 ∧
      get_code_point ⟨[97, 0xC3, 0xA9, 0], 4, 2⟩ 1 = .ok (utf8_scalar_value (content r))) ∧
    get_code_point ⟨[97, 0xC3, 0xA9, 0], 4, 2⟩ 1 = .ok 0xE9 :=
  ⟨by decide, by decide,
    (get_code_point_scalar ⟨[97, 0xC3, 0xA9, 0], 4, 2⟩ (by decide) 1 (by decide)).1,
    by decide⟩

/-- C28: for every well-formed string `s` (so with no zero byte before its terminator) and
every `i` below its symbol length, `get_symbol( i )` returns a well-formed string of
symbol length 1 and byte length `w + 1`, whose bytes before the terminator are the `w`
bytes of `s` from byte index `b` on, where `b` is the byte index of symbol `i` and `w` the
byte width there: the run `i` of the byte-width walk.  So the first symbol of `"세계"` is
the three-byte string `"세"`. -/
theorem get_symbol_bytes (s : UTF8String) (hs : WellFormed s) (i : Nat)
    (hi : i < s.m_length) :
    (∃ r b w, s.get_symbol i = .ok r ∧ s.get_byte_index_for_symbol_index i = .ok b ∧
      s.get_byte_width b = .ok w ∧
      r.m_length = 1 ∧ r.m_data_length = w + 1 ∧
      r.m_data = (s.m_data.drop b).take w ++ [0] ∧
      (s.m_data.drop b).take w = (syms s).getD i [] ∧ WellFormed r) ∧
    (of_cstr [0xEC, 0x84, 0xB8, 0xEA, 0xB3, 0x84, 0] =
        .ok ⟨[0xEC, 0x84, 0xB8, 0xEA, 0xB3, 0x84, 0], 7, 2⟩ ∧
      get_symbol ⟨[0xEC, 0x84, 0xB8, 0xEA, 0xB3, 0x84, 0], 7, 2⟩ 0 =
        .ok ⟨[0xEC, 0x84, 0xB8, 0], 4, 1⟩) := by
  refine ⟨?_, by decide⟩
  have hv := hs.valid
  have hrep := hs.rep_eq
  generalize syms s = xs at hv hrep
  subst hrep
  have hi2 : i < xs.length := hi
  obtain ⟨h1, h2, h3⟩ := symbol_run_of_symbols xs i hv hi2
  refine ⟨_, _, _, get_symbol_of_symbols xs i hv hi2, h1, h2, rfl, ?_, ?_, ?_,
    (hv.singleton i hi2).wellFormed⟩
  · simp [of_symbols]
  · rw [h3]; simp [of_symbols]
  · rw [h3, List.getD_eq_getElem _ _ hi2]

/-- An instance of C28: the second symbol of `"세계"`. -/
theorem get_symbol_bytes_witness :
    WellFormed ⟨[0xEC, 0x84, 0xB8, 0xEA, 0xB3, 0x84, 0], 7, 2⟩ ∧
    1 < (⟨[0xEC, 0x84, 0xB8, 0xEA, 0xB3, 0x84, 0], 7, 2⟩ : UTF8String).m_length ∧
    (∃ r b w, get_symbol ⟨[0xEC, 0x84, 0xB8, 0xEA, 0xB3, 0x84, 0], 7, 2⟩ 1 = .ok r ∧
      get_byte_index_for_symbol_index ⟨[0xEC, 0x84, 0xB8, 0xEA, 0xB3, 0x84, 0], 7, 2⟩ 1 =
        .ok b ∧
      get_byte_width ⟨[0xEC, 0x84, 0xB8, 0xEA, 0xB3, 0x84, 0], 7, 2⟩ b = .ok w ∧
      r.m_length = 1 ∧ r.m_data_length = w + 1 ∧
      r.m_data = ([0xEC, 0x84, 0xB8, 0xEA, 0xB3, 0x84, 0].drop b).take w ++ [0] ∧
      ([0xEC, 0x84, 0xB8, 0xEA, 0xB3, 0x84, 0].drop b).take w =
        (syms ⟨[0xEC, 0x84, 0xB8, 0xEA, 0xB3, 0x84, 0], 7, 2⟩).getD 1 [] ∧
      WellFormed r) :=
  ⟨by decide, by decide,
    (get_symbol_bytes ⟨[0xEC, 0x84, 0xB8, 0xEA, 0xB3, 0x84, 0], 7, 2⟩ (by decide) 1
      (by decide)).1⟩

/-! ## Emptiness and the empty needle (C40, C33) -/

/-- C40: for every string `s`, `is_empty()` is true if and only if the symbol length
`get_length()` is 0, and if and only if the byte length is 1. -/
theorem is_empty_iff_length (s : UTF8String) (hs : Inv s) :
    (s.is_empty = true ↔ s.get_length = 0) ∧ (s.is_empty = true ↔ s.m_data_length = 1) := by
  have hp := hs.pos
  have h2 : s.is_empty = true ↔ s.m_data_length = 1 := by
    simp only [is_empty, decide_eq_true_eq]
    omega
  refine ⟨?_, h2⟩
  constructor
  · intro he
    exact hs.empty_length he
  · intro h0
    by_contra hne
    have hne2 : s.is_empty = false := by simpa using hne
    have := hs.length_pos hne2
    simp only [get_length] at h0
    omega

/-- An instance of C40: the string `"é"`, of byte length 3 and symbol length 1. -/
theorem is_empty_iff_length_witness :
    Inv ⟨[0xC3, 0xA9, 0], 3, 1⟩ ∧
    (is_empty ⟨[0xC3, 0xA9, 0], 3, 1⟩ = true ↔ get_length ⟨[0xC3, 0xA9, 0], 3, 1⟩ = 0) ∧
    (is_empty ⟨[0xC3, 0xA9, 0], 3, 1⟩ = true ↔
      (⟨[0xC3, 0xA9, 0], 3, 1⟩ : UTF8String).m_data_length = 1) :=
  ⟨by decide, is_empty_iff_length ⟨[0xC3, 0xA9, 0], 3, 1⟩ (by decide)⟩

/-- C33: for every string `s`, the empty one included, `s.find_first( "" )` returns 0: the
loop bound `m_length - ( substring.m_length - 1 )`, taken in `std::size_t`, wraps to
`m_length + 1`, so the loop runs, and the inner comparison of no symbols matches at
index 0. -/
theorem find_first_empty_needle (s : UTF8String) (hs : Inv s) :
    of_cstr [0] = .ok ⟨[0], 1, 0⟩ ∧
    s.find_first ⟨[0], 1, 0⟩ = .ok 0 ∧
    (s.m_length + SIZE_MOD -
      ((⟨[0], 1, 0⟩ : UTF8String).m_length + SIZE_MOD - 1) % SIZE_MOD) % SIZE_MOD =
      s.m_length + 1 ∧
    find_first ⟨[0], 1, 0⟩ ⟨[0], 1, 0⟩ = .ok 0 := by
  have hlen : s.m_length < 2 ^ 63 := by
    have h1 := hs.symbols_le_bytes
    have h2 := hs.2.1
    rw [PTRDIFF_MAX_eq] at h2
    omega
  have hb : (s.m_length + SIZE_MOD -
      ((⟨[0], 1, 0⟩ : UTF8String).m_length + SIZE_MOD - 1) % SIZE_MOD) % SIZE_MOD =
      s.m_length + 1 := by
    simp only [SIZE_MOD_eq]
    omega
  refine ⟨by decide, ?_, hb, by decide⟩
  unfold find_first
  simp only [hb]
  have hn : ¬ (⟨[0], 1, 0⟩ : UTF8String).m_length > s.m_length := by simp
  rw [if_neg hn]
  simp [find_first_loop, find_first_match, bind, Except.bind]

/-- An instance of C33: the string `"é,"`. -/
theorem find_first_empty_needle_witness :
    Inv ⟨[0xC3, 0xA9, 44, 0], 4, 2⟩ ∧
    find_first ⟨[0xC3, 0xA9, 44, 0], 4, 2⟩ ⟨[0], 1, 0⟩ = .ok 0 :=
  ⟨by decide, (find_first_empty_needle ⟨[0xC3, 0xA9, 44, 0], 4, 2⟩ (by decide)).2.1⟩

/-! ## The symbol index of a byte (C31, C37) -/

/-- C31: for every string `s` (well-formed or not) and every byte offset `b` below
`byte_length - 1`, `get_symbol_index_for_byte_index( b )` returns a symbol index `k` below
the symbol length with `b` in the bytes of symbol `k`, from its byte index to that plus
its width, and `k` is the only such index; so the symbol index of the byte index of
symbol `i` is `i`. -/
theorem symbol_index_of_byte (s : UTF8String) (hs : Inv s) (b : Nat)
    (hb : b < s.m_data_length - 1) :
    (∃ k, s.get_symbol_index_for_byte_index b = .ok k ∧ k < s.m_length ∧
      (∃ bi w, s.get_byte_index_for_symbol_index k = .ok bi ∧
        s.get_symbol_width k = .ok w ∧ bi ≤ b ∧ b < bi + w) ∧
      (∀ k' bi' w', k' < s.m_length → s.get_byte_index_for_symbol_index k' = .ok bi' →
        s.get_symbol_width k' = .ok w' → bi' ≤ b → b < bi' + w' → k' = k)) ∧
    (∀ i, i < s.m_length → ∃ bi, s.get_byte_index_for_symbol_index i = .ok bi ∧
      s.get_symbol_index_for_byte_index bi = .ok i) := by
  have hcall : ∀ (b k : Nat), walk s k < s.m_data_length - 1 → walk s k ≤ b →
      b < walk s (k + 1) → b < s.m_data_length →
      s.get_symbol_index_for_byte_index b = .ok k := by
    intro b k h1 h2 h3 h4
    unfold get_symbol_index_for_byte_index
    simp only [check_byte_index, ge_iff_le, not_le.mpr h4, if_false, bind, Except.bind]
    exact symbol_index_loop_found s b k h1 h2 h3 _ 0 (Nat.zero_le _)
      (by show s.m_data_length - 1 - 0 < s.m_data_length + 1; omega)
  constructor
  · obtain ⟨k, h1, h2⟩ := walk_cover s b
    have hk : walk s k < s.m_data_length - 1 := by omega
    have hkl : k < s.m_length := (hs.lt_length_iff k).mpr hk
    refine ⟨k, hcall b k hk h1 h2 (by omega), hkl, ?_, ?_⟩
    · exact ⟨_, _, (get_byte_index_walk s hs k hkl).1, get_symbol_width_walk s hs k hkl, h1,
        by rw [← walk_succ]; exact h2⟩
    · intro k' bi' w' hk' hbi hw hle hlt
      rw [(get_byte_index_walk s hs k' hk').1] at hbi
      rw [get_symbol_width_walk s hs k' hk'] at hw
      have e1 := Except.ok.inj hbi
      have e2 := Except.ok.inj hw
      have e3 := walk_succ s k'
      rcases Nat.lt_trichotomy k' k with hlt' | heq | hgt
      · have := walk_le s (k' + 1) k (by omega)
        omega
      · exact heq
      · have := walk_le s (k + 1) k' (by omega)
        omega
  · intro i hi
    obtain ⟨h1, h2⟩ := get_byte_index_walk s hs i hi
    exact ⟨_, h1, hcall _ i h2 (le_refl _) (walk_lt s i (i + 1) (by omega)) (by omega)⟩

/-- An instance of C31: byte offset 4, inside the third symbol of `"aé세"`. -/
theorem symbol_index_of_byte_witness :
    Inv ⟨[97, 0xC3, 0xA9, 0xEC, 0x84, 0xB8, 0], 7, 3⟩ ∧
    4 < (⟨[97, 0xC3, 0xA9, 0xEC, 0x84, 0xB8, 0], 7, 3⟩ : UTF8String).m_data_length - 1 ∧
    (∀ i, i < (⟨[97, 0xC3, 0xA9, 0xEC, 0x84, 0xB8, 0], 7, 3⟩ : UTF8String).m_length →
      ∃ bi, get_byte_index_for_symbol_index
          ⟨[97, 0xC3, 0xA9, 0xEC, 0x84, 0xB8, 0], 7, 3⟩ i = .ok bi ∧
        get_symbol_index_for_byte_index
          ⟨[97, 0xC3, 0xA9, 0xEC, 0x84, 0xB8, 0], 7, 3⟩ bi = .ok i) ∧
    get_symbol_index_for_byte_index ⟨[97, 0xC3, 0xA9, 0xEC, 0x84, 0xB8, 0], 7, 3⟩ 4 = .ok 2 :=
  ⟨by decide, by decide,
    (symbol_index_of_byte ⟨[97, 0xC3, 0xA9, 0xEC, 0x84, 0xB8, 0], 7, 3⟩ (by decide) 4
      (by decide)).2,
    by decide⟩

/-- C37: for every well-formed string `s`, the offset of the terminator,
`byte_length - 1`, passes the bounds check of `get_symbol_index_for_byte_index`, and the
call returns `npos`, which is no symbol index of `s`; on the empty string this is
offset 0. -/
theorem terminator_symbol_index (s : UTF8String) (hs : WellFormed s) :
    s.check_byte_index (s.m_data_length - 1) = .ok () ∧
    s.get_symbol_index_for_byte_index (s.m_data_length - 1) = .ok npos ∧
    ¬ npos < s.m_length ∧
    get_symbol_index_for_byte_index ⟨[0], 1, 0⟩ 0 = .ok npos := by
  have hp := hs.1.pos
  have hc : s.check_byte_index (s.m_data_length - 1) = .ok () := by
    have : ¬ s.m_data_length - 1 ≥ s.m_data_length := by omega
    simp only [check_byte_index, this, if_false]
  refine ⟨hc, ?_, ?_, by decide⟩
  · unfold get_symbol_index_for_byte_index
    simp only [hc, bind, Except.bind]
    apply symbol_index_loop_none s _ _ _ 0
      (by show s.m_data_length - 1 - 0 < s.m_data_length + 1; omega)
    intro k hk
    have hkl : k < s.m_length := (hs.1.lt_length_iff k).mpr hk
    have := walk_le s (k + 1) s.m_length (by omega)
    rw [hs.walk_length] at this
    exact this
  · have h1 := hs.1.symbols_le_bytes
    have h2 := hs.1.2.1
    rw [PTRDIFF_MAX_eq] at h2
    rw [npos_eq]
    omega

/-- An instance of C37: offset 6, the terminator of `"aé세"`. -/
theorem terminator_symbol_index_witness :
    WellFormed ⟨[97, 0xC3, 0xA9, 0xEC, 0x84, 0xB8, 0], 7, 3⟩ ∧
    get_symbol_index_for_byte_index ⟨[97, 0xC3, 0xA9, 0xEC, 0x84, 0xB8, 0], 7, 3⟩
      ((⟨[97, 0xC3, 0xA9, 0xEC, 0x84, 0xB8, 0], 7, 3⟩ : UTF8String).m_data_length - 1) =
      .ok npos :=
  ⟨by decide, (terminator_symbol_index ⟨[97, 0xC3, 0xA9, 0xEC, 0x84, 0xB8, 0], 7, 3⟩
    (by decide)).2.1⟩

/-! ## Nesting of the numeric predicates and the order (C38, C39) -/

/-- C38: for every string `s` of well-formed UTF-8, the three predicates return, and
`is_uint()` implies `is_int()`, which implies `is_float()`. -/
theorem predicates_nested (s : UTF8String) (hs : WellFormedUTF8 s) :
    (∃ u i f, s.is_uint = .ok u ∧ s.is_int = .ok i ∧ s.is_float = .ok f ∧
      (u = true → i = true) ∧ (i = true → f = true)) := by
  have hwf := hs.structural
  obtain ⟨u, hu⟩ := is_uint_total s hs.1.2.2.2
  obtain ⟨i, hi⟩ := is_int_total s hs.1.2.2.2
  have hf := is_float_returns s hwf
  obtain ⟨f, hf⟩ := hf
  refine ⟨u, i, f, hu, hi, hf, ?_, ?_⟩
  · intro h
    rw [h] at hu
    have := is_int_of_uint s hwf hu
    rw [hi] at this
    exact Except.ok.inj this
  · intro h
    rw [h] at hi
    have := is_float_of_int s hs hi
    rw [hf] at this
    exact Except.ok.inj this

/-- An instance of C38: the string `"42"`. -/
theorem predicates_nested_witness :
    WellFormedUTF8 ⟨[52, 50, 0], 3, 2⟩ ∧
    ∃ u i f, is_uint ⟨[52, 50, 0], 3, 2⟩ = .ok u ∧ is_int ⟨[52, 50, 0], 3, 2⟩ = .ok i ∧
      is_float ⟨[52, 50, 0], 3, 2⟩ = .ok f ∧ (u = true → i = true) ∧ (i = true → f = true) :=
  ⟨by decide, predicates_nested ⟨[52, 50, 0], 3, 2⟩ (by decide)⟩

/-- C39: on strings of well-formed UTF-8 (which hold no zero byte before the terminator),
`operator<` returns and is a strict total order that agrees with `operator==`: of
`a < b`, `a == b` and `b < a` exactly one holds, and `a < b` with `b < c` gives `a < c`. -/
theorem lt_strict_total_order (a b c : UTF8String) (ha : WellFormedUTF8 a)
    (hb : WellFormedUTF8 b) (hc : WellFormedUTF8 c) :
    ((a.lt b = .ok true ∧ a.eq b = false ∧ b.lt a = .ok false) ∨
      (a.lt b = .ok false ∧ a.eq b = true ∧ b.lt a = .ok false) ∨
      (a.lt b = .ok false ∧ a.eq b = false ∧ b.lt a = .ok true)) ∧
    (a.lt b = .ok true → b.lt c = .ok true → a.lt c = .ok true) := by
  have hsa := ha.2
  have hsb := hb.2
  have hva := ha.structural.valid
  have hra := ha.structural.rep_eq
  have hvb := hb.structural.valid
  have hrb := hb.structural.rep_eq
  have hvc := hc.structural.valid
  have hrc := hc.structural.rep_eq
  generalize syms a = xs at hva hra hsa
  generalize syms b = ys at hvb hrb hsb
  generalize syms c = zs at hvc hrc
  subst hra hrb hrc
  rw [lt_of_symbols xs ys hva hvb, lt_of_symbols ys xs hvb hva, lt_of_symbols ys zs hvb hvc,
    lt_of_symbols xs zs hva hvc, eq_of_symbols xs ys hva hvb]
  constructor
  · by_cases he : xs = ys
    · right; left
      subst he
      rw [lex_lt_irrefl]
      exact ⟨rfl, by simp, rfl⟩
    · have hne : xs.map utf8_scalar_value ≠ ys.map utf8_scalar_value :=
        fun h => he (scalar_map_inj xs ys hsa hsb h)
      rcases lex_lt_total _ _ hne with h | h
      · left
        rw [h, lex_lt_asymm _ _ h]
        exact ⟨rfl, by simp [he], rfl⟩
      · right; right
        rw [h, lex_lt_asymm _ _ h]
        exact ⟨rfl, by simp [he], rfl⟩
  · intro h1 h2
    have e1 := Except.ok.inj h1
    have e2 := Except.ok.inj h2
    rw [lex_lt_trans _ _ _ e1 e2]

/-- An instance of C39: `"a"`, `"é"` and `"세"`, of one, two and three bytes. -/
theorem lt_strict_total_order_witness :
    WellFormedUTF8 ⟨[97, 0], 2, 1⟩ ∧ WellFormedUTF8 ⟨[0xC3, 0xA9, 0], 3, 1⟩ ∧
    WellFormedUTF8 ⟨[0xEC, 0x84, 0xB8, 0], 4, 1⟩ ∧
    (lt ⟨[97, 0], 2, 1⟩ ⟨[0xC3, 0xA9, 0], 3, 1⟩ = .ok true →
      lt ⟨[0xC3, 0xA9, 0], 3, 1⟩ ⟨[0xEC, 0x84, 0xB8, 0], 4, 1⟩ = .ok true →
      lt ⟨[97, 0], 2, 1⟩ ⟨[0xEC, 0x84, 0xB8, 0], 4, 1⟩ = .ok true) ∧
    lt ⟨[97, 0], 2, 1⟩ ⟨[0xC3, 0xA9, 0], 3, 1⟩ = .ok true :=
  ⟨by decide, by decide, by decide,
    (lt_strict_total_order ⟨[97, 0], 2, 1⟩ ⟨[0xC3, 0xA9, 0], 3, 1⟩
      ⟨[0xEC, 0x84, 0xB8, 0], 4, 1⟩ (by decide) (by decide) (by decide)).2,
    by decide⟩

/-! ## `split` by the first match of the delimiter (C32, C36) -/

/-- C32: for every well-formed string `s` and well-formed non-empty delimiter `d`, `split`
follows `find_first`: when `s.find_first( d )` is `npos`, `s.split( d )` is `[ s ]`;
otherwise, with `p = s.find_first( d )`, it is `s.substring( 0, p )` followed by the
elements of `r.split( d )`, where `r` is `s` from symbol index `p + d.get_length()` on.
So `d.split( d )` is two empty strings, and `"a,b,,c".split( "," )` is
`[ "a", "b", "", "c" ]`. -/
theorem split_leftmost (s d : UTF8String) (hs : WellFormed s) (hd : WellFormed d)
    (hne : d.is_empty = false) :
    (∃ p, s.find_first d = .ok p ∧
      (p = npos → s.split d = .ok [s]) ∧
      (p ≠ npos → ∃ h r rest, s.substring 0 p = .ok h ∧
        s.substring (p + d.get_length) s.get_length = .ok r ∧ r.split d = .ok rest ∧
        s.split d = .ok (h :: rest))) ∧
    d.split d = .ok [⟨[0], 1, 0⟩, ⟨[0], 1, 0⟩] ∧
    split ⟨[97, 44, 98, 44, 44, 99, 0], 7, 6⟩ ⟨[44, 0], 2, 1⟩ =
      .ok [⟨[97, 0], 2, 1⟩, ⟨[98, 0], 2, 1⟩, ⟨[0], 1, 0⟩, ⟨[99, 0], 2, 1⟩] := by
  have hvx := hs.valid
  have hrx := hs.rep_eq
  have hxl := hs.length_lt_npos
  have hvd := hd.valid
  have hrd := hd.rep_eq
  generalize syms s = xs at hvx hrx hxl
  generalize syms d = ds at hvd hrd
  subst hrx hrd
  have hds : ds ≠ [] := by
    rw [is_empty_of_symbols ds hvd.complete] at hne
    simpa using hne
  have hrec := split_symbols_rec xs ds hds
  refine ⟨⟨_, find_first_of_symbols xs ds hvx hvd, ?_, ?_⟩, ?_, by decide⟩
  · intro hp
    rcases find_first_symbols_spec xs ds hds hxl with ⟨_, h2⟩ | ⟨h1, _, _⟩
    · rw [split_of_symbols xs ds hvx hvd hds, hrec.1 h2]
      rfl
    · omega
  · intro hp
    rcases find_first_symbols_spec xs ds hds hxl with ⟨h1, _⟩ | ⟨h1, h2, h3⟩
    · exact absurd h1 hp
    · refine ⟨_, _, _, substring_head_of_symbols xs hvx _ (by omega),
        substring_tail_of_symbols xs hvx _ h1,
        split_of_symbols _ ds (hvx.drop _) hvd hds, ?_⟩
      rw [split_of_symbols xs ds hvx hvd hds, hrec.2 _ h2 h3]
      rfl
  · have hrec2 := split_symbols_rec ds ds hds
    have hrec3 := split_symbols_rec ([] : List (List Nat)) ds hds
    have h0 : (ds.drop 0).take ds.length = ds := by simp
    rw [split_of_symbols ds ds hvd hvd hds, hrec2.2 0 h0 (fun j hj => by omega)]
    have hnil : ds.drop (0 + ds.length) = [] := by simp
    rw [hnil, hrec3.1 (fun j hj => hds (by simpa using hj.symm))]
    rfl

/-- An instance of C32: the delimiter `"é,"` in a string that holds it twice. -/
theorem split_leftmost_witness :
    WellFormed ⟨[97, 0xC3, 0xA9, 44, 98, 0xC3, 0xA9, 44, 0], 9, 6⟩ ∧
    WellFormed ⟨[0xC3, 0xA9, 44, 0], 4, 2⟩ ∧
    is_empty ⟨[0xC3, 0xA9, 44, 0], 4, 2⟩ = false ∧
    (∃ p, find_first ⟨[97, 0xC3, 0xA9, 44, 98, 0xC3, 0xA9, 44, 0], 9, 6⟩
        ⟨[0xC3, 0xA9, 44, 0], 4, 2⟩ = .ok p ∧
      (p = npos → split ⟨[97, 0xC3, 0xA9, 44, 98, 0xC3, 0xA9, 44, 0], 9, 6⟩
        ⟨[0xC3, 0xA9, 44, 0], 4, 2⟩ =
          .ok [⟨[97, 0xC3, 0xA9, 44, 98, 0xC3, 0xA9, 44, 0], 9, 6⟩]) ∧
      (p ≠ npos → ∃ h r rest,
        substring ⟨[97, 0xC3, 0xA9, 44, 98, 0xC3, 0xA9, 44, 0], 9, 6⟩ 0 p = .ok h ∧
        substring ⟨[97, 0xC3, 0xA9, 44, 98, 0xC3, 0xA9, 44, 0], 9, 6⟩
          (p + get_length ⟨[0xC3, 0xA9, 44, 0], 4, 2⟩)
          (get_length ⟨[97, 0xC3, 0xA9, 44, 98, 0xC3, 0xA9, 44, 0], 9, 6⟩) = .ok r ∧
        r.split ⟨[0xC3, 0xA9, 44, 0], 4, 2⟩ = .ok rest ∧
        split ⟨[97, 0xC3, 0xA9, 44, 98, 0xC3, 0xA9, 44, 0], 9, 6⟩
          ⟨[0xC3, 0xA9, 44, 0], 4, 2⟩ = .ok (h :: rest))) ∧
    split ⟨[97, 0xC3, 0xA9, 44, 98, 0xC3, 0xA9, 44, 0], 9, 6⟩ ⟨[0xC3, 0xA9, 44, 0], 4, 2⟩ =
      .ok [⟨[97, 0], 2, 1⟩, ⟨[98, 0], 2, 1⟩, ⟨[0], 1, 0⟩] :=
  ⟨by decide, by decide, by decide,
    (split_leftmost ⟨[97, 0xC3, 0xA9, 44, 98, 0xC3, 0xA9, 44, 0], 9, 6⟩
      ⟨[0xC3, 0xA9, 44, 0], 4, 2⟩ (by decide) (by decide) (by decide)).1,
    by decide⟩

/-- C36: for every well-formed string `s` and well-formed non-empty delimiter `d`,
`s.split( d )` returns, and `e.find_first( d )` is `npos` for every element `e` of the
result. -/
theorem split_elements_without_delimiter (s d : UTF8String) (hs : WellFormed s)
    (hd : WellFormed d) (hne : d.is_empty = false) :
    ∃ els, s.split d = .ok els ∧ ∀ e ∈ els, e.find_first d = .ok npos := by
  have hvx := hs.valid
  have hrx := hs.rep_eq
  have hvd := hd.valid
  have hrd := hd.rep_eq
  generalize syms s = xs at hvx hrx
  generalize syms d = ds at hvd hrd
  subst hrx hrd
  have hds : ds ≠ [] := by
    rw [is_empty_of_symbols ds hvd.complete] at hne
    simpa using hne
  refine ⟨_, split_of_symbols xs ds hvx hvd hds, ?_⟩
  intro e he
  obtain ⟨l, hl, rfl⟩ := List.mem_map.mp he
  obtain ⟨hno, hsub⟩ := split_symbols_elements ds hds _ xs rfl l hl
  have hvl : Valid l := hvx.sublist hsub
  have hll : l.length < npos := by
    have := hvl.lt_size
    rw [npos_eq]
    omega
  rw [find_first_of_symbols l ds hvl hvd]
  rcases find_first_symbols_spec l ds hds hll with ⟨h1, _⟩ | ⟨_, h2, _⟩
  · rw [h1]
  · exact absurd h2 (hno _)

/-- An instance of C36: the delimiter `"é,"` in a string that holds it twice. -/
theorem split_elements_without_delimiter_witness :
    WellFormed ⟨[97, 0xC3, 0xA9, 44, 98, 0xC3, 0xA9, 44, 0], 9, 6⟩ ∧
    WellFormed ⟨[0xC3, 0xA9, 44, 0], 4, 2⟩ ∧
    is_empty ⟨[0xC3, 0xA9, 44, 0], 4, 2⟩ = false ∧
    ∃ els, split ⟨[97, 0xC3, 0xA9, 44, 98, 0xC3, 0xA9, 44, 0], 9, 6⟩
        ⟨[0xC3, 0xA9, 44, 0], 4, 2⟩ = .ok els ∧
      ∀ e ∈ els, e.find_first ⟨[0xC3, 0xA9, 44, 0], 4, 2⟩ = .ok npos :=
  ⟨by decide, by decide, by decide,
    split_elements_without_delimiter ⟨[97, 0xC3, 0xA9, 44, 98, 0xC3, 0xA9, 44, 0], 9, 6⟩
      ⟨[0xC3, 0xA9, 44, 0], 4, 2⟩ (by decide) (by decide) (by decide)⟩

/-! ## `remove_duplicates` applied again, and what it leaves (C34, C35) -/

/-- C34: for every well-formed string `s` and every well-formed non-empty `sub`,
`remove_duplicates( sub )` returns, and applied to its own result it leaves that result
unchanged. -/
theorem remove_duplicates_idempotent (s sub : UTF8String) (hs : WellFormed s)
    (hsub : WellFormed sub) (hne : sub.is_empty = false) :
    ∃ r, s.remove_duplicates sub = .ok r ∧ r.remove_duplicates sub = .ok r := by
  have hvx := hs.valid
  have hrx := hs.rep_eq
  have hxl := hs.length_lt_npos
  have hvd := hsub.valid
  have hrd := hsub.rep_eq
  generalize syms s = xs at hvx hrx hxl
  generalize syms sub = ds at hvd hrd
  subst hrx hrd
  have hds : ds ≠ [] := by
    rw [is_empty_of_symbols ds hvd.complete] at hne
    simpa using hne
  obtain ⟨h1, h2⟩ := remove_duplicates_of_list xs ds hvx hvd hds
  refine ⟨_, h1, ?_⟩
  rw [(remove_duplicates_of_list _ ds h2 hvd hds).1,
    remove_duplicates_list_idem ds hds _ xs rfl hxl]

/-- An instance of C34: the substring `"aba"`, which overlaps itself, in
`"abaabaababa"`. -/
theorem remove_duplicates_idempotent_witness :
    WellFormed ⟨[97, 98, 97, 97, 98, 97, 97, 98, 97, 98, 97, 0], 12, 11⟩ ∧
    WellFormed ⟨[97, 98, 97, 0], 4, 3⟩ ∧ is_empty ⟨[97, 98, 97, 0], 4, 3⟩ = false ∧
    ∃ r, remove_duplicates ⟨[97, 98, 97, 97, 98, 97, 97, 98, 97, 98, 97, 0], 12, 11⟩
        ⟨[97, 98, 97, 0], 4, 3⟩ = .ok r ∧
      r.remove_duplicates ⟨[97, 98, 97, 0], 4, 3⟩ = .ok r :=
  ⟨by decide, by decide, by decide,
    remove_duplicates_idempotent ⟨[97, 98, 97, 97, 98, 97, 97, 98, 97, 98, 97, 0], 12, 11⟩
      ⟨[97, 98, 97, 0], 4, 3⟩ (by decide) (by decide) (by decide)⟩

/-- C35, as stated, fails: `"aba"` overlaps itself, and `remove_duplicates( "aba" )` leaves
`"ababaaba"` as it is, as the copy at symbol 2 overlaps the one found at symbol 0; the
result holds `"abaaba"` at symbol 2. -/
theorem remove_duplicates_overlap_counterexample :
    WellFormed ⟨[97, 98, 97, 98, 97, 97, 98, 97, 0], 9, 8⟩ ∧
    WellFormed ⟨[97, 98, 97, 0], 4, 3⟩ ∧ is_empty ⟨[97, 98, 97, 0], 4, 3⟩ = false ∧
    remove_duplicates ⟨[97, 98, 97, 98, 97, 97, 98, 97, 0], 9, 8⟩ ⟨[97, 98, 97, 0], 4, 3⟩ =
      .ok ⟨[97, 98, 97, 98, 97, 97, 98, 97, 0], 9, 8⟩ ∧
    concatenate ⟨[97, 98, 97, 0], 4, 3⟩ ⟨[97, 98, 97, 0], 4, 3⟩ =
      .ok ⟨[97, 98, 97, 97, 98, 97, 0], 7, 6⟩ ∧
    find_first ⟨[97, 98, 97, 98, 97, 97, 98, 97, 0], 9, 8⟩
      ⟨[97, 98, 97, 97, 98, 97, 0], 7, 6⟩ = .ok 2 ∧
    (2 : Nat) ≠ npos := by
  decide

/-- C35, amended: for every well-formed string `s` and every well-formed non-empty `sub`
that cannot overlap itself (no proper non-empty end of `sub`, `sub.substring( k,
sub.get_length() )` with `0 < k < sub.get_length()`, is a start of `sub`),
`remove_duplicates( sub )` returns a string in which `find_first( sub + sub )` is
`npos`. -/
theorem remove_duplicates_no_adjacent (s sub : UTF8String) (hs : WellFormed s)
    (hsub : WellFormed sub) (hne : sub.is_empty = false)
    (hub : ∀ k, 0 < k → k < sub.m_length → ∀ t,
      sub.substring k sub.get_length = .ok t → sub.starts_with t = .ok false) :
    ∃ r, s.remove_duplicates sub = .ok r ∧
      ∀ dd, sub.concatenate sub = .ok dd → Inv dd → r.find_first dd = .ok npos := by
  have hvx := hs.valid
  have hrx := hs.rep_eq
  have hxl := hs.length_lt_npos
  have hvd := hsub.valid
  have hrd := hsub.rep_eq
  generalize syms s = xs at hvx hrx hxl
  generalize syms sub = ds at hvd hrd
  subst hrx hrd
  have hds : ds ≠ [] := by
    rw [is_empty_of_symbols ds hvd.complete] at hne
    simpa using hne
  have hub2 : ∀ k, 0 < k → k < ds.length → ds.drop k ≠ ds.take (ds.length - k) := by
    intro k h1 h2 heq
    have := hub k h1 h2 _ (substring_tail_of_symbols ds hvd k (by omega))
    rw [starts_with_of_symbols ds (ds.drop k) hvd (hvd.drop k), List.length_drop] at this
    have hf := Except.ok.inj this
    rw [decide_eq_false_iff_not] at hf
    exact hf heq.symm
  obtain ⟨h1, h2⟩ := remove_duplicates_of_list xs ds hvx hvd hds
  refine ⟨_, h1, ?_⟩
  intro dd hdd hinv
  rw [concatenate_of_symbols ds ds hvd hvd] at hdd
  have hdd2 := Except.ok.inj hdd
  subst hdd2
  have hvdd : Valid (ds ++ ds) := valid_append_of_inv ds ds hvd hvd hinv
  have hll : (remove_duplicates_list ds xs).length < npos := by
    have := h2.lt_size
    rw [npos_eq]
    omega
  rw [find_first_of_symbols _ _ h2 hvdd]
  rcases find_first_symbols_spec (remove_duplicates_list ds xs) (ds ++ ds) (by simp [hds])
    hll with ⟨e, _⟩ | ⟨_, hm, _⟩
  · rw [e]
  · exact absurd (window_double _ ds _ hm)
      (remove_duplicates_list_no_double ds hds hub2 _ xs rfl hxl _)

/-- An instance of the amended C35: the substring `"é,"` in `"é,é,é,a"`. -/
theorem remove_duplicates_no_adjacent_witness :
    WellFormed ⟨[0xC3, 0xA9, 44, 0xC3, 0xA9, 44, 0xC3, 0xA9, 44, 97, 0], 11, 7⟩ ∧
    WellFormed ⟨[0xC3, 0xA9, 44, 0], 4, 2⟩ ∧
    is_empty ⟨[0xC3, 0xA9, 44, 0], 4, 2⟩ = false ∧
    substring ⟨[0xC3, 0xA9, 44, 0], 4, 2⟩ 1 (get_length ⟨[0xC3, 0xA9, 44, 0], 4, 2⟩) =
      .ok ⟨[44, 0], 2, 1⟩ ∧
    starts_with ⟨[0xC3, 0xA9, 44, 0], 4, 2⟩ ⟨[44, 0], 2, 1⟩ = .ok false ∧
    ∃ r, remove_duplicates ⟨[0xC3, 0xA9, 44, 0xC3, 0xA9, 44, 0xC3, 0xA9, 44, 97, 0], 11, 7⟩
        ⟨[0xC3, 0xA9, 44, 0], 4, 2⟩ = .ok r ∧
      ∀ dd, concatenate ⟨[0xC3, 0xA9, 44, 0], 4, 2⟩ ⟨[0xC3, 0xA9, 44, 0], 4, 2⟩ = .ok dd →
        Inv dd → r.find_first dd = .ok npos :=
  ⟨by decide, by decide, by decide, by decide, by decide,
    remove_duplicates_no_adjacent
      ⟨[0xC3, 0xA9, 44, 0xC3, 0xA9, 44, 0xC3, 0xA9, 44, 97, 0], 11, 7⟩
      ⟨[0xC3, 0xA9, 44, 0], 4, 2⟩ (by decide) (by decide) (by decide)
      (by
        intro k h1 h2 t ht
        have hk : k = 1 := by
          have h3 : k < 2 := h2
          omega
        subst hk
        have e : substring ⟨[0xC3, 0xA9, 44, 0], 4, 2⟩ 1
            (get_length ⟨[0xC3, 0xA9, 44, 0], 4, 2⟩) = .ok ⟨[44, 0], 2, 1⟩ := by decide
        rw [e] at ht
        rw [← Except.ok.inj ht]
        decide)⟩
end UTF8String

end str
end chaos
